import Mathlib

set_option linter.unusedSectionVars false
set_option linter.unusedVariables false
set_option maxRecDepth 4000

/-!
# A shallow embedding of `CSLPQ::Queue` / `CSLPQ::KVQueue` (`src/include/CSLPQ/Queue.hpp`)

The repository implements a lock-free skip-list priority queue.  We embed the
algorithm over an explicit heap of nodes: node ids are indices into a list of
`Node` records, a forward link is a `(pointer, mark)` pair, and every C++ loop
becomes a fuel-indexed recursion returning `Option` (with `none` for fuel
exhaustion, a null-`head` dereference, or an out-of-range access).  The
sequential (quiescent, interleaving-free) semantics of each operation is what
the theorems below speak about; where a claim is about a concurrency-reachable
intermediate point, the function is split at that point
(`tryPopAfterFind`).

Both the key-only `Queue<K, L>` and the key/value `KVQueue<K, V, L>` share one
token-for-token algorithm in the source; we embed the shared core once,
parameterised by the value type `V` (the key-only variant is `V := Unit`).
The move constructors/assignments, which do differ between the two variants,
are embedded separately.

`Node.hpp` and `Concepts.hpp` are not part of `src/`; the node and
marked-pointer primitives are therefore modelled from spec sections 4.1/4.2,
and each such definition carries a `Modelled from the spec:` comment.
-/

namespace CSLPQ

/-- Modelled from the spec: the atomic marked pointer (§4.1 of the spec;
`Node.hpp` is not in `src/`): "A single atomic word holding (next-node
reference, mark bit)".  A null reference is `none`. -/
structure MPtr where
  ptr : Option Nat
  mark : Bool
deriving DecidableEq, Repr

/-- Modelled from the spec: a skip-list node (§4.2; `Node.hpp` is not in
`src/`): priority, optional value (`Unit` for the key-only queue), level
count, `level`-many forward links and the `inserting` flag. -/
structure Node (K V : Type) where
  priority : K
  data : V
  level : Nat
  next : List MPtr
  inserting : Bool
deriving DecidableEq

/-- The queue object of `Queue.hpp`: `max_size`, the owning `head` pointer
(an id into the node heap, clearable by the move operations), the node heap
reachable from it, and the atomic `u32` `size` counter. -/
structure QState (K V : Type) where
  maxSize : Nat
  head : Option Nat
  nodes : List (Node K V)
  size : Nat
deriving DecidableEq

variable {K V : Type}

/-- Heap lookup of a node by id. -/
def nodeAt (s : QState K V) (i : Nat) : Option (Node K V) := s.nodes[i]?

/-- The `(pointer, mark)` cell `next[ℓ]` of node `i`, if it exists. -/
def linkAt (s : QState K V) (i ℓ : Nat) : Option MPtr :=
  (nodeAt s i).bind (fun nd => nd.next[ℓ]?)

/-- Overwrite the cell `next[ℓ]` of node `i` (no-op on a dangling id). -/
def setLink (s : QState K V) (i ℓ : Nat) (mp : MPtr) : QState K V :=
  match s.nodes[i]? with
  | none => s
  | some nd => { s with nodes := s.nodes.set i { nd with next := nd.next.set ℓ mp } }

/-- Modelled from the spec: `Node::GetNextPointerAndMark(level)` (§4.2,
"atomic load of the pair"; `Node.hpp` is not in `src/`). -/
def getNextPM (s : QState K V) (i ℓ : Nat) : Option (Option Nat × Bool) := do
  let mp ← linkAt s i ℓ
  pure (mp.ptr, mp.mark)

/-- Modelled from the spec: `Node::GetNextPointer(level)` — the reference
half of the pair (§4.2; `Node.hpp` is not in `src/`). -/
def getNextPtr (s : QState K V) (i ℓ : Nat) : Option (Option Nat) :=
  (getNextPM s i ℓ).map (·.1)

/-- Modelled from the spec: `Node::CompareExchange(level, expected, new)`
(§4.2, "expects mark=false, installs (new_succ, false)"; `Node.hpp` is not in
`src/`).  Returns the new state and the CAS outcome. -/
def compareExchange (s : QState K V) (i ℓ : Nat) (expected newp : Option Nat) :
    Option (QState K V × Bool) := do
  let (p, m) ← getNextPM s i ℓ
  if p = expected ∧ m = false then pure (setLink s i ℓ ⟨newp, false⟩, true)
  else pure (s, false)

/-- Modelled from the spec: `Node::TestAndSetMark(0, expected)` (§4.1,
"CAS from (expected_ref, false) to (expected_ref, true)"; `Node.hpp` is
not in `src/`).  Used by the level-0 pop claim. -/
def testAndSetMark (s : QState K V) (i : Nat) (expected : Option Nat) :
    Option (QState K V × Bool) := do
  let (p, m) ← getNextPM s i 0
  if p = expected ∧ m = false then pure (setLink s i 0 ⟨expected, true⟩, true)
  else pure (s, false)

/-- Modelled from the spec: `Node::SetNextMark(level)` (§4.1,
"unconditionally set the mark bit, preserving the successor reference";
`Node.hpp` is not in `src/`). -/
def setNextMark (s : QState K V) (i ℓ : Nat) : Option (QState K V) := do
  let (p, _) ← getNextPM s i ℓ
  pure (setLink s i ℓ ⟨p, true⟩)

/-- Modelled from the spec: `Node::SetNext(level, ref)` (§4.2, "store used
only before publication"; `Node.hpp` is not in `src/`). -/
def setNext (s : QState K V) (i ℓ : Nat) (p : Option Nat) : Option (QState K V) := do
  let _ ← getNextPM s i ℓ
  pure (setLink s i ℓ ⟨p, false⟩)

/-- Modelled from the spec: `Node::SetDoneInserting()` (§4.2; `Node.hpp` is
not in `src/`). -/
def setDoneInserting (s : QState K V) (i : Nat) : Option (QState K V) := do
  let nd ← nodeAt s i
  pure { s with nodes := s.nodes.set i { nd with inserting := false } }

/-- Outcome of one pass of a search: either a result, or the `retry = true`
restart signal of `FindLastOfPriority` / `FindFirst` together with the state
accumulated by the physical unlinks performed before the failing CAS. -/
inductive SRes (K V : Type) (α : Type) where
  | retry (s : QState K V)
  | ok (a : α)

variable [LinearOrder K]

/-- The per-level walk of `Queue::FindLastOfPriority` (Queue.hpp lines
59-98): starting after `pred` at `cur`, repeatedly resolve a marked
successor by CAS-unlinking it out of `pred` (restart on CAS failure), advance
over nodes of priority `< k`, and stop at the first node with priority
`≥ k` (or at the end of the level).  Returns the final state, predecessor and
successor for this level. -/
def walkLevel : Nat → QState K V → Nat → Nat → Option Nat → K →
    Option (SRes K V (QState K V × Nat × Option Nat))
  | 0, _, _, _, _, _ => none
  | fuel+1, s, ℓ, pred, curOpt, k =>
    match curOpt with
    | none => some (.ok (s, pred, none))
    | some cur => do
      let (succ, marked) ← getNextPM s cur ℓ
      if marked then do
        let (s1, snip) ← compareExchange s pred ℓ (some cur) succ
        if snip then walkLevel fuel s1 ℓ pred succ k
        else pure (.retry s1)
      else
        match nodeAt s cur with
        | none => none
        | some nd =>
          if nd.priority < k then walkLevel fuel s ℓ cur succ k
          else some (.ok (s, pred, some cur))

/-- The level loop of `Queue::FindLastOfPriority` (lines 57-105): walk the
levels `nlev-1, …, 0` top-down, starting each level at the predecessor found
one level up, and record the per-level predecessors and successors (index `ℓ`
of the returned lists is level `ℓ`). -/
def findLevels : Nat → QState K V → Nat → Nat → K →
    Option (SRes K V (QState K V × List Nat × List (Option Nat)))
  | _, s, 0, _, _ => some (.ok (s, [], []))
  | fuel, s, nlev+1, pred, k => do
    let cur ← getNextPtr s pred nlev
    match ← walkLevel fuel s nlev pred cur k with
    | .retry s1 => pure (.retry s1)
    | .ok (s1, pred1, cur1) =>
      match ← findLevels fuel s1 nlev pred1 k with
      | .retry s2 => pure (.retry s2)
      | .ok (s2, ps, ss) => pure (.ok (s2, ps ++ [pred1], ss ++ [cur1]))

/-- `Queue::FindLastOfPriority` (lines 42-111): restart the level descent
from `head` until no physical-unlink CAS fails. -/
def findLast : Nat → QState K V → Nat → K →
    Option (QState K V × List Nat × List (Option Nat))
  | 0, _, _, _ => none
  | fuel+1, s, nlev, k =>
    match s.head with
    | none => none
    | some hid =>
      match findLevels (fuel+1) s nlev hid k with
      | none => none
      | some (.retry s1) => findLast fuel s1 nlev k
      | some (.ok r) => some r

/-- The per-level mark resolution of `Queue::FindFirst` (lines 130-155): the
front of the level is repeatedly CAS-unlinked out of `pred` while its own
next-link is marked (restart on CAS failure). -/
def ffResolve : Nat → QState K V → Nat → Nat → Option Nat →
    Option (SRes K V (QState K V × Option Nat))
  | 0, _, _, _, _ => none
  | fuel+1, s, ℓ, pred, curOpt =>
    match curOpt with
    | none => some (.ok (s, none))
    | some cur => do
      let (succ, marked) ← getNextPM s cur ℓ
      if marked then do
        let (s1, snip) ← compareExchange s pred ℓ (some cur) succ
        if snip then ffResolve fuel s1 ℓ pred succ
        else pure (.retry s1)
      else pure (.ok (s, some cur))

/-- The level loop of `Queue::FindFirst` (lines 128-165): descend from the
top level, resolving marked front nodes at each level (the predecessor always
stays `head`), and return the level-0 front node (or `none` if the list is
empty at level 0). -/
def findFirstLevels : Nat → QState K V → Nat → Nat →
    Option (SRes K V (QState K V × Option Nat))
  | _, _, 0, _ => none
  | fuel, s, nlev+1, pred => do
    let cur ← getNextPtr s pred nlev
    match ← ffResolve fuel s nlev pred cur with
    | .retry s1 => pure (.retry s1)
    | .ok (s1, cur1) =>
      if nlev = 0 then pure (.ok (s1, cur1))
      else findFirstLevels fuel s1 nlev pred

/-- `Queue::FindFirst` (lines 113-167): restart the descent from `head`
until no unlink CAS fails; returns the first node of level 0 after cleanup
(`none` when the queue is empty). -/
def findFirst : Nat → QState K V → Nat → Option (QState K V × Option Nat)
  | 0, _, _ => none
  | fuel+1, s, nlev =>
    match s.head with
    | none => none
    | some hid =>
      match findFirstLevels (fuel+1) s nlev hid with
      | none => none
      | some (.retry s1) => findFirst fuel s1 nlev
      | some (.ok r) => some r

/-- `Queue::Wait` (lines 25-31): if `max_size` is nonzero, busy-wait while
`size >= max_size`.  Sequentially the loop body changes nothing, so the
recursion re-checks the same condition and `none` (fuel exhaustion at every
fuel) is the spin that never exits. -/
def waitGate : Nat → Nat → Nat → Option Unit
  | 0, _, _ => none
  | fuel+1, maxSize, size =>
    if maxSize ≠ 0 ∧ maxSize ≤ size then waitGate fuel maxSize size
    else some ()

/-- The pre-publication stores of `Queue::Push` (lines 204-207):
`new_node->SetNext(level, successors[level])` for `level = start, …,
start+togo-1`. -/
def setNexts : QState K V → Nat → List (Option Nat) → Nat → Nat → Option (QState K V)
  | s, _, _, _, 0 => some s
  | s, nid, ss, ℓ, togo+1 => do
    let sl ← ss[ℓ]?
    let s1 ← setNext s nid ℓ sl
    setNexts s1 nid ss (ℓ+1) togo

/-- The inner retry loop of `Queue::Push` for one upper level (lines
214-221): CAS `predecessors[ℓ].next[ℓ] : successors[ℓ] → new_node`; on
failure re-run `FindLastOfPriority` and retry the same level. -/
def linkLevel : Nat → QState K V → Nat → Nat → Nat → K → List Nat → List (Option Nat) →
    Option (QState K V × List Nat × List (Option Nat))
  | 0, _, _, _, _, _, _, _ => none
  | fuel+1, s, nlev, nid, ℓ, k, ps, ss => do
    let pl ← ps[ℓ]?
    let sl ← ss[ℓ]?
    let (s1, okb) ← compareExchange s pl ℓ sl (some nid)
    if okb then pure (s1, ps, ss)
    else do
      let (s2, ps1, ss1) ← findLast (fuel+1) s1 nlev k
      linkLevel fuel s2 nlev nid ℓ k ps1 ss1

/-- The upper-level linking loop of `Queue::Push` (lines 212-222): link the
new node at levels `ℓ, …, ℓ+togo-1`. -/
def linkUppers : Nat → QState K V → Nat → Nat → K → List Nat → List (Option Nat) →
    Nat → Nat → Option (QState K V)
  | _, s, _, _, _, _, _, _, 0 => some s
  | fuel, s, nlev, nid, k, ps, ss, ℓ, togo+1 => do
    let (s1, ps1, ss1) ← linkLevel fuel s nlev nid ℓ k ps ss
    linkUppers fuel s1 nlev nid k ps1 ss1 (ℓ+1) togo

/-- The publication loop of `Queue::Push` (lines 201-224): search, store the
successors into the new node, attempt the bottom-level publishing CAS
(restart the whole loop on failure), then link the upper levels. -/
def pushLoop : Nat → QState K V → Nat → Nat → Nat → K → Option (QState K V)
  | 0, _, _, _, _, _ => none
  | fuel+1, s, nlev, nid, lvl, k => do
    let (s1, ps, ss) ← findLast (fuel+1) s nlev k
    let s2 ← setNexts s1 nid ss 0 lvl
    let p0 ← ps[0]?
    let succ0 ← ss[0]?
    let (s3, okb) ← compareExchange s2 p0 0 succ0 (some nid)
    if okb then linkUppers (fuel+1) s3 nlev nid k ps ss 1 (lvl - 1)
    else pushLoop fuel s3 nlev nid lvl k

/-- `Queue::Push(priority)` / `KVQueue::Push(priority, data)` (lines 193-227
and 525-559): wait on the capacity gate, allocate the node (id = current heap
size, `new_level = lvl` forward links, `inserting = true`), run the
publication loop, clear `inserting`, and increment the `u32` `size`.  The
random `GenerateRandomLevel()` draw is passed in as the explicit parameter
`lvl` (the source draws it uniformly from `{1, …, L+1}`). -/
def push (fuel L : Nat) (s : QState K V) (k : K) (d : V) (lvl : Nat) :
    Option (QState K V) := do
  let _ ← waitGate fuel s.maxSize s.size
  let nid := s.nodes.length
  let s1 : QState K V :=
    { s with nodes := s.nodes ++ [⟨k, d, lvl, List.replicate lvl ⟨none, false⟩, true⟩] }
  let s2 ← pushLoop fuel s1 (L+1) nid lvl k
  let s3 ← setDoneInserting s2 nid
  pure { s3 with size := (s3.size + 1) % 2^32 }

/-- The upper-level marking loop of `Queue::TryPop` (lines 243-246):
`SetNextMark(level)` for `level = first->GetLevel()-1` down to `1`. -/
def markUpper : QState K V → Nat → Nat → Option (QState K V)
  | s, _, 0 => some s
  | s, nid, ℓ+1 => do
    let s1 ← setNextMark s nid (ℓ+1)
    markUpper s1 nid ℓ

/-- The tail of `Queue::TryPop` / `KVQueue::TryPop` after `FindFirst` has
returned `first = nid` (lines 234-259 / 566-592): bail out on the
`inserting` flag, mark the upper levels, read the level-0 successor, write
the out-parameters `priority` (and `data` in the KV variant), and attempt the
level-0 claim CAS; decrement the `u32` `size` only on success.  The returned
`K` and `V` components are the final values of the caller's by-reference
arguments, whose incoming values are `pr0` and `d0`. -/
def tryPopAfterFind (s : QState K V) (nid : Nat) (pr0 : K) (d0 : V) :
    Option (QState K V × Bool × K × V) := do
  let nd ← nodeAt s nid
  if nd.inserting then pure (s, false, pr0, d0)
  else do
    let s1 ← markUpper s nid (nd.level - 1)
    let succ ← getNextPtr s1 nid 0
    let pr := nd.priority
    let d := nd.data
    let (s2, okb) ← testAndSetMark s1 nid succ
    if okb then pure ({ s2 with size := (s2.size + (2^32 - 1)) % 2^32 }, true, pr, d)
    else pure (s2, false, pr, d)

/-- `Queue::TryPop(priority)` / `KVQueue::TryPop(priority, data)` (lines
229-260 / 561-593).  Returns `false` when `FindFirst` yields null, when the
found node is still inserting, or when the claim CAS loses. -/
def tryPop (fuel L : Nat) (s : QState K V) (pr0 : K) (d0 : V) :
    Option (QState K V × Bool × K × V) := do
  let r ← findFirst fuel s (L+1)
  match r with
  | (s1, none) => pure (s1, false, pr0, d0)
  | (s1, some nid) => tryPopAfterFind s1 nid pr0 d0

/-- `Queue::GetSize` (lines 262-265). -/
def getSize (s : QState K V) : Nat := s.size

/-- The `Queue` / `KVQueue` constructor (lines 170-172 / 464-466): a
sentinel head node with default priority (and, in the KV variant, default
data), full height `L+1`, `inserting = false`, and `size = 0`. -/
def initQ [Inhabited K] [Inhabited V] (L maxSize : Nat) : QState K V :=
  ⟨maxSize, some 0, [⟨default, default, L+1, List.replicate (L+1) ⟨none, false⟩, false⟩], 0⟩

/-- `Queue::Queue(Queue&&)` (lines 176-180): the new queue copies
`max_size`, `head` and `size`; the moved-from queue's `head` is nulled —
and nothing else (its `size` is left as it was). -/
def moveCtorQ (other : QState K V) : QState K V × QState K V :=
  (⟨other.maxSize, other.head, other.nodes, other.size⟩, { other with head := none })

/-- `Queue::operator=(Queue&&)` (lines 184-191): the target takes `other`'s
`max_size`, `head` (with the heap it owns) and `size`; `other.head` is
nulled and `other.size` is left unchanged. -/
def moveAssignQ (dst other : QState K V) : QState K V × QState K V :=
  ({ dst with maxSize := other.maxSize, head := other.head, nodes := other.nodes,
              size := other.size },
   { other with head := none })

/-- `KVQueue::KVQueue(KVQueue&&)` (lines 470-475): same as the key-only move
constructor but the moved-from queue additionally gets `size = 0`. -/
def moveCtorKV (other : QState K V) : QState K V × QState K V :=
  (⟨other.maxSize, other.head, other.nodes, other.size⟩,
   { other with head := none, size := 0 })

/-- `KVQueue::operator=(KVQueue&&)` (lines 479-487): same as the key-only
move assignment but the moved-from queue additionally gets `size = 0`. -/
def moveAssignKV (dst other : QState K V) : QState K V × QState K V :=
  ({ dst with maxSize := other.maxSize, head := other.head, nodes := other.nodes,
              size := other.size },
   { other with head := none, size := 0 })

/-- `KVQueue::Push(const K& priority)` (lines 489-523).  Modelled from the
spec: the one-argument `KVNode(priority, level)` constructor (`Node.hpp` is
not in `src/`) leaves the node's value default-constructed (§4.2
"Constructors produce a node with a given priority (and optionally value)";
§6 constraints require `V` to be default-constructible for this overload). -/
def kvPushOne [Inhabited V] (fuel L : Nat) (s : QState K V) (k : K) (lvl : Nat) :
    Option (QState K V) :=
  push fuel L s k (default : V) lvl

/-- Push a whole list of `(key, random-level)` pairs left to right. -/
def pushSeq [Inhabited V] (fuel L : Nat) : QState K V → List (K × Nat) → Option (QState K V)
  | s, [] => some s
  | s, (k, lvl) :: rest => do
    let s1 ← push fuel L s k default lvl
    pushSeq fuel L s1 rest

/-- Call `tryPop` `n` times, collecting each `(returned flag, priority
out-parameter)` pair; the out-parameters persist across calls the way a
caller's local variables would. -/
def popN (fuel L : Nat) : QState K V → Nat → K → V →
    Option (QState K V × List (Bool × K))
  | s, 0, _, _ => some (s, [])
  | s, n+1, pr0, d0 => do
    let (s1, b, pr, d) ← tryPop fuel L s pr0 d0
    let (s2, rest) ← popN fuel L s1 n pr d
    pure (s2, (b, pr) :: rest)

/-- An executable trace of the physical chain at level `ℓ` starting at
pointer `p` (used to exhibit concrete list layouts). -/
def chainF : Nat → QState K V → Nat → Option Nat → Option (List Nat)
  | 0, _, _, _ => none
  | _+1, _, _, none => some []
  | fuel+1, s, ℓ, some i => do
    let mp ← linkAt s i ℓ
    let rest ← chainF fuel s ℓ mp.ptr
    pure (i :: rest)

/-- The executable bottom-level chain of a queue state, traced from
`head.next[0]`. -/
def bottomChain (s : QState K V) : Option (List Nat) := do
  let hid ← s.head
  let mp ← linkAt s hid 0
  chainF (s.nodes.length + 1) s 0 mp.ptr

/-! ## The quiescent-state invariant

The predicates below describe the class of states reachable by completed
`Push`/`TryPop` calls from a fresh queue (quiescence): a sorted bottom-level
chain whose logically deleted (marked) nodes form a front prefix, upper-level
chains that are the level-filtered bottom chain minus an unlinked marked
front, all-or-nothing marks per node, and a `size` counter that equals the
number of live nodes (mod `2^32`). -/

/-- The priority of node `i` (default priority on a dangling id; the head's
priority is the default `K()` and is never compared by the algorithm). -/
def prioD [Inhabited K] (s : QState K V) (i : Nat) : K :=
  match nodeAt s i with
  | some nd => nd.priority
  | none => default

/-- The mark bit of node `i`'s `next[ℓ]` cell (`false` on a dangling id). -/
def markB (s : QState K V) (i ℓ : Nat) : Bool :=
  match linkAt s i ℓ with
  | some mp => mp.mark
  | none => false

/-- The pointer half of node `i`'s `next[ℓ]` cell. -/
def ptrAt (s : QState K V) (i ℓ : Nat) : Option Nat :=
  match linkAt s i ℓ with
  | some mp => mp.ptr
  | none => none

/-- The level count of node `i` (0 on a dangling id). -/
def levelOf (s : QState K V) (i : Nat) : Nat :=
  match nodeAt s i with
  | some nd => nd.level
  | none => 0

/-- The length of node `i`'s forward-link array (0 on a dangling id). -/
def linksLen (s : QState K V) (i : Nat) : Nat :=
  match nodeAt s i with
  | some nd => nd.next.length
  | none => 0

/-- The `inserting` flag of node `i`. -/
def insB (s : QState K V) (i : Nat) : Bool :=
  match nodeAt s i with
  | some nd => nd.inserting
  | none => true

/-- `IsChain s ℓ p c`: following the `next[ℓ]` pointers from `p` traces
exactly the ids `c` and ends at null. -/
inductive IsChain : QState K V → Nat → Option Nat → List Nat → Prop
  | nil (s : QState K V) (ℓ : Nat) : IsChain s ℓ none []
  | cons (s : QState K V) (ℓ i : Nat) (nd : Node K V) (mp : MPtr) (rest : List Nat) :
      nodeAt s i = some nd → nd.next[ℓ]? = some mp →
      IsChain s ℓ mp.ptr rest → IsChain s ℓ (some i) (i :: rest)

/-- Ids listed in non-decreasing priority order. -/
def SortedIds [Inhabited K] (s : QState K V) (c : List Nat) : Prop :=
  List.Chain' (fun i j => prioD s i ≤ prioD s j) c

/-- The level-`ℓ` filtering of the bottom chain: the ids of height `> ℓ`, in
bottom-chain order. -/
def FL (s : QState K V) (c0 : List Nat) (ℓ : Nat) : List Nat :=
  c0.filter (fun i => decide (ℓ < levelOf s i))

/-- The live (level-0-unmarked) ids of a chain, in chain order. -/
def liveIds (s : QState K V) (c0 : List Nat) : List Nat :=
  c0.filter (fun i => markB s i 0 = false)

/-- The priorities of the live nodes of a chain, in chain order. -/
def livePrios [Inhabited K] (s : QState K V) (c0 : List Nat) : List K :=
  (liveIds s c0).map (prioD s)

/-- The full quiescent invariant, with the per-level chains `c` given
explicitly (`c ℓ` is the physical chain at level `ℓ`; only `ℓ ≤ L` is
meaningful). -/
structure InvC [Inhabited K] (L : Nat) (s : QState K V) (c : Nat → List Nat) : Prop where
  head_some : s.head = some 0
  head_node : ∃ nd, nodeAt s 0 = some nd ∧ nd.level = L + 1 ∧ nd.inserting = false
  head_unmarked : ∀ ℓ, ℓ ≤ L → ∃ mp, linkAt s 0 ℓ = some mp ∧ mp.mark = false
  links_len : ∀ i nd, nodeAt s i = some nd → nd.next.length = nd.level
  all_wf : ∀ i nd, nodeAt s i = some nd → i ≠ 0 →
      1 ≤ nd.level ∧ nd.level ≤ L + 1 ∧ nd.inserting = false
  chain0 : IsChain s 0 (ptrAt s 0 0) (c 0)
  chain_up : ∀ ℓ, 1 ≤ ℓ → ℓ ≤ L → IsChain s ℓ (ptrAt s 0 ℓ) (c ℓ)
  c0_valid : ∀ i, i ∈ c 0 → i ≠ 0 ∧ (nodeAt s i).isSome
  nodup0 : (c 0).Nodup
  sorted0 : SortedIds s (c 0)
  marked_front : ∃ cm cu, c 0 = cm ++ cu ∧ (∀ i ∈ cm, markB s i 0 = true) ∧
      ∀ i ∈ cu, markB s i 0 = false
  marks_levels : ∀ i, i ∈ c 0 → ∀ ℓ, ℓ < levelOf s i → markB s i ℓ = markB s i 0
  upper_eq : ∀ ℓ, 1 ≤ ℓ → ℓ ≤ L →
      ∃ pre, FL s (c 0) ℓ = pre ++ c ℓ ∧ ∀ i ∈ pre, markB s i 0 = true
  complete0 : ∀ i nd, nodeAt s i = some nd → i ≠ 0 → markB s i 0 = false → i ∈ c 0
  size_eq : s.size = (liveIds s (c 0)).length % 2^32

/-- The quiescent invariant. -/
def Inv [Inhabited K] (L : Nat) (s : QState K V) : Prop := ∃ c, InvC L s c

/-- `t1` coincides with `t` except possibly in node `p`'s level-`ℓ` cell
(and even there only the pointer, never a priority, level, data or
`inserting` flag). -/
def FrameExcept [Inhabited K] (t1 t : QState K V) (p ℓ : Nat) : Prop :=
  (∀ j, j ≠ p → nodeAt t1 j = nodeAt t j) ∧
  (∀ ℓa, ℓa ≠ ℓ → linkAt t1 p ℓa = linkAt t p ℓa) ∧
  (∀ j, prioD t1 j = prioD t j) ∧
  (∀ j, levelOf t1 j = levelOf t j) ∧
  (∀ j, insB t1 j = insB t j) ∧
  (∀ j ℓa, j ≠ p → markB t1 j ℓa = markB t j ℓa) ∧
  (∀ ℓa, ℓa ≠ ℓ → markB t1 p ℓa = markB t p ℓa) ∧
  t1.size = t.size ∧ t1.head = t.head ∧ t1.maxSize = t.maxSize ∧
  t1.nodes.length = t.nodes.length ∧
  (∀ j, linksLen t1 j = linksLen t j)

/-- `t1` coincides with `t` except possibly in the head node's cells at
levels `< m`. -/
def FrameHead [Inhabited K] (t1 t : QState K V) (m : Nat) : Prop :=
  (∀ j, j ≠ 0 → nodeAt t1 j = nodeAt t j) ∧
  (∀ ℓa, m ≤ ℓa → linkAt t1 0 ℓa = linkAt t 0 ℓa) ∧
  (∀ j, prioD t1 j = prioD t j) ∧
  (∀ j, levelOf t1 j = levelOf t j) ∧
  (∀ j, insB t1 j = insB t j) ∧
  (∀ j ℓa, j ≠ 0 → markB t1 j ℓa = markB t j ℓa) ∧
  t1.size = t.size ∧ t1.head = t.head ∧ t1.maxSize = t.maxSize ∧
  t1.nodes.length = t.nodes.length ∧
  (∀ j, linksLen t1 j = linksLen t j)

/-- The conclusion of claim C2, as a predicate on a state: the bottom-level
chain exists, every live (unmarked) node of the heap appears in it exactly
once, and it is sorted in non-decreasing priority order. -/
def BottomLive [Inhabited K] (s : QState K V) : Prop :=
  ∃ hid c0, s.head = some hid ∧ IsChain s 0 (ptrAt s hid 0) c0 ∧ c0.Nodup ∧
    SortedIds s c0 ∧
    (∀ i nd, nodeAt s i = some nd → i ≠ hid → markB s i 0 = false → i ∈ liveIds s c0) ∧
    (∀ i, i ∈ liveIds s c0 → i ≠ hid ∧ (nodeAt s i).isSome ∧ markB s i 0 = false) ∧
    SortedIds s (liveIds s c0)

/-! ## Frame lemmas for the heap primitives -/

theorem nodeAt_setLink_ne (s : QState K V) (a ℓa i : Nat) (mp : MPtr) (h : i ≠ a) :
    nodeAt (setLink s a ℓa mp) i = nodeAt s i := by
  unfold setLink
  cases hx : s.nodes[a]? with
  | none => rfl
  | some nd => simp [nodeAt, List.getElem?_set_ne (Ne.symm h)]

theorem setLink_of_none (s : QState K V) (a ℓa : Nat) (mp : MPtr)
    (h : nodeAt s a = none) : setLink s a ℓa mp = s := by
  unfold setLink
  rw [show s.nodes[a]? = none from h]

theorem nodeAt_setLink_self (s : QState K V) (a ℓa : Nat) (mp : MPtr) (nd : Node K V)
    (h : nodeAt s a = some nd) :
    nodeAt (setLink s a ℓa mp) a = some { nd with next := nd.next.set ℓa mp } := by
  have h' : s.nodes[a]? = some nd := h
  simp only [setLink, h', nodeAt]
  rw [List.getElem?_set_self', h']
  rfl

theorem setLink_maxSize (s : QState K V) (a ℓa : Nat) (mp : MPtr) :
    (setLink s a ℓa mp).maxSize = s.maxSize := by
  unfold setLink; cases s.nodes[a]? <;> rfl

theorem setLink_head (s : QState K V) (a ℓa : Nat) (mp : MPtr) :
    (setLink s a ℓa mp).head = s.head := by
  unfold setLink; cases s.nodes[a]? <;> rfl

theorem setLink_size (s : QState K V) (a ℓa : Nat) (mp : MPtr) :
    (setLink s a ℓa mp).size = s.size := by
  unfold setLink; cases s.nodes[a]? <;> rfl

theorem setLink_nodes_length (s : QState K V) (a ℓa : Nat) (mp : MPtr) :
    (setLink s a ℓa mp).nodes.length = s.nodes.length := by
  unfold setLink; cases s.nodes[a]? <;> simp

theorem linkAt_setLink_ne_node (s : QState K V) (a ℓa i ℓ : Nat) (mp : MPtr) (h : i ≠ a) :
    linkAt (setLink s a ℓa mp) i ℓ = linkAt s i ℓ := by
  unfold linkAt; rw [nodeAt_setLink_ne s a ℓa i mp h]

theorem linkAt_setLink_ne_level (s : QState K V) (a ℓa ℓ : Nat) (mp : MPtr) (h : ℓ ≠ ℓa) :
    linkAt (setLink s a ℓa mp) a ℓ = linkAt s a ℓ := by
  cases hx : nodeAt s a with
  | none => rw [setLink_of_none s a ℓa mp hx]
  | some nd =>
    unfold linkAt
    rw [nodeAt_setLink_self s a ℓa mp nd hx, hx]
    simp only [Option.bind_eq_bind, Option.some_bind]
    exact List.getElem?_set_ne (Ne.symm h)

theorem linkAt_setLink_self (s : QState K V) (a ℓa : Nat) (mp mp0 : MPtr)
    (h : linkAt s a ℓa = some mp0) :
    linkAt (setLink s a ℓa mp) a ℓa = some mp := by
  unfold linkAt at h ⊢
  cases hx : nodeAt s a with
  | none => rw [hx] at h; exact absurd h (by simp)
  | some nd =>
    rw [hx] at h
    simp only [Option.bind_eq_bind, Option.some_bind] at h
    rw [nodeAt_setLink_self s a ℓa mp nd hx]
    simp only [Option.bind_eq_bind, Option.some_bind]
    have hlt : ℓa < nd.next.length := by
      by_contra hge
      rw [List.getElem?_eq_none (by omega)] at h
      exact absurd h (by simp)
    exact List.getElem?_set_eq_of_lt mp hlt

theorem prioD_setLink [Inhabited K] (s : QState K V) (a ℓa i : Nat) (mp : MPtr) :
    prioD (setLink s a ℓa mp) i = prioD s i := by
  rcases eq_or_ne i a with rfl | h
  · cases hx : nodeAt s i with
    | none => rw [setLink_of_none s i ℓa mp hx]
    | some nd => unfold prioD; rw [nodeAt_setLink_self s i ℓa mp nd hx, hx]
  · unfold prioD; rw [nodeAt_setLink_ne s a ℓa i mp h]

theorem levelOf_setLink (s : QState K V) (a ℓa i : Nat) (mp : MPtr) :
    levelOf (setLink s a ℓa mp) i = levelOf s i := by
  rcases eq_or_ne i a with rfl | h
  · cases hx : nodeAt s i with
    | none => rw [setLink_of_none s i ℓa mp hx]
    | some nd => unfold levelOf; rw [nodeAt_setLink_self s i ℓa mp nd hx, hx]
  · unfold levelOf; rw [nodeAt_setLink_ne s a ℓa i mp h]

theorem insB_setLink (s : QState K V) (a ℓa i : Nat) (mp : MPtr) :
    insB (setLink s a ℓa mp) i = insB s i := by
  rcases eq_or_ne i a with rfl | h
  · cases hx : nodeAt s i with
    | none => rw [setLink_of_none s i ℓa mp hx]
    | some nd => unfold insB; rw [nodeAt_setLink_self s i ℓa mp nd hx, hx]
  · unfold insB; rw [nodeAt_setLink_ne s a ℓa i mp h]

theorem linksLen_setLink (s : QState K V) (a ℓa i : Nat) (mp : MPtr) :
    linksLen (setLink s a ℓa mp) i = linksLen s i := by
  rcases eq_or_ne i a with rfl | h
  · cases hx : nodeAt s i with
    | none => rw [setLink_of_none s i ℓa mp hx]
    | some nd =>
      unfold linksLen
      rw [nodeAt_setLink_self s i ℓa mp nd hx, hx]
      simp
  · unfold linksLen; rw [nodeAt_setLink_ne s a ℓa i mp h]

theorem markB_setLink_ne_node (s : QState K V) (a ℓa i ℓ : Nat) (mp : MPtr) (h : i ≠ a) :
    markB (setLink s a ℓa mp) i ℓ = markB s i ℓ := by
  unfold markB; rw [linkAt_setLink_ne_node s a ℓa i ℓ mp h]

theorem markB_setLink_ne_level (s : QState K V) (a ℓa ℓ : Nat) (mp : MPtr) (h : ℓ ≠ ℓa) :
    markB (setLink s a ℓa mp) a ℓ = markB s a ℓ := by
  unfold markB; rw [linkAt_setLink_ne_level s a ℓa ℓ mp h]

theorem markB_setLink_self (s : QState K V) (a ℓa : Nat) (mp mp0 : MPtr)
    (h : linkAt s a ℓa = some mp0) :
    markB (setLink s a ℓa mp) a ℓa = mp.mark := by
  unfold markB; rw [linkAt_setLink_self s a ℓa mp mp0 h]

theorem isChain_cons_of_link (s : QState K V) (ℓ i : Nat) (mp : MPtr) (rest : List Nat)
    (h : linkAt s i ℓ = some mp) (hrest : IsChain s ℓ mp.ptr rest) :
    IsChain s ℓ (some i) (i :: rest) := by
  unfold linkAt at h
  cases hx : nodeAt s i with
  | none => rw [hx] at h; exact absurd h (by simp)
  | some nd =>
    rw [hx] at h
    simp only [Option.bind_eq_bind, Option.some_bind] at h
    exact IsChain.cons s ℓ i nd mp rest hx h hrest

theorem isChain_some_inv (s : QState K V) (ℓ i : Nat) (c : List Nat)
    (h : IsChain s ℓ (some i) c) :
    ∃ mp rest, c = i :: rest ∧ linkAt s i ℓ = some mp ∧ IsChain s ℓ mp.ptr rest := by
  cases h with
  | cons i nd mp rest hnd hmp hrest =>
    exact ⟨mp, rest, rfl, by unfold linkAt; rw [hnd]; simpa using hmp, hrest⟩

theorem isChain_none_inv (s : QState K V) (ℓ : Nat) (c : List Nat)
    (h : IsChain s ℓ none c) : c = [] := by
  cases h; rfl

theorem isChain_setLink (s : QState K V) (ℓ a ℓa : Nat) (mp : MPtr) (p : Option Nat)
    (c : List Nat) (hch : IsChain s ℓ p c) (h : ∀ j, j ∈ c → j ≠ a ∨ ℓ ≠ ℓa) :
    IsChain (setLink s a ℓa mp) ℓ p c := by
  induction hch with
  | nil => exact IsChain.nil _ _
  | cons i nd mp1 rest hnd hmp1 hrest ih =>
    have hlink : linkAt s i ℓ = some mp1 := by unfold linkAt; rw [hnd]; simpa using hmp1
    have hlink1 : linkAt (setLink s a ℓa mp) i ℓ = some mp1 := by
      rcases h i (by simp) with hne | hne
      · rw [linkAt_setLink_ne_node s a ℓa i ℓ mp hne]; exact hlink
      · rcases eq_or_ne i a with rfl | hia
        · rw [linkAt_setLink_ne_level s i ℓa ℓ mp hne]; exact hlink
        · rw [linkAt_setLink_ne_node s a ℓa i ℓ mp hia]; exact hlink
    exact isChain_cons_of_link _ ℓ i mp1 rest hlink1 (ih (fun j hj => h j (by simp [hj])))

theorem nodeAt_setSize (s : QState K V) (x : Nat) (a : Nat) :
    nodeAt { s with size := x } a = nodeAt s a := rfl

theorem linkAt_setSize (s : QState K V) (x : Nat) (a ℓ : Nat) :
    linkAt { s with size := x } a ℓ = linkAt s a ℓ := rfl

theorem markB_setSize (s : QState K V) (x : Nat) (a ℓ : Nat) :
    markB { s with size := x } a ℓ = markB s a ℓ := rfl

theorem prioD_setSize [Inhabited K] (s : QState K V) (x : Nat) (a : Nat) :
    prioD { s with size := x } a = prioD s a := rfl

theorem levelOf_setSize (s : QState K V) (x : Nat) (a : Nat) :
    levelOf { s with size := x } a = levelOf s a := rfl

theorem insB_setSize (s : QState K V) (x : Nat) (a : Nat) :
    insB { s with size := x } a = insB s a := rfl

theorem markB_setLink_split (s : QState K V) (a ℓa : Nat) (mp mp0 : MPtr)
    (h : linkAt s a ℓa = some mp0) (i ℓ : Nat) :
    markB (setLink s a ℓa mp) i ℓ = if i = a ∧ ℓ = ℓa then mp.mark else markB s i ℓ := by
  split_ifs with hif
  · obtain ⟨rfl, rfl⟩ := hif
    exact markB_setLink_self s i ℓ mp mp0 h
  · rcases eq_or_ne i a with rfl | hia
    · exact markB_setLink_ne_level s i ℓa ℓ mp (fun hll => hif ⟨rfl, hll⟩)
    · exact markB_setLink_ne_node s a ℓa i ℓ mp hia

theorem markB_eq_of_link (s : QState K V) (i ℓ : Nat) (mp : MPtr)
    (h : linkAt s i ℓ = some mp) : markB s i ℓ = mp.mark := by
  unfold markB; rw [h]

/-- `CompareExchange` never changes any mark bit: a successful CAS writes
`(new, false)` over a cell whose mark was `false`, a failed CAS writes
nothing. -/
theorem compareExchange_marks (s : QState K V) (i ℓ : Nat) (e n : Option Nat)
    (s' : QState K V) (b : Bool) (h : compareExchange s i ℓ e n = some (s', b))
    (a ℓa : Nat) : markB s' a ℓa = markB s a ℓa := by
  unfold compareExchange getNextPM at h
  cases hL : linkAt s i ℓ with
  | none => rw [hL] at h; simp at h
  | some mp =>
    rw [hL] at h
    simp only [Option.bind_eq_bind, Option.some_bind, Option.pure_def] at h
    split_ifs at h with hc
    · simp only [Option.some_inj, Prod.mk.injEq] at h
      obtain ⟨rfl, -⟩ := h
      rw [markB_setLink_split s i ℓ ⟨n, false⟩ mp hL a ℓa]
      split_ifs with hif
      · obtain ⟨rfl, rfl⟩ := hif
        rw [markB_eq_of_link s a ℓa mp hL, hc.2]
      · rfl
    · simp only [Option.some_inj, Prod.mk.injEq] at h
      obtain ⟨rfl, -⟩ := h
      rfl

/-- `TestAndSetMark` only ever sets a mark bit (monotone). -/
theorem testAndSetMark_marks (s : QState K V) (i : Nat) (e : Option Nat)
    (s' : QState K V) (b : Bool) (h : testAndSetMark s i e = some (s', b))
    (a ℓa : Nat) (hm : markB s a ℓa = true) : markB s' a ℓa = true := by
  unfold testAndSetMark getNextPM at h
  cases hL : linkAt s i 0 with
  | none => rw [hL] at h; simp at h
  | some mp =>
    rw [hL] at h
    simp only [Option.bind_eq_bind, Option.some_bind, Option.pure_def] at h
    split_ifs at h with hc
    · simp only [Option.some_inj, Prod.mk.injEq] at h
      obtain ⟨rfl, -⟩ := h
      rw [markB_setLink_split s i 0 ⟨e, true⟩ mp hL a ℓa]
      split_ifs with hif
      · rfl
      · exact hm
    · simp only [Option.some_inj, Prod.mk.injEq] at h
      obtain ⟨rfl, -⟩ := h
      exact hm

/-- `SetNextMark` only ever sets a mark bit (monotone). -/
theorem setNextMark_marks (s : QState K V) (i ℓ : Nat) (s' : QState K V)
    (h : setNextMark s i ℓ = some s') (a ℓa : Nat) (hm : markB s a ℓa = true) :
    markB s' a ℓa = true := by
  unfold setNextMark getNextPM at h
  cases hL : linkAt s i ℓ with
  | none => rw [hL] at h; simp at h
  | some mp =>
    rw [hL] at h
    simp only [Option.bind_eq_bind, Option.some_bind, Option.pure_def, Option.some_inj] at h
    subst h
    rw [markB_setLink_split s i ℓ ⟨mp.ptr, true⟩ mp hL a ℓa]
    split_ifs with hif
    · rfl
    · exact hm

theorem nodeAt_setDone (s : QState K V) (i : Nat) (s' : QState K V)
    (h : setDoneInserting s i = some s') (a : Nat) :
    ∃ nd, nodeAt s i = some nd ∧
      nodeAt s' a = if a = i then some { nd with inserting := false } else nodeAt s a := by
  unfold setDoneInserting at h
  cases hx : nodeAt s i with
  | none => rw [hx] at h; simp at h
  | some nd =>
    rw [hx] at h
    simp only [Option.bind_eq_bind, Option.some_bind, Option.pure_def, Option.some_inj] at h
    subst h
    refine ⟨nd, rfl, ?_⟩
    split_ifs with hif
    · subst hif
      simp only [nodeAt]
      rw [List.getElem?_set_self', show s.nodes[a]? = some nd from hx]
      rfl
    · simp only [nodeAt]
      exact List.getElem?_set_ne (Ne.symm hif)

theorem markB_setDone (s : QState K V) (i : Nat) (s' : QState K V)
    (h : setDoneInserting s i = some s') (a ℓa : Nat) :
    markB s' a ℓa = markB s a ℓa := by
  obtain ⟨nd, hnd, hall⟩ := nodeAt_setDone s i s' h a
  unfold markB linkAt
  rw [hall]
  split_ifs with hif
  · subst hif; rw [hnd]; rfl
  · rfl

/-- The per-level walk of `FindLastOfPriority` performs only `CompareExchange`
writes, so it changes no mark bit, whichever way it exits. -/
theorem walkLevel_marks (fuel : Nat) :
    ∀ (s : QState K V) (ℓ p : Nat) (c : Option Nat) (k : K) res,
      walkLevel fuel s ℓ p c k = some res → ∀ a ℓa,
      (match res with
       | .retry s1 => markB s1 a ℓa
       | .ok (s1, _, _) => markB s1 a ℓa) = markB s a ℓa := by
  induction fuel with
  | zero => intro s ℓ p c k res h; simp [walkLevel] at h
  | succ fuel ih =>
    intro s ℓ p c k res h a ℓa
    unfold walkLevel at h
    cases c with
    | none =>
      try dsimp only [] at h
      simp only [Option.some_inj] at h
      subst h; rfl
    | some cur =>
      try dsimp only [] at h
      unfold getNextPM at h
      cases hL : linkAt s cur ℓ with
      | none => rw [hL] at h; simp at h
      | some mp =>
        rw [hL] at h
        simp only [Option.bind_eq_bind, Option.some_bind, Option.pure_def] at h
        by_cases hmk : mp.mark = true
        · rw [if_pos hmk] at h
          cases hce : compareExchange s p ℓ (some cur) mp.ptr with
          | none => rw [hce] at h; simp at h
          | some pr =>
            obtain ⟨s1, snip⟩ := pr
            rw [hce] at h
            simp only [Option.bind_eq_bind, Option.some_bind] at h
            try dsimp only [] at h
            have hm1 : markB s1 a ℓa = markB s a ℓa :=
              compareExchange_marks s p ℓ (some cur) mp.ptr s1 snip hce a ℓa
            cases snip with
            | true =>
              simp only [if_true] at h
              rw [← hm1]
              exact ih s1 ℓ p mp.ptr k res h a ℓa
            | false =>
              simp only [Bool.false_eq_true, if_false, Option.pure_def,
                Option.some_inj] at h
              subst h
              exact hm1
        · rw [if_neg hmk] at h
          cases hnd : nodeAt s cur with
          | none => rw [hnd] at h; simp at h
          | some nd =>
            rw [hnd] at h
            try dsimp only [] at h
            by_cases hlt : nd.priority < k
            · rw [if_pos hlt] at h
              exact ih s ℓ cur mp.ptr k res h a ℓa
            · rw [if_neg hlt] at h
              simp only [Option.some_inj] at h
              subst h; rfl

/-- The level loop of `FindLastOfPriority` changes no mark bit. -/
theorem findLevels_marks (fuel : Nat) :
    ∀ (nlev : Nat) (s : QState K V) (p : Nat) (k : K) res,
      findLevels fuel s nlev p k = some res → ∀ a ℓa,
      (match res with
       | .retry s1 => markB s1 a ℓa
       | .ok (s1, _, _) => markB s1 a ℓa) = markB s a ℓa := by
  intro nlev
  induction nlev with
  | zero =>
    intro s p k res h a ℓa
    unfold findLevels at h
    simp only [Option.some_inj] at h
    subst h; rfl
  | succ nlev ih =>
    intro s p k res h a ℓa
    unfold findLevels at h
    cases hcur : getNextPtr s p nlev with
    | none => rw [hcur] at h; simp at h
    | some cur =>
      rw [hcur] at h
      simp only [Option.bind_eq_bind, Option.some_bind] at h
      cases hw : walkLevel fuel s nlev p cur k with
      | none => rw [hw] at h; simp at h
      | some wres =>
        rw [hw] at h
        simp only [Option.bind_eq_bind, Option.some_bind] at h
        have hwm := walkLevel_marks fuel s nlev p cur k wres hw a ℓa
        cases wres with
        | retry s1 =>
          simp only [Option.pure_def, Option.some_inj] at h
          subst h
          exact hwm
        | ok r =>
          obtain ⟨s1, p1, c1⟩ := r
          try dsimp only [] at h
          cases hf : findLevels fuel s1 nlev p1 k with
          | none => rw [hf] at h; simp at h
          | some fres =>
            rw [hf] at h
            simp only [Option.bind_eq_bind, Option.some_bind] at h
            have hfm := ih s1 p1 k fres hf a ℓa
            cases fres with
            | retry s2 =>
              simp only [Option.pure_def, Option.some_inj] at h
              subst h
              rw [← hwm]
              exact hfm
            | ok r2 =>
              obtain ⟨s2, ps, ss⟩ := r2
              simp only [Option.pure_def, Option.some_inj] at h
              subst h
              rw [← hwm]
              exact hfm

/-- `FindLastOfPriority` changes no mark bit. -/
theorem findLast_marks (fuel : Nat) :
    ∀ (s : QState K V) (nlev : Nat) (k : K) (s' : QState K V) ps ss,
      findLast fuel s nlev k = some (s', ps, ss) → ∀ a ℓa,
      markB s' a ℓa = markB s a ℓa := by
  induction fuel with
  | zero => intro s nlev k s' ps ss h; simp [findLast] at h
  | succ fuel ih =>
    intro s nlev k s' ps ss h a ℓa
    unfold findLast at h
    cases hh : s.head with
    | none => rw [hh] at h; simp at h
    | some hid =>
      rw [hh] at h
      try dsimp only [] at h
      cases hf : findLevels (fuel+1) s nlev hid k with
      | none => rw [hf] at h; simp at h
      | some fres =>
        rw [hf] at h
        have hfm := findLevels_marks (fuel+1) nlev s hid k fres hf a ℓa
        cases fres with
        | retry s1 =>
          rw [ih s1 nlev k s' ps ss h a ℓa]
          exact hfm
        | ok r =>
          obtain ⟨s1, ps1, ss1⟩ := r
          simp only [Option.some_inj, Prod.mk.injEq] at h
          obtain ⟨rfl, rfl, rfl⟩ := h
          exact hfm

/-- The per-level cleanup of `FindFirst` performs only `CompareExchange`
writes, so it changes no mark bit. -/
theorem ffResolve_marks (fuel : Nat) :
    ∀ (s : QState K V) (ℓ p : Nat) (c : Option Nat) res,
      ffResolve fuel s ℓ p c = some res → ∀ a ℓa,
      (match res with
       | .retry s1 => markB s1 a ℓa
       | .ok (s1, _) => markB s1 a ℓa) = markB s a ℓa := by
  induction fuel with
  | zero => intro s ℓ p c res h; simp [ffResolve] at h
  | succ fuel ih =>
    intro s ℓ p c res h a ℓa
    unfold ffResolve at h
    cases c with
    | none =>
      try dsimp only [] at h
      simp only [Option.some_inj] at h
      subst h; rfl
    | some cur =>
      try dsimp only [] at h
      unfold getNextPM at h
      cases hL : linkAt s cur ℓ with
      | none => rw [hL] at h; simp at h
      | some mp =>
        rw [hL] at h
        simp only [Option.bind_eq_bind, Option.some_bind, Option.pure_def] at h
        by_cases hmk : mp.mark = true
        · rw [if_pos hmk] at h
          cases hce : compareExchange s p ℓ (some cur) mp.ptr with
          | none => rw [hce] at h; simp at h
          | some pr =>
            obtain ⟨s1, snip⟩ := pr
            rw [hce] at h
            simp only [Option.bind_eq_bind, Option.some_bind] at h
            try dsimp only [] at h
            have hm1 : markB s1 a ℓa = markB s a ℓa :=
              compareExchange_marks s p ℓ (some cur) mp.ptr s1 snip hce a ℓa
            cases snip with
            | true =>
              simp only [if_true] at h
              rw [← hm1]
              exact ih s1 ℓ p mp.ptr res h a ℓa
            | false =>
              simp only [Bool.false_eq_true, if_false, Option.pure_def,
                Option.some_inj] at h
              subst h
              exact hm1
        · rw [if_neg hmk] at h
          simp only [Option.some_inj] at h
          subst h; rfl

/-- The level loop of `FindFirst` changes no mark bit. -/
theorem findFirstLevels_marks (fuel : Nat) :
    ∀ (nlev : Nat) (s : QState K V) (p : Nat) res,
      findFirstLevels fuel s nlev p = some res → ∀ a ℓa,
      (match res with
       | .retry s1 => markB s1 a ℓa
       | .ok (s1, _) => markB s1 a ℓa) = markB s a ℓa := by
  intro nlev
  induction nlev with
  | zero => intro s p res h; simp [findFirstLevels] at h
  | succ nlev ih =>
    intro s p res h a ℓa
    unfold findFirstLevels at h
    cases hcur : getNextPtr s p nlev with
    | none => rw [hcur] at h; simp at h
    | some cur =>
      rw [hcur] at h
      simp only [Option.bind_eq_bind, Option.some_bind] at h
      cases hw : ffResolve fuel s nlev p cur with
      | none => rw [hw] at h; simp at h
      | some wres =>
        rw [hw] at h
        simp only [Option.bind_eq_bind, Option.some_bind] at h
        have hwm := ffResolve_marks fuel s nlev p cur wres hw a ℓa
        cases wres with
        | retry s1 =>
          simp only [Option.pure_def, Option.some_inj] at h
          subst h
          exact hwm
        | ok r =>
          obtain ⟨s1, c1⟩ := r
          try dsimp only [] at h
          by_cases hz : nlev = 0
          · rw [if_pos hz] at h
            simp only [Option.pure_def, Option.some_inj] at h
            subst h
            exact hwm
          · rw [if_neg hz] at h
            rw [← hwm]
            exact ih s1 p res h a ℓa

/-- `FindFirst` changes no mark bit. -/
theorem findFirst_marks (fuel : Nat) :
    ∀ (s : QState K V) (nlev : Nat) (s' : QState K V) (r : Option Nat),
      findFirst fuel s nlev = some (s', r) → ∀ a ℓa,
      markB s' a ℓa = markB s a ℓa := by
  induction fuel with
  | zero => intro s nlev s' r h; simp [findFirst] at h
  | succ fuel ih =>
    intro s nlev s' r h a ℓa
    unfold findFirst at h
    cases hh : s.head with
    | none => rw [hh] at h; simp at h
    | some hid =>
      rw [hh] at h
      try dsimp only [] at h
      cases hf : findFirstLevels (fuel+1) s nlev hid with
      | none => rw [hf] at h; simp at h
      | some fres =>
        rw [hf] at h
        have hfm := findFirstLevels_marks (fuel+1) nlev s hid fres hf a ℓa
        cases fres with
        | retry s1 =>
          rw [ih s1 nlev s' r h a ℓa]
          exact hfm
        | ok r2 =>
          obtain ⟨s1, c1⟩ := r2
          simp only [Option.some_inj, Prod.mk.injEq] at h
          obtain ⟨rfl, rfl⟩ := h
          exact hfm

theorem markB_dangling (s : QState K V) (a ℓ : Nat) (h : s.nodes.length ≤ a) :
    markB s a ℓ = false := by
  unfold markB linkAt nodeAt
  rw [List.getElem?_eq_none h]
  rfl

theorem nodeAt_append_ne (s : QState K V) (nw : Node K V) (a : Nat)
    (h : a ≠ s.nodes.length) :
    nodeAt { s with nodes := s.nodes ++ [nw] } a = nodeAt s a := by
  unfold nodeAt
  rcases lt_or_gt_of_ne h with hlt | hgt
  · exact List.getElem?_append_left hlt
  · rw [List.getElem?_eq_none (by simp; omega), List.getElem?_eq_none (by omega)]

theorem nodeAt_append_self (s : QState K V) (nw : Node K V) :
    nodeAt { s with nodes := s.nodes ++ [nw] } s.nodes.length = some nw := by
  unfold nodeAt
  simp

theorem markB_append_ne (s : QState K V) (nw : Node K V) (a ℓ : Nat)
    (h : a ≠ s.nodes.length) :
    markB { s with nodes := s.nodes ++ [nw] } a ℓ = markB s a ℓ := by
  unfold markB linkAt
  rw [nodeAt_append_ne s nw a h]

theorem markB_append_fresh (s : QState K V) (k : K) (d : V) (lvl ℓ : Nat) :
    markB { s with nodes := s.nodes ++ [⟨k, d, lvl, List.replicate lvl ⟨none, false⟩, true⟩] }
      s.nodes.length ℓ = false := by
  unfold markB linkAt
  rw [nodeAt_append_self]
  simp only [Option.some_bind]
  cases hx : (List.replicate lvl (⟨none, false⟩ : MPtr))[ℓ]? with
  | none => rfl
  | some mp =>
    have hmem : mp ∈ List.replicate lvl (⟨none, false⟩ : MPtr) := List.getElem?_mem hx
    rw [List.eq_of_mem_replicate hmem]

theorem setNext_eq (s : QState K V) (i ℓ : Nat) (p : Option Nat) (s' : QState K V)
    (h : setNext s i ℓ p = some s') :
    ∃ mp0, linkAt s i ℓ = some mp0 ∧ s' = setLink s i ℓ ⟨p, false⟩ := by
  unfold setNext getNextPM at h
  cases hL : linkAt s i ℓ with
  | none => rw [hL] at h; simp at h
  | some mp =>
    rw [hL] at h
    simp only [Option.bind_eq_bind, Option.some_bind, Option.pure_def, Option.some_inj] at h
    exact ⟨mp, rfl, h.symm⟩

/-- The pre-publication `SetNext` stores only write unmarked cells of the
fresh node; if the fresh node is fully unmarked they keep it so and leave
every other node's marks untouched. -/
theorem setNexts_marks :
    ∀ (togo : Nat) (s : QState K V) (nid : Nat) (ss : List (Option Nat)) (ℓ0 : Nat)
      (s' : QState K V), setNexts s nid ss ℓ0 togo = some s' →
      (∀ ℓ, markB s nid ℓ = false) →
      (∀ a ℓ, a ≠ nid → markB s' a ℓ = markB s a ℓ) ∧ (∀ ℓ, markB s' nid ℓ = false) := by
  intro togo
  induction togo with
  | zero =>
    intro s nid ss ℓ0 s' h hnid
    unfold setNexts at h
    simp only [Option.some_inj] at h
    subst h
    exact ⟨fun a ℓ _ => rfl, hnid⟩
  | succ togo ih =>
    intro s nid ss ℓ0 s' h hnid
    unfold setNexts at h
    cases hsl : ss[ℓ0]? with
    | none => rw [hsl] at h; simp at h
    | some sl =>
      rw [hsl] at h
      simp only [Option.bind_eq_bind, Option.some_bind] at h
      cases hsn : setNext s nid ℓ0 sl with
      | none => rw [hsn] at h; simp at h
      | some s1 =>
        rw [hsn] at h
        simp only [Option.bind_eq_bind, Option.some_bind] at h
        obtain ⟨mp0, hL, rfl⟩ := setNext_eq s nid ℓ0 sl s1 hsn
        have hnid1 : ∀ ℓ, markB (setLink s nid ℓ0 ⟨sl, false⟩) nid ℓ = false := by
          intro ℓ
          rw [markB_setLink_split s nid ℓ0 ⟨sl, false⟩ mp0 hL nid ℓ]
          split_ifs with hif
          · rfl
          · exact hnid ℓ
        obtain ⟨h1, h2⟩ := ih _ nid ss (ℓ0+1) s' h hnid1
        refine ⟨?_, h2⟩
        intro a ℓ ha
        rw [h1 a ℓ ha, markB_setLink_split s nid ℓ0 ⟨sl, false⟩ mp0 hL a ℓ,
          if_neg (fun hc => ha hc.1)]

/-- The per-level upper-link retry loop of `Push` changes no mark bit. -/
theorem linkLevel_marks (fuel : Nat) :
    ∀ (s : QState K V) (nlev nid ℓ : Nat) (k : K) ps ss s' ps1 ss1,
      linkLevel fuel s nlev nid ℓ k ps ss = some (s', ps1, ss1) →
      ∀ a ℓa, markB s' a ℓa = markB s a ℓa := by
  induction fuel with
  | zero => intro s nlev nid ℓ k ps ss s' ps1 ss1 h; simp [linkLevel] at h
  | succ fuel ih =>
    intro s nlev nid ℓ k ps ss s' ps1 ss1 h a ℓa
    unfold linkLevel at h
    cases hp : ps[ℓ]? with
    | none => rw [hp] at h; simp at h
    | some pl =>
      rw [hp] at h
      simp only [Option.bind_eq_bind, Option.some_bind] at h
      cases hs : ss[ℓ]? with
      | none => rw [hs] at h; simp at h
      | some sl =>
        rw [hs] at h
        simp only [Option.bind_eq_bind, Option.some_bind] at h
        cases hce : compareExchange s pl ℓ sl (some nid) with
        | none => rw [hce] at h; simp at h
        | some pr =>
          obtain ⟨s1, okb⟩ := pr
          rw [hce] at h
          simp only [Option.bind_eq_bind, Option.some_bind] at h
          try dsimp only [] at h
          have hm1 : markB s1 a ℓa = markB s a ℓa :=
            compareExchange_marks s pl ℓ sl (some nid) s1 okb hce a ℓa
          cases okb with
          | true =>
            simp only [if_true, Option.pure_def, Option.some_inj, Prod.mk.injEq] at h
            obtain ⟨rfl, -, -⟩ := h
            exact hm1
          | false =>
            simp only [Bool.false_eq_true, if_false] at h
            cases hf : findLast (fuel+1) s1 nlev k with
            | none => rw [hf] at h; simp at h
            | some fr =>
              obtain ⟨s2, ps2, ss2⟩ := fr
              rw [hf] at h
              simp only [Option.bind_eq_bind, Option.some_bind] at h
              rw [ih s2 nlev nid ℓ k ps2 ss2 s' ps1 ss1 h a ℓa,
                findLast_marks (fuel+1) s1 nlev k s2 ps2 ss2 hf a ℓa]
              exact hm1

/-- The upper-level linking loop of `Push` changes no mark bit. -/
theorem linkUppers_marks :
    ∀ (togo fuel : Nat) (s : QState K V) (nlev nid : Nat) (k : K) ps ss ℓ s',
      linkUppers fuel s nlev nid k ps ss ℓ togo = some s' →
      ∀ a ℓa, markB s' a ℓa = markB s a ℓa := by
  intro togo
  induction togo with
  | zero =>
    intro fuel s nlev nid k ps ss ℓ s' h a ℓa
    unfold linkUppers at h
    simp only [Option.some_inj] at h
    subst h; rfl
  | succ togo ih =>
    intro fuel s nlev nid k ps ss ℓ s' h a ℓa
    unfold linkUppers at h
    cases hll : linkLevel fuel s nlev nid ℓ k ps ss with
    | none => rw [hll] at h; simp at h
    | some r =>
      obtain ⟨s1, ps1, ss1⟩ := r
      rw [hll] at h
      simp only [Option.bind_eq_bind, Option.some_bind] at h
      rw [ih fuel s1 nlev nid k ps1 ss1 (ℓ+1) s' h a ℓa,
        linkLevel_marks fuel s nlev nid ℓ k ps ss s1 ps1 ss1 hll a ℓa]

/-- The publication loop of `Push` keeps the fresh node unmarked and leaves
every other node's marks untouched. -/
theorem pushLoop_marks (fuel : Nat) :
    ∀ (s : QState K V) (nlev nid lvl : Nat) (k : K) (s' : QState K V),
      pushLoop fuel s nlev nid lvl k = some s' →
      (∀ ℓ, markB s nid ℓ = false) →
      (∀ a ℓ, a ≠ nid → markB s' a ℓ = markB s a ℓ) ∧ (∀ ℓ, markB s' nid ℓ = false) := by
  induction fuel with
  | zero => intro s nlev nid lvl k s' h; simp [pushLoop] at h
  | succ fuel ih =>
    intro s nlev nid lvl k s' h hnid
    unfold pushLoop at h
    cases hf : findLast (fuel+1) s nlev k with
    | none => rw [hf] at h; simp at h
    | some fr =>
      obtain ⟨s1, ps, ss⟩ := fr
      rw [hf] at h
      simp only [Option.bind_eq_bind, Option.some_bind] at h
      have hfm := findLast_marks (fuel+1) s nlev k s1 ps ss hf
      cases hsn : setNexts s1 nid ss 0 lvl with
      | none => rw [hsn] at h; simp at h
      | some s2 =>
        rw [hsn] at h
        simp only [Option.bind_eq_bind, Option.some_bind] at h
        have hnid1 : ∀ ℓ, markB s1 nid ℓ = false := fun ℓ => (hfm nid ℓ).trans (hnid ℓ)
        obtain ⟨hsn1, hsn2⟩ := setNexts_marks lvl s1 nid ss 0 s2 hsn hnid1
        cases hp : ps[0]? with
        | none => rw [hp] at h; simp at h
        | some p0 =>
          rw [hp] at h
          simp only [Option.bind_eq_bind, Option.some_bind] at h
          cases hs : ss[0]? with
          | none => rw [hs] at h; simp at h
          | some succ0 =>
            rw [hs] at h
            simp only [Option.bind_eq_bind, Option.some_bind] at h
            cases hce : compareExchange s2 p0 0 succ0 (some nid) with
            | none => rw [hce] at h; simp at h
            | some pr =>
              obtain ⟨s3, okb⟩ := pr
              rw [hce] at h
              simp only [Option.bind_eq_bind, Option.some_bind] at h
              try dsimp only [] at h
              have hce_m := compareExchange_marks s2 p0 0 succ0 (some nid) s3 okb hce
              cases okb with
              | true =>
                simp only [if_true] at h
                obtain hl := linkUppers_marks (lvl - 1) (fuel+1) s3 nlev nid k ps ss 1 s' h
                constructor
                · intro a ℓ ha
                  rw [hl a ℓ, hce_m a ℓ, hsn1 a ℓ ha, hfm a ℓ]
                · intro ℓ
                  rw [hl nid ℓ, hce_m nid ℓ]
                  exact hsn2 ℓ
              | false =>
                simp only [Bool.false_eq_true, if_false] at h
                have hnid3 : ∀ ℓ, markB s3 nid ℓ = false := fun ℓ =>
                  (hce_m nid ℓ).trans (hsn2 ℓ)
                obtain ⟨h1, h2⟩ := ih s3 nlev nid lvl k s' h hnid3
                refine ⟨?_, h2⟩
                intro a ℓ ha
                rw [h1 a ℓ ha, hce_m a ℓ, hsn1 a ℓ ha, hfm a ℓ]

/-- `Push` never clears a mark bit: its searches only CAS unmarked cells to
unmarked cells, and its pre-publication stores only touch the fresh,
still-unmarked node. -/
theorem push_marks (fuel L : Nat) (s : QState K V) (k : K) (d : V) (lvl : Nat)
    (s' : QState K V) (h : push fuel L s k d lvl = some s') (a ℓ : Nat)
    (hm : markB s a ℓ = true) : markB s' a ℓ = true := by
  unfold push at h
  cases hw : waitGate fuel s.maxSize s.size with
  | none => rw [hw] at h; simp at h
  | some u =>
    rw [hw] at h
    simp only [Option.bind_eq_bind, Option.some_bind] at h
    cases hpl : pushLoop fuel
        { s with nodes := s.nodes ++ [⟨k, d, lvl, List.replicate lvl ⟨none, false⟩, true⟩] }
        (L+1) s.nodes.length lvl k with
    | none => rw [hpl] at h; simp at h
    | some s2 =>
      rw [hpl] at h
      simp only [Option.bind_eq_bind, Option.some_bind] at h
      cases hsd : setDoneInserting s2 s.nodes.length with
      | none => rw [hsd] at h; simp at h
      | some s3 =>
        rw [hsd] at h
        simp only [Option.bind_eq_bind, Option.some_bind, Option.pure_def,
          Option.some_inj] at h
        have ha : a ≠ s.nodes.length := by
          intro hc
          rw [markB_dangling s a ℓ (le_of_eq hc.symm)] at hm
          cases hm
        have hfresh : ∀ ℓ', markB
            { s with nodes := s.nodes ++ [⟨k, d, lvl, List.replicate lvl ⟨none, false⟩, true⟩] }
            s.nodes.length ℓ' = false := fun ℓ' => markB_append_fresh s k d lvl ℓ'
        obtain ⟨h1, -⟩ := pushLoop_marks fuel _ (L+1) s.nodes.length lvl k s2 hpl hfresh
        have : markB s2 a ℓ = true := by
          rw [h1 a ℓ ha, markB_append_ne s _ a ℓ ha]
          exact hm
        have h3 : markB s3 a ℓ = true := by
          rw [markB_setDone s2 s.nodes.length s3 hsd a ℓ]
          exact this
        subst h
        rw [markB_setSize]
        exact h3

/-- The upper-level marking loop of `TryPop` only sets marks. -/
theorem markUpper_marks :
    ∀ (m : Nat) (s : QState K V) (nid : Nat) (s' : QState K V),
      markUpper s nid m = some s' → ∀ a ℓa, markB s a ℓa = true → markB s' a ℓa = true := by
  intro m
  induction m with
  | zero =>
    intro s nid s' h a ℓa hm
    unfold markUpper at h
    simp only [Option.some_inj] at h
    subst h; exact hm
  | succ m ih =>
    intro s nid s' h a ℓa hm
    unfold markUpper at h
    cases hsm : setNextMark s nid (m+1) with
    | none => rw [hsm] at h; simp at h
    | some s1 =>
      rw [hsm] at h
      simp only [Option.bind_eq_bind, Option.some_bind] at h
      exact ih s1 nid s' h a ℓa (setNextMark_marks s nid (m+1) s1 hsm a ℓa hm)

/-- The claiming tail of `TryPop` only sets marks. -/
theorem tryPopAfterFind_marks (s : QState K V) (nid : Nat) (pr0 : K) (d0 : V)
    (s' : QState K V) (b : Bool) (pr : K) (d : V)
    (h : tryPopAfterFind s nid pr0 d0 = some (s', b, pr, d)) (a ℓa : Nat)
    (hm : markB s a ℓa = true) : markB s' a ℓa = true := by
  unfold tryPopAfterFind at h
  cases hnd : nodeAt s nid with
  | none => rw [hnd] at h; simp at h
  | some nd =>
    rw [hnd] at h
    simp only [Option.bind_eq_bind, Option.some_bind] at h
    by_cases hins : nd.inserting = true
    · rw [if_pos hins] at h
      simp only [Option.pure_def, Option.some_inj, Prod.mk.injEq] at h
      obtain ⟨rfl, -, -, -⟩ := h
      exact hm
    · rw [if_neg hins] at h
      cases hmu : markUpper s nid (nd.level - 1) with
      | none => rw [hmu] at h; simp at h
      | some s1 =>
        rw [hmu] at h
        simp only [Option.bind_eq_bind, Option.some_bind] at h
        cases hgp : getNextPtr s1 nid 0 with
        | none => rw [hgp] at h; simp at h
        | some succ =>
          rw [hgp] at h
          simp only [Option.bind_eq_bind, Option.some_bind] at h
          cases hts : testAndSetMark s1 nid succ with
          | none => rw [hts] at h; simp at h
          | some pr2 =>
            obtain ⟨s2, okb⟩ := pr2
            rw [hts] at h
            simp only [Option.bind_eq_bind, Option.some_bind] at h
            try dsimp only [] at h
            have hm1 : markB s1 a ℓa = true := markUpper_marks _ s nid s1 hmu a ℓa hm
            have hm2 : markB s2 a ℓa = true :=
              testAndSetMark_marks s1 nid succ s2 okb hts a ℓa hm1
            cases okb with
            | true =>
              simp only [if_true, Option.pure_def, Option.some_inj, Prod.mk.injEq] at h
              obtain ⟨rfl, -, -, -⟩ := h
              rw [markB_setSize]
              exact hm2
            | false =>
              simp only [Bool.false_eq_true, if_false, Option.pure_def, Option.some_inj,
                Prod.mk.injEq] at h
              obtain ⟨rfl, -, -, -⟩ := h
              exact hm2

/-- `TryPop` only sets marks. -/
theorem tryPop_marks (fuel L : Nat) (s : QState K V) (pr0 : K) (d0 : V)
    (s' : QState K V) (b : Bool) (pr : K) (d : V)
    (h : tryPop fuel L s pr0 d0 = some (s', b, pr, d)) (a ℓa : Nat)
    (hm : markB s a ℓa = true) : markB s' a ℓa = true := by
  unfold tryPop at h
  cases hff : findFirst fuel s (L+1) with
  | none => rw [hff] at h; simp at h
  | some r =>
    obtain ⟨s1, ro⟩ := r
    rw [hff] at h
    simp only [Option.bind_eq_bind, Option.some_bind] at h
    have hm1 : markB s1 a ℓa = true := by
      rw [findFirst_marks fuel s (L+1) s1 ro hff a ℓa]
      exact hm
    cases ro with
    | none =>
      try dsimp only [] at h
      simp only [Option.pure_def, Option.some_inj, Prod.mk.injEq] at h
      obtain ⟨rfl, -, -, -⟩ := h
      exact hm1
    | some nid =>
      try dsimp only [] at h
      exact tryPopAfterFind_marks s1 nid pr0 d0 s' b pr d h a ℓa hm1

/-! ## Claim C8: mark bits are monotone -/

/-- C8: once a node's `next[ℓ]` mark bit is set, no step of `Push`, of
`TryPop`, or of the searches (whose unlink CAS only replaces an unmarked
cell by an unmarked cell) ever clears it — for the searches the mark state
is preserved exactly. -/
theorem marks_monotone (L : Nat) :
    (∀ (fuel : Nat) (s : QState K V) (k : K) (d : V) (lvl : Nat) (s' : QState K V),
      push fuel L s k d lvl = some s' →
      ∀ i ℓ, markB s i ℓ = true → markB s' i ℓ = true) ∧
    (∀ (fuel : Nat) (s : QState K V) (pr0 : K) (d0 : V) s' b pr d,
      tryPop fuel L s pr0 d0 = some (s', b, pr, d) →
      ∀ i ℓ, markB s i ℓ = true → markB s' i ℓ = true) ∧
    (∀ (fuel nlev : Nat) (s : QState K V) (k : K) s' ps ss,
      findLast fuel s nlev k = some (s', ps, ss) →
      ∀ i ℓ, markB s' i ℓ = markB s i ℓ) ∧
    (∀ (fuel nlev : Nat) (s : QState K V) s' r,
      findFirst fuel s nlev = some (s', r) →
      ∀ i ℓ, markB s' i ℓ = markB s i ℓ) := by
  refine ⟨?_, ?_, ?_, ?_⟩
  · intro fuel s k d lvl s' h i ℓ hm
    exact push_marks fuel L s k d lvl s' h i ℓ hm
  · intro fuel s pr0 d0 s' b pr d h i ℓ hm
    exact tryPop_marks fuel L s pr0 d0 s' b pr d h i ℓ hm
  · intro fuel nlev s k s' ps ss h i ℓ
    exact findLast_marks fuel s nlev k s' ps ss h i ℓ
  · intro fuel nlev s s' r h i ℓ
    exact findFirst_marks fuel s nlev s' r h i ℓ

/-- Witness for C8: a queue holding keys 2 and 5 whose first node has been
popped (hence marked); pushing 3 preserves the mark, and a search reports
the same marks. -/
theorem marks_monotone_witness :
    ∃ s1 : QState Nat Unit,
      (popN 9 0 ((pushSeq 9 0 (initQ 0 0) [(2, 1), (5, 1)]).getD (initQ 0 0)) 1 0 ()).map
        (fun r => r.1) = some s1 ∧ markB s1 1 0 = true ∧
      (∀ s2, push 9 0 s1 3 () 1 = some s2 → markB s2 1 0 = true) ∧
      (∀ s3 ps ss, findLast 9 s1 1 7 = some (s3, ps, ss) → markB s3 1 0 = markB s1 1 0) := by
  refine ⟨_, rfl, by decide, ?_, ?_⟩
  · intro s2 h
    exact (marks_monotone 0).1 9 _ 3 () 1 s2 h 1 0 (by decide)
  · intro s3 ps ss h
    exact (marks_monotone 0).2.2.1 9 1 _ 7 s3 ps ss h 1 0

theorem markB_true_link (s : QState K V) (i ℓ : Nat) (h : markB s i ℓ = true) :
    ∃ mp, linkAt s i ℓ = some mp ∧ mp.mark = true := by
  unfold markB at h
  cases hL : linkAt s i ℓ with
  | none => rw [hL] at h; cases h
  | some mp => rw [hL] at h; exact ⟨mp, rfl, h⟩

theorem setNextMark_eq (s : QState K V) (i ℓ : Nat) (mp : MPtr)
    (h : linkAt s i ℓ = some mp) :
    setNextMark s i ℓ = some (setLink s i ℓ ⟨mp.ptr, true⟩) := by
  unfold setNextMark getNextPM
  rw [h]
  rfl

theorem getNextPtr_eq (s : QState K V) (i ℓ : Nat) (mp : MPtr)
    (h : linkAt s i ℓ = some mp) : getNextPtr s i ℓ = some mp.ptr := by
  unfold getNextPtr getNextPM
  rw [h]
  rfl

/-- `markUpper` succeeds whenever the touched cells exist, and it does not
touch any other node nor the node's level-0 cell. -/
theorem markUpper_ok :
    ∀ (m : Nat) (s : QState K V) (nid : Nat),
      (∀ ℓ', 1 ≤ ℓ' → ℓ' ≤ m → (linkAt s nid ℓ').isSome = true) →
      ∃ s1, markUpper s nid m = some s1 ∧
        (∀ a, a ≠ nid → nodeAt s1 a = nodeAt s a) ∧
        linkAt s1 nid 0 = linkAt s nid 0 := by
  intro m
  induction m with
  | zero =>
    intro s nid hcells
    exact ⟨s, rfl, fun a _ => rfl, rfl⟩
  | succ m ih =>
    intro s nid hcells
    have hc : (linkAt s nid (m+1)).isSome = true :=
      hcells (m+1) (by omega) (le_refl _)
    obtain ⟨mp, hmp⟩ := Option.isSome_iff_exists.mp hc
    have hcells1 : ∀ ℓ', 1 ≤ ℓ' → ℓ' ≤ m →
        (linkAt (setLink s nid (m+1) ⟨mp.ptr, true⟩) nid ℓ').isSome = true := by
      intro ℓ' h1 h2
      rw [linkAt_setLink_ne_level s nid (m+1) ℓ' ⟨mp.ptr, true⟩ (by omega)]
      exact hcells ℓ' h1 (by omega)
    obtain ⟨s1, hs1, hother, h0⟩ := ih (setLink s nid (m+1) ⟨mp.ptr, true⟩) nid hcells1
    refine ⟨s1, ?_, ?_, ?_⟩
    · unfold markUpper
      rw [setNextMark_eq s nid (m+1) mp hmp]
      simp only [Option.bind_eq_bind, Option.some_bind]
      exact hs1
    · intro a ha
      rw [hother a ha, nodeAt_setLink_ne s nid (m+1) a ⟨mp.ptr, true⟩ ha]
    · rw [h0, linkAt_setLink_ne_level s nid (m+1) 0 ⟨mp.ptr, true⟩ (by omega)]

/-! ## Claim C9: `TryPop` writes out-parameters before the claim CAS -/

/-- C9: at the state after `FindFirst` has returned the non-null,
non-inserting node `nid` — a state in which, under concurrency, a racing
pop may already have marked `nid`'s level-0 link — the tail of `TryPop`
still overwrites the caller's `priority` (and, in the KV variant, `data`)
out-parameters with `nid`'s fields, marks the upper levels, and only then
loses the claim CAS and returns `false`. -/
theorem tryPopAfterFind_writes_out (s : QState K V) (nid : Nat) (pr0 : K) (d0 : V)
    (nd : Node K V) (hnd : nodeAt s nid = some nd) (hins : nd.inserting = false)
    (hlen : nd.next.length = nd.level) (hlvl : 1 ≤ nd.level)
    (hmk : markB s nid 0 = true) :
    ∃ s', tryPopAfterFind s nid pr0 d0 = some (s', false, nd.priority, nd.data) := by
  have hcells : ∀ ℓ', 1 ≤ ℓ' → ℓ' ≤ nd.level - 1 → (linkAt s nid ℓ').isSome = true := by
    intro ℓ' h1 h2
    unfold linkAt
    rw [hnd]
    simp only [Option.some_bind]
    rw [List.getElem?_eq_getElem (by omega)]
    rfl
  obtain ⟨s1, hmu, hother, h0⟩ := markUpper_ok (nd.level - 1) s nid hcells
  obtain ⟨mp0, hL0, hm0⟩ := markB_true_link s nid 0 hmk
  have hL1 : linkAt s1 nid 0 = some mp0 := by rw [h0]; exact hL0
  refine ⟨s1, ?_⟩
  unfold tryPopAfterFind
  rw [hnd]
  simp only [Option.bind_eq_bind, Option.some_bind]
  rw [if_neg (by rw [hins]; simp)]
  rw [hmu]
  simp only [Option.bind_eq_bind, Option.some_bind]
  rw [getNextPtr_eq s1 nid 0 mp0 hL1]
  simp only [Option.bind_eq_bind, Option.some_bind]
  unfold testAndSetMark getNextPM
  rw [hL1]
  simp only [Option.bind_eq_bind, Option.some_bind, Option.pure_def]
  rw [if_neg (by rw [hm0]; simp)]
  simp only [Option.some_bind]
  try dsimp only []
  rfl

/-- Witness for C9: a queue holding the single key 5 whose node a racing
pop has just marked; the tail of `TryPop` returns `false` yet the `priority`
out-parameter, passed in as 999, comes back as 5. -/
theorem tryPopAfterFind_writes_out_witness :
    ∃ s', tryPopAfterFind
        ((do
          let s ← push 9 0 (initQ 0 0 : QState Nat Unit) 5 () 1
          setNextMark s 1 0).getD (initQ 0 0))
        1 999 () = some (s', false, 5, ()) := by
  exact tryPopAfterFind_writes_out _ 1 999 ()
    ⟨5, (), 1, [⟨none, true⟩], false⟩ (by decide) (by decide) (by decide) (by decide)
    (by decide)

/-! ## Claim C5: when `TryPop` returns false -/

theorem initQ_links [Inhabited K] [Inhabited V] (L ms ℓ : Nat) (h : ℓ < L + 1) :
    linkAt (initQ L ms : QState K V) 0 ℓ = some ⟨none, false⟩ := by
  unfold linkAt nodeAt initQ
  simp only [List.getElem?_cons_zero, Option.some_bind]
  rw [List.getElem?_eq_getElem (by simpa using h)]
  simp

theorem findFirstLevels_empty :
    ∀ (nlev : Nat) (fuel : Nat) (s : QState K V) (p : Nat), 1 ≤ nlev → 1 ≤ fuel →
      (∀ ℓ, ℓ < nlev → getNextPtr s p ℓ = some none) →
      findFirstLevels fuel s nlev p = some (.ok (s, none)) := by
  intro nlev
  induction nlev with
  | zero => intro fuel s p h; omega
  | succ nlev ih =>
    intro fuel s p hn hf hl
    unfold findFirstLevels
    rw [hl nlev (by omega)]
    simp only [Option.bind_eq_bind, Option.some_bind]
    have hres : ffResolve fuel s nlev p none = some (.ok (s, none)) := by
      cases fuel with
      | zero => omega
      | succ fuel => rfl
    rw [hres]
    simp only [Option.bind_eq_bind, Option.some_bind]
    try dsimp only []
    rcases Nat.eq_zero_or_pos nlev with rfl | hpos
    · rw [if_pos rfl]
      rfl
    · rw [if_neg (by omega)]
      exact ih fuel s p (by omega) hf (fun ℓ hℓ => hl ℓ (by omega))

theorem findFirst_initQ [Inhabited K] [Inhabited V] (L ms : Nat) :
    findFirst 1 (initQ L ms : QState K V) (L+1) = some (initQ L ms, none) := by
  have h1 : findFirstLevels (0+1) (initQ L ms : QState K V) (L+1) 0
      = some (.ok (initQ L ms, none)) :=
    findFirstLevels_empty (L+1) (0+1) (initQ L ms) 0 (by omega) (by omega)
      (fun ℓ hℓ => getNextPtr_eq _ 0 ℓ ⟨none, false⟩ (initQ_links L ms ℓ hℓ))
  unfold findFirst
  rw [show (initQ L ms : QState K V).head = some 0 from rfl]
  try dsimp only []
  rw [h1]

/-- C5: `TryPop` on a fresh queue returns `false` with untouched
out-parameters and `GetSize() = 0`; and in general a completed `TryPop`
returns `false` exactly when `FindFirst` returned null, or the found node
still had its `inserting` flag set, or the level-0 claim
`TestAndSetMark` lost — in every other completed run it returns `true`.
All three `false` outcomes present the caller with the same bare `false`. -/
theorem tryPop_false_characterization [Inhabited K] [Inhabited V] (L ms : Nat)
    (pr0k : K) (d0v : V) :
    (tryPop 1 L (initQ L ms : QState K V) pr0k d0v
        = some (initQ L ms, false, pr0k, d0v) ∧
      getSize (initQ L ms : QState K V) = 0) ∧
    (∀ (fuel : Nat) (s : QState K V) (pr0 : K) (d0 : V) s' b pr d,
      tryPop fuel L s pr0 d0 = some (s', b, pr, d) →
      (b = false ↔
        (findFirst fuel s (L+1) = some (s', none)) ∨
        (∃ s1 nid nd, findFirst fuel s (L+1) = some (s1, some nid) ∧
          nodeAt s1 nid = some nd ∧ nd.inserting = true ∧ s' = s1) ∨
        (∃ s1 nid nd s2 succ, findFirst fuel s (L+1) = some (s1, some nid) ∧
          nodeAt s1 nid = some nd ∧ nd.inserting = false ∧
          markUpper s1 nid (nd.level - 1) = some s2 ∧
          getNextPtr s2 nid 0 = some succ ∧
          testAndSetMark s2 nid succ = some (s', false)))) := by
  constructor
  · constructor
    · unfold tryPop
      rw [findFirst_initQ L ms]
      rfl
    · rfl
  · intro fuel s pr0 d0 s' b pr d h
    unfold tryPop at h
    cases hff : findFirst fuel s (L+1) with
    | none => rw [hff] at h; simp at h
    | some r =>
      obtain ⟨s1, ro⟩ := r
      rw [hff] at h
      simp only [Option.bind_eq_bind, Option.some_bind] at h
      cases ro with
      | none =>
        try dsimp only [] at h
        simp only [Option.pure_def, Option.some_inj, Prod.mk.injEq] at h
        obtain ⟨rfl, hb, -, -⟩ := h
        subst hb
        exact iff_of_true rfl (Or.inl rfl)
      | some nid =>
        try dsimp only [] at h
        unfold tryPopAfterFind at h
        cases hnd : nodeAt s1 nid with
        | none => rw [hnd] at h; simp at h
        | some nd =>
          rw [hnd] at h
          simp only [Option.bind_eq_bind, Option.some_bind] at h
          by_cases hins : nd.inserting = true
          · rw [if_pos hins] at h
            simp only [Option.pure_def, Option.some_inj, Prod.mk.injEq] at h
            obtain ⟨rfl, hb, -, -⟩ := h
            subst hb
            exact iff_of_true rfl (Or.inr (Or.inl ⟨s1, nid, nd, rfl, hnd, hins, rfl⟩))
          · rw [if_neg hins] at h
            cases hmu : markUpper s1 nid (nd.level - 1) with
            | none => rw [hmu] at h; simp at h
            | some s2 =>
              rw [hmu] at h
              simp only [Option.bind_eq_bind, Option.some_bind] at h
              cases hgp : getNextPtr s2 nid 0 with
              | none => rw [hgp] at h; simp at h
              | some succ =>
                rw [hgp] at h
                simp only [Option.bind_eq_bind, Option.some_bind] at h
                cases hts : testAndSetMark s2 nid succ with
                | none => rw [hts] at h; simp at h
                | some pr2 =>
                  obtain ⟨s3, okb⟩ := pr2
                  rw [hts] at h
                  simp only [Option.bind_eq_bind, Option.some_bind] at h
                  try dsimp only [] at h
                  cases okb with
                  | true =>
                    simp only [if_true, Option.pure_def, Option.some_inj,
                      Prod.mk.injEq] at h
                    obtain ⟨rfl, hb, -, -⟩ := h
                    subst hb
                    refine iff_of_false (by simp) ?_
                    rintro (h1 | ⟨s1x, nidx, ndx, hffx, hndx, hinsx, rfl⟩ |
                      ⟨s1x, nidx, ndx, s2x, succx, hffx, hndx, hinsx, hmux, hgpx, htsx⟩)
                    · exact absurd h1 (by simp)
                    · have heq := hffx
                      simp only [Option.some_inj, Prod.mk.injEq] at heq
                      obtain ⟨h1, h2⟩ := heq
                      subst h2
                      rw [← h1, hnd] at hndx
                      simp only [Option.some_inj] at hndx
                      subst hndx
                      exact hins hinsx
                    · have heq := hffx
                      simp only [Option.some_inj, Prod.mk.injEq] at heq
                      obtain ⟨h1, h2⟩ := heq
                      subst h2
                      rw [← h1, hnd] at hndx
                      simp only [Option.some_inj] at hndx
                      subst hndx
                      rw [← h1, hmu] at hmux
                      simp only [Option.some_inj] at hmux
                      subst hmux
                      rw [hgp] at hgpx
                      simp only [Option.some_inj] at hgpx
                      subst hgpx
                      have hts2 := hts.symm.trans htsx
                      simp only [Option.some_inj, Prod.mk.injEq] at hts2
                      exact absurd hts2.2 (by simp)
                  | false =>
                    simp only [Bool.false_eq_true, if_false, Option.pure_def,
                      Option.some_inj, Prod.mk.injEq] at h
                    obtain ⟨rfl, hb, -, -⟩ := h
                    subst hb
                    exact iff_of_true rfl (Or.inr (Or.inr ⟨s1, nid, nd, s2, succ, rfl,
                      hnd, Bool.not_eq_true nd.inserting ▸ hins, hmu, hgp, hts⟩))

/-- Witness for C5: the empty-queue pop at concrete values, and the `false`
iff instantiated on that run — the empty case realises the first disjunct. -/
theorem tryPop_false_char_witness :
    (tryPop 1 0 (initQ 0 0 : QState Nat Unit) 3 () = some (initQ 0 0, false, 3, ()) ∧
      getSize (initQ 0 0 : QState Nat Unit) = 0) ∧
    (false = false ↔
      (findFirst 1 (initQ 0 0 : QState Nat Unit) 1 = some (initQ 0 0, none)) ∨
      (∃ s1 nid nd, findFirst 1 (initQ 0 0 : QState Nat Unit) 1 = some (s1, some nid) ∧
        nodeAt s1 nid = some nd ∧ nd.inserting = true ∧ initQ 0 0 = s1) ∨
      (∃ s1 nid nd s2 succ,
        findFirst 1 (initQ 0 0 : QState Nat Unit) 1 = some (s1, some nid) ∧
        nodeAt s1 nid = some nd ∧ nd.inserting = false ∧
        markUpper s1 nid (nd.level - 1) = some s2 ∧
        getNextPtr s2 nid 0 = some succ ∧
        testAndSetMark s2 nid succ = some (initQ 0 0, false))) := by
  have h := @tryPop_false_characterization Nat Unit _ _ _ 0 0 3 ()
  exact ⟨h.1, h.2 1 (initQ 0 0) 3 () (initQ 0 0) false 3 () h.1.1⟩

/-! ## Chain and list utilities for the search-correctness development -/

theorem isChain_nil_start (s : QState K V) (ℓ : Nat) (p : Option Nat)
    (h : IsChain s ℓ p []) : p = none := by
  cases h; rfl

theorem isChain_mem_link (s : QState K V) (ℓ : Nat) (p : Option Nat) (c : List Nat)
    (h : IsChain s ℓ p c) : ∀ i ∈ c, ∃ mp, linkAt s i ℓ = some mp := by
  induction h with
  | nil => intro i hi; cases hi
  | cons i nd mp rest hnd hmp hrest ih =>
    intro j hj
    rcases List.mem_cons.mp hj with rfl | hj
    · exact ⟨mp, by unfold linkAt; rw [hnd]; simpa using hmp⟩
    · exact ih j hj

theorem isChain_of_nodeAt_eq (t1 t : QState K V) (ℓ : Nat) (q : Option Nat)
    (c : List Nat) (heq : ∀ i, i ∈ c → nodeAt t1 i = nodeAt t i)
    (h : IsChain t ℓ q c) : IsChain t1 ℓ q c := by
  induction h with
  | nil => exact IsChain.nil _ _
  | cons i nd mp rest hnd hmp hrest ih =>
    refine IsChain.cons t1 ℓ i nd mp rest ?_ hmp (ih (fun j hj => heq j (by simp [hj])))
    rw [heq i (by simp)]
    exact hnd

theorem isChain_elem_suffix (s : QState K V) (ℓ : Nat) :
    ∀ (pre : List Nat) (st : Option Nat) (p : Nat) (suf : List Nat),
      IsChain s ℓ st (pre ++ p :: suf) →
      ∃ mp, linkAt s p ℓ = some mp ∧ IsChain s ℓ mp.ptr suf := by
  intro pre
  induction pre with
  | nil =>
    intro st p suf h
    simp only [List.nil_append] at h
    have hst : st = some p := by cases h; rfl
    subst hst
    obtain ⟨mp, rest, heq, hl, hch⟩ := isChain_some_inv s ℓ p _ h
    simp only [List.cons_inj_right] at heq
    subst heq
    exact ⟨mp, hl, hch⟩
  | cons a pre ih =>
    intro st p suf h
    simp only [List.cons_append] at h
    have hst : st = some a := by cases h; rfl
    subst hst
    obtain ⟨mp, rest, heq, hl, hch⟩ := isChain_some_inv s ℓ a _ h
    simp only [List.cons_inj_right] at heq
    subst heq
    exact ih mp.ptr p suf hch

theorem getLastD_cons (a z : Nat) (l : List Nat) :
    ((a :: l).getLast?).getD z = (l.getLast?).getD a := by
  cases hl : l.getLast? with
  | none =>
    rw [List.getLast?_eq_none_iff] at hl
    subst hl
    rfl
  | some x =>
    have : (a :: l).getLast? = some x := by
      cases l with
      | nil => simp at hl
      | cons b l2 => rw [List.getLast?_cons_cons]; exact hl
    rw [this]
    rfl

theorem getLastD_append_cons (l1 : List Nat) (a z : Nat) (l2 : List Nat) :
    (((l1 ++ a :: l2).getLast?)).getD z = ((l2.getLast?)).getD a := by
  rw [List.getLast?_append_cons]
  exact getLastD_cons a z l2

theorem sortedIds_pairwise [Inhabited K] (s : QState K V) (c : List Nat)
    (h : SortedIds s c) : List.Pairwise (fun i j => prioD s i ≤ prioD s j) c := by
  haveI : IsTrans Nat (fun i j => prioD s i ≤ prioD s j) :=
    ⟨fun a b c h1 h2 => le_trans h1 h2⟩
  exact List.chain'_iff_pairwise.mp h

/-! ## Correctness of the per-level walk -/

theorem linkAt_isSome_nodeAt (s : QState K V) (i ℓ : Nat) (mp : MPtr)
    (h : linkAt s i ℓ = some mp) :
    ∃ nd, nodeAt s i = some nd ∧ nd.next[ℓ]? = some mp := by
  unfold linkAt at h
  cases hx : nodeAt s i with
  | none => rw [hx] at h; exact absurd h (by simp)
  | some nd =>
    rw [hx] at h
    simp only [Option.some_bind] at h
    exact ⟨nd, rfl, h⟩

/-- The walk over a fully unmarked, sorted suffix: no state change, the
suffix splits into the strictly-smaller prefix `A` and the rest `B`, the
final predecessor is the last element of `A` (or the start `p`), and the
final current is the head of `B`. -/
theorem walk_clean [Inhabited K] :
    ∀ (suf : List Nat) (fuel : Nat) (s : QState K V) (ℓ p : Nat) (cp : Option Nat)
      (k : K), IsChain s ℓ cp suf → (∀ i ∈ suf, markB s i ℓ = false) →
      SortedIds s suf →
      linkAt s p ℓ = some ⟨cp, false⟩ → suf.length < fuel →
      ∃ A B, suf = A ++ B ∧
        (∀ i ∈ A, prioD s i < k) ∧
        (∀ i ∈ B, ¬ prioD s i < k) ∧
        walkLevel fuel s ℓ p cp k = some (.ok (s, (A.getLast?).getD p, B.head?)) ∧
        linkAt s ((A.getLast?).getD p) ℓ = some ⟨B.head?, false⟩ := by
  intro suf
  induction suf with
  | nil =>
    intro fuel s ℓ p cp k hch hmk hsor hpl hfuel
    have hcp : cp = none := isChain_nil_start s ℓ cp hch
    subst hcp
    refine ⟨[], [], rfl, by simp, by simp, ?_, hpl⟩
    cases fuel with
    | zero => omega
    | succ fuel => rfl
  | cons i rest ih =>
    intro fuel s ℓ p cp k hch hmk hsor hpl hfuel
    have hcp : cp = some i := by cases hch; rfl
    subst hcp
    obtain ⟨mp, rest2, heq, hli, hchr⟩ := isChain_some_inv s ℓ i (i :: rest) hch
    simp only [List.cons_inj_right] at heq
    subst heq
    have hmpm : mp.mark = false := by
      have := hmk i (by simp)
      rw [markB_eq_of_link s i ℓ mp hli] at this
      exact this
    obtain ⟨nd, hnd, hndl⟩ := linkAt_isSome_nodeAt s i ℓ mp hli
    have hmp_eta : mp = ⟨mp.ptr, false⟩ := by
      cases mp with
      | mk q m => cases hmpm; rfl
    have hprio : prioD s i = nd.priority := by unfold prioD; rw [hnd]
    cases fuel with
    | zero => omega
    | succ fuel =>
      by_cases hlt : nd.priority < k
      · obtain ⟨A, B, hAB, hA, hB, hwalk, hlink⟩ :=
          ih fuel s ℓ i mp.ptr k hchr (fun j hj => hmk j (by simp [hj]))
            (List.Chain'.tail hsor)
            (by rw [← hmp_eta]; exact hli)
            (by simpa using Nat.lt_of_succ_lt_succ hfuel)
        refine ⟨i :: A, B, by rw [hAB, List.cons_append], ?_, hB, ?_, ?_⟩
        · intro j hj
          rcases List.mem_cons.mp hj with rfl | hj
          · rw [hprio]; exact hlt
          · exact hA j hj
        · unfold walkLevel getNextPM
          try dsimp only []
          rw [hli]
          simp only [Option.bind_eq_bind, Option.some_bind, Option.pure_def]
          try dsimp only []
          rw [if_neg (by rw [hmpm]; simp), hnd]
          try dsimp only []
          rw [if_pos hlt]
          rw [hwalk, getLastD_cons i p A]
        · rw [getLastD_cons i p A]
          exact hlink
      · have hpair := sortedIds_pairwise s (i :: rest) hsor
        have hge : ∀ j ∈ rest, prioD s i ≤ prioD s j :=
          (List.pairwise_cons.mp hpair).1
        refine ⟨[], i :: rest, rfl, by simp, ?_, ?_, hpl⟩
        · intro j hj
          rcases List.mem_cons.mp hj with rfl | hj
          · rw [hprio]; exact hlt
          · intro hc
            exact hlt (lt_of_le_of_lt (hprio ▸ hge j hj) hc)
        · unfold walkLevel getNextPM
          try dsimp only []
          rw [hli]
          simp only [Option.bind_eq_bind, Option.some_bind, Option.pure_def]
          try dsimp only []
          rw [if_neg (by rw [hmpm]; simp), hnd]
          try dsimp only []
          rw [if_neg hlt]
          rfl

theorem isChain_start (s : QState K V) (ℓ : Nat) (cp : Option Nat) (c : List Nat)
    (h : IsChain s ℓ cp c) : cp = c.head? := by
  cases h <;> rfl

theorem compareExchange_success (s : QState K V) (i ℓ : Nat) (e n : Option Nat)
    (h : linkAt s i ℓ = some ⟨e, false⟩) :
    compareExchange s i ℓ e n = some (setLink s i ℓ ⟨n, false⟩, true) := by
  unfold compareExchange getNextPM
  rw [h]
  simp

theorem frameExcept_refl [Inhabited K] (t : QState K V) (p ℓ : Nat) :
    FrameExcept t t p ℓ := by
  exact ⟨fun j _ => rfl, fun ℓa _ => rfl, fun j => rfl, fun j => rfl, fun j => rfl,
    fun j ℓa _ => rfl, fun ℓa _ => rfl, rfl, rfl, rfl, rfl, fun j => rfl⟩

theorem frameExcept_trans [Inhabited K] (t2 t1 t : QState K V) (p ℓ : Nat)
    (h2 : FrameExcept t2 t1 p ℓ) (h1 : FrameExcept t1 t p ℓ) :
    FrameExcept t2 t p ℓ := by
  obtain ⟨a2, b2, c2, d2, e2, f2, g2, i2, j2, k2, l2, n2⟩ := h2
  obtain ⟨a1, b1, c1, d1, e1, f1, g1, i1, j1, k1, l1, n1⟩ := h1
  exact ⟨fun j hj => (a2 j hj).trans (a1 j hj),
    fun ℓa hl => (b2 ℓa hl).trans (b1 ℓa hl),
    fun j => (c2 j).trans (c1 j), fun j => (d2 j).trans (d1 j),
    fun j => (e2 j).trans (e1 j),
    fun j ℓa hj => (f2 j ℓa hj).trans (f1 j ℓa hj),
    fun ℓa hl => (g2 ℓa hl).trans (g1 ℓa hl),
    i2.trans i1, j2.trans j1, k2.trans k1, l2.trans l1,
    fun j => (n2 j).trans (n1 j)⟩

theorem frameExcept_setLink [Inhabited K] (t : QState K V) (p ℓ : Nat) (mp : MPtr) :
    FrameExcept (setLink t p ℓ mp) t p ℓ := by
  refine ⟨fun j hj => nodeAt_setLink_ne t p ℓ j mp hj,
    fun ℓa hl => linkAt_setLink_ne_level t p ℓ ℓa mp hl,
    fun j => prioD_setLink t p ℓ j mp, fun j => levelOf_setLink t p ℓ j mp,
    fun j => insB_setLink t p ℓ j mp,
    fun j ℓa hj => markB_setLink_ne_node t p ℓ j ℓa mp hj,
    fun ℓa hl => markB_setLink_ne_level t p ℓ ℓa mp hl,
    setLink_size t p ℓ mp, setLink_head t p ℓ mp, setLink_maxSize t p ℓ mp,
    setLink_nodes_length t p ℓ mp, fun j => linksLen_setLink t p ℓ j mp⟩

theorem frameHead_refl [Inhabited K] (t : QState K V) (m : Nat) : FrameHead t t m :=
  ⟨fun j _ => rfl, fun ℓa _ => rfl, fun j => rfl, fun j => rfl, fun j => rfl,
    fun j ℓa _ => rfl, rfl, rfl, rfl, rfl, fun j => rfl⟩

theorem frameHead_trans [Inhabited K] (t2 t1 t : QState K V) (m : Nat)
    (h2 : FrameHead t2 t1 m) (h1 : FrameHead t1 t m) : FrameHead t2 t m := by
  obtain ⟨a2, b2, c2, d2, e2, f2, i2, j2, k2, l2, n2⟩ := h2
  obtain ⟨a1, b1, c1, d1, e1, f1, i1, j1, k1, l1, n1⟩ := h1
  exact ⟨fun j hj => (a2 j hj).trans (a1 j hj),
    fun ℓa hl => (b2 ℓa hl).trans (b1 ℓa hl),
    fun j => (c2 j).trans (c1 j), fun j => (d2 j).trans (d1 j),
    fun j => (e2 j).trans (e1 j),
    fun j ℓa hj => (f2 j ℓa hj).trans (f1 j ℓa hj),
    i2.trans i1, j2.trans j1, k2.trans k1, l2.trans l1,
    fun j => (n2 j).trans (n1 j)⟩

theorem frameHead_mono [Inhabited K] (t1 t : QState K V) (m m2 : Nat)
    (h : FrameHead t1 t m) (hm : m ≤ m2) : FrameHead t1 t m2 := by
  obtain ⟨a, b, c, d, e, f, i, j, k, l, n⟩ := h
  exact ⟨a, fun ℓa hl => b ℓa (le_trans hm hl), c, d, e, f, i, j, k, l, n⟩

theorem frameHead_of_frameExcept [Inhabited K] (t1 t : QState K V) (ℓ m : Nat)
    (h : FrameExcept t1 t 0 ℓ) (hℓ : ℓ < m) : FrameHead t1 t m := by
  obtain ⟨a, b, c, d, e, f, g, i, j, k, l, n⟩ := h
  exact ⟨a, fun ℓa hl => b ℓa (by omega), c, d, e, f, i, j, k, l, n⟩


theorem sortedIds_setLink [Inhabited K] (s : QState K V) (a ℓa : Nat) (mp : MPtr)
    (c : List Nat) : SortedIds (setLink s a ℓa mp) c ↔ SortedIds s c := by
  unfold SortedIds
  have hfun : (fun i j => prioD (setLink s a ℓa mp) i ≤ prioD (setLink s a ℓa mp) j)
      = (fun i j => prioD s i ≤ prioD s j) := by
    funext i j
    rw [prioD_setLink, prioD_setLink]
  rw [hfun]

/-- The full per-level walk: the chain after `p` is a (possibly empty) fully
marked front `ms` followed by an unmarked sorted rest.  The walk unlinks all
of `ms` out of `p` (each CAS succeeding), then behaves like the clean walk
on `rest`.  The state is unchanged, or changed exactly by rewriting `p`'s
level-`ℓ` cell past the marked front. -/
theorem walk_main [Inhabited K] :
    ∀ (ms rest : List Nat) (fuel : Nat) (s : QState K V) (ℓ p : Nat)
      (cp : Option Nat) (k : K),
      IsChain s ℓ cp (ms ++ rest) →
      (∀ i ∈ ms, markB s i ℓ = true) →
      (∀ i ∈ rest, markB s i ℓ = false) →
      SortedIds s rest →
      p ∉ ms → p ∉ rest →
      linkAt s p ℓ = some ⟨cp, false⟩ →
      (ms ++ rest).length < fuel →
      ∃ s1 A B, rest = A ++ B ∧
        (∀ i ∈ A, prioD s i < k) ∧
        (∀ i ∈ B, ¬ prioD s i < k) ∧
        walkLevel fuel s ℓ p cp k = some (.ok (s1, (A.getLast?).getD p, B.head?)) ∧
        FrameExcept s1 s p ℓ ∧ (ms = [] → s1 = s) ∧
        linkAt s1 ((A.getLast?).getD p) ℓ = some ⟨B.head?, false⟩ ∧
        IsChain s1 ℓ rest.head? rest ∧
        linkAt s1 p ℓ = some ⟨rest.head?, false⟩ := by
  intro ms
  induction ms with
  | nil =>
    intro rest fuel s ℓ p cp k hch hmks hmkr hsor hpm hpr hpl hfuel
    simp only [List.nil_append] at hch hfuel
    obtain ⟨A, B, hAB, hA, hB, hwalk, hlink⟩ :=
      walk_clean rest fuel s ℓ p cp k hch hmkr hsor hpl hfuel
    have hcp : cp = rest.head? := isChain_start s ℓ cp rest hch
    exact ⟨s, A, B, hAB, hA, hB, hwalk, frameExcept_refl s p ℓ, fun _ => rfl,
      hlink, hcp ▸ hch, hcp ▸ hpl⟩
  | cons m ms ih =>
    intro rest fuel s ℓ p cp k hch hmks hmkr hsor hpm hpr hpl hfuel
    simp only [List.cons_append] at hch
    have hcp : cp = some m := by cases hch; rfl
    subst hcp
    obtain ⟨mpm, rest2, heq, hlm, hchm⟩ := isChain_some_inv s ℓ m _ hch
    simp only [List.cons_inj_right] at heq
    subst heq
    have hmpm : mpm.mark = true := by
      have := hmks m (by simp)
      rw [markB_eq_of_link s m ℓ mpm hlm] at this
      exact this
    have hpne : p ≠ m := by intro hc; exact hpm (by simp [hc])
    cases fuel with
    | zero => simp at hfuel
    | succ fuel =>
      -- the state after the unlink CAS
      set s' := setLink s p ℓ ⟨mpm.ptr, false⟩ with hs'
      have hfr_node : ∀ j, j ≠ p → nodeAt s' j = nodeAt s j := by
        intro j hj
        exact nodeAt_setLink_ne s p ℓ j ⟨mpm.ptr, false⟩ hj
      have hch' : IsChain s' ℓ mpm.ptr (ms ++ rest) := by
        refine isChain_setLink s ℓ p ℓ ⟨mpm.ptr, false⟩ mpm.ptr (ms ++ rest) hchm ?_
        intro j hj
        left
        intro hc
        subst hc
        rcases List.mem_append.mp hj with hj | hj
        · exact hpm (by simp [hj])
        · exact hpr hj
      have hmks' : ∀ i ∈ ms, markB s' i ℓ = true := by
        intro j hj
        rw [markB_setLink_ne_node s p ℓ j ℓ ⟨mpm.ptr, false⟩
          (by intro hc; subst hc; exact hpm (by simp [hj]))]
        exact hmks j (by simp [hj])
      have hmkr' : ∀ i ∈ rest, markB s' i ℓ = false := by
        intro j hj
        rw [markB_setLink_ne_node s p ℓ j ℓ ⟨mpm.ptr, false⟩
          (by intro hc; subst hc; exact hpr hj)]
        exact hmkr j hj
      have hsor' : SortedIds s' rest := (sortedIds_setLink s p ℓ _ rest).mpr hsor
      have hpl' : linkAt s' p ℓ = some ⟨mpm.ptr, false⟩ :=
        linkAt_setLink_self s p ℓ ⟨mpm.ptr, false⟩ ⟨some m, false⟩ hpl
      obtain ⟨s1, A, B, hAB, hA, hB, hwalk, hfr, hnilc, hlink, hchf, hplf⟩ :=
        ih rest fuel s' ℓ p mpm.ptr k hch' hmks' hmkr' hsor'
          (fun hc => hpm (by simp [hc])) hpr hpl'
          (by simp only [List.length_append, List.length_cons] at hfuel ⊢; omega)
      have hprioeq : ∀ j, prioD s' j = prioD s j := fun j => prioD_setLink s p ℓ j _
      refine ⟨s1, A, B, hAB, ?_, ?_, ?_, ?_, by simp, hlink, hchf, hplf⟩
      · intro j hj
        rw [← hprioeq j]
        exact hA j hj
      · intro j hj
        rw [← hprioeq j]
        exact hB j hj
      · unfold walkLevel getNextPM
        try dsimp only []
        rw [hlm]
        simp only [Option.bind_eq_bind, Option.some_bind, Option.pure_def]
        try dsimp only []
        rw [if_pos (by rw [hmpm])]
        rw [compareExchange_success s p ℓ (some m) mpm.ptr hpl]
        simp only [Option.bind_eq_bind, Option.some_bind]
        try dsimp only []
        rw [if_pos trivial]
        exact hwalk
      · exact frameExcept_trans s1 s' s p ℓ hfr (frameExcept_setLink s p ℓ _)

theorem sortedIds_congr [Inhabited K] (t1 t : QState K V) (c : List Nat)
    (hpr : ∀ j, prioD t1 j = prioD t j) : SortedIds t1 c ↔ SortedIds t c := by
  unfold SortedIds
  have hfun : (fun i j => prioD t1 i ≤ prioD t1 j) = (fun i j => prioD t i ≤ prioD t j) := by
    funext i j
    rw [hpr i, hpr j]
  rw [hfun]

theorem linkAt_congr (t1 t : QState K V) (j ℓ : Nat)
    (h : nodeAt t1 j = nodeAt t j) : linkAt t1 j ℓ = linkAt t j ℓ := by
  unfold linkAt
  rw [h]

theorem ptrAt_congr (t1 t : QState K V) (j ℓ : Nat)
    (h : linkAt t1 j ℓ = linkAt t j ℓ) : ptrAt t1 j ℓ = ptrAt t j ℓ := by
  unfold ptrAt
  rw [h]

theorem markB_congr (t1 t : QState K V) (j ℓ : Nat)
    (h : linkAt t1 j ℓ = linkAt t j ℓ) : markB t1 j ℓ = markB t j ℓ := by
  unfold markB
  rw [h]

theorem getLastD_mem (l : List Nat) (z : Nat) :
    (l.getLast?).getD z = z ∨ (l.getLast?).getD z ∈ l := by
  cases hl : l.getLast? with
  | none => left; rfl
  | some x =>
    right
    simpa using List.mem_of_mem_getLast? (by rw [hl]; exact rfl)

/-! ## The level descent of `FindLastOfPriority` -/

set_option maxHeartbeats 1600000 in
/-- Correctness of `findLevels` on a quiescent state: every per-level walk
succeeds without a retry, the state changes only in the head's cells at the
walked levels (dropping some marked front `dm` of a level's chain), and at
each level the returned predecessor is the last node of priority `< k` of
the (cleaned) chain and the returned successor the first node of priority
`≥ k`.  Moreover a drop at level 0 forces every walk to have started at the
head, so that afterwards no chain retains a marked node. -/
theorem findLevels_main [Inhabited K] :
    ∀ (m : Nat) (t : QState K V) (p : Nat) (d : Nat → List Nat) (k : K) (fuel : Nat),
      (∀ ℓ, ℓ < m → ∃ mp, linkAt t 0 ℓ = some mp ∧ mp.mark = false) →
      (∀ ℓ, ℓ < m → IsChain t ℓ (ptrAt t 0 ℓ) (d ℓ)) →
      (∀ ℓ, ℓ < m → ∀ i ∈ d ℓ, i ≠ 0 ∧ (nodeAt t i).isSome = true) →
      (∀ ℓ, ℓ < m → SortedIds t (d ℓ)) →
      (∀ ℓ, ℓ < m → (d ℓ).Nodup) →
      (∀ ℓ, ℓ < m → ∃ dm du, d ℓ = dm ++ du ∧ (∀ i ∈ dm, markB t i ℓ = true) ∧
        (∀ i ∈ du, markB t i ℓ = false)) →
      (∀ ℓ, ℓ + 1 < m → ∀ i ∈ d (ℓ+1), markB t i (ℓ+1) = false →
        i ∈ d ℓ ∧ markB t i ℓ = false) →
      (0 < m → p = 0 ∨ (p ∈ d (m-1) ∧ markB t p (m-1) = false ∧ prioD t p < k)) →
      (∀ ℓ, ℓ < m → (d ℓ).length < fuel) →
      1 ≤ fuel →
      ∃ (t1 : QState K V) (ps : List Nat) (ss : List (Option Nat)) (e : Nat → List Nat),
        findLevels fuel t m p k = some (.ok (t1, ps, ss)) ∧
        ps.length = m ∧ ss.length = m ∧
        FrameHead t1 t m ∧
        (∀ ℓ, ℓ < m → IsChain t1 ℓ (ptrAt t1 0 ℓ) (e ℓ)) ∧
        (∀ ℓ, ℓ < m → e ℓ = d ℓ ∨
          ∃ dm, dm ≠ [] ∧ d ℓ = dm ++ e ℓ ∧ ∀ i ∈ dm, markB t i ℓ = true) ∧
        (∀ ℓ, ℓ < m → ∃ A B, e ℓ = A ++ B ∧
          (∀ i ∈ A, prioD t i < k) ∧ (∀ i ∈ B, ¬ prioD t i < k) ∧
          ps[ℓ]? = some ((A.getLast?).getD 0) ∧ ss[ℓ]? = some B.head? ∧
          ((A.getLast?).getD 0 = 0 ∨
            ((A.getLast?).getD 0 ∈ e ℓ ∧ markB t ((A.getLast?).getD 0) ℓ = false)) ∧
          linkAt t1 ((A.getLast?).getD 0) ℓ = some ⟨B.head?, false⟩) ∧
        (0 < m → e 0 ≠ d 0 → p = 0) ∧
        (0 < m → e 0 ≠ d 0 → ∀ ℓ, ℓ < m → ∀ i ∈ e ℓ, markB t i ℓ = false) ∧
        (∀ ℓ, ℓ < m → ∃ mp, linkAt t1 0 ℓ = some mp ∧ mp.mark = false) ∧
        (∀ ℓ, ℓ < m → ∃ fm fu, e ℓ = fm ++ fu ∧
          (∀ i ∈ fm, markB t i ℓ = true ∧ prioD t i < k) ∧
          (∀ i ∈ fu, markB t i ℓ = false)) := by
  intro m
  induction m with
  | zero =>
    intro t p d k fuel hhc hch hval hsor hnd hmpre hsub hp hfl hf1
    refine ⟨t, [], [], fun _ => [], ?_, rfl, rfl, frameHead_refl t 0, ?_, ?_, ?_, ?_, ?_,
      ?_, ?_⟩
    · cases fuel with
      | zero => omega
      | succ fuel => rfl
    · intro ℓ hℓ; omega
    · intro ℓ hℓ; omega
    · intro ℓ hℓ; omega
    · intro h0; omega
    · intro h0; omega
    · intro ℓ hℓ; omega
    · intro ℓ hℓ; omega
  | succ m ih =>
    intro t p d k fuel hhc hch hval hsor hnd hmpre hsub hp hfl hf1
    -- set up the level-m walk
    obtain ⟨dm, du, hdmu, hdm_mk, hdu_mk⟩ := hmpre m (by omega)
    by_cases hp0 : p = 0
    · -- walk from the head: the whole marked front dm is unlinked
      subst hp0
      obtain ⟨mph, hmph, hmph_mk⟩ := hhc m (by omega)
      have hmph_eta : mph = ⟨ptrAt t 0 m, false⟩ := by
        cases mph with
        | mk q mk2 =>
          cases hmph_mk
          unfold ptrAt
          rw [hmph]
      have hsor_du : SortedIds t du := by
        have := hsor m (by omega)
        rw [hdmu] at this
        exact List.Chain'.right_of_append this
      have h0dm : (0 : Nat) ∉ dm := by
        intro hc
        have := (hval m (by omega) 0 (by rw [hdmu]; exact List.mem_append_left du hc)).1
        exact this rfl
      have h0du : (0 : Nat) ∉ du := by
        intro hc
        have := (hval m (by omega) 0 (by rw [hdmu]; exact List.mem_append_right dm hc)).1
        exact this rfl
      obtain ⟨t2, A, B, hAB, hA, hB, hwalk, hfrE, hnilc, hlink, hchf, hplf⟩ :=
        walk_main dm du fuel t m 0 (ptrAt t 0 m) k (by rw [← hdmu]; exact hch m (by omega))
          hdm_mk hdu_mk hsor_du h0dm h0du (by rw [hmph, hmph_eta])
          (by rw [← hdmu]; exact hfl m (by omega))
      -- the descent below level m
      have hfrE2 : FrameExcept t2 t 0 m := hfrE
      have hnode2 : ∀ j, j ≠ 0 → nodeAt t2 j = nodeAt t j := hfrE2.1
      have hlow : ∀ ℓa, ℓa ≠ m → linkAt t2 0 ℓa = linkAt t 0 ℓa := hfrE2.2.1
      have hprio2 : ∀ j, prioD t2 j = prioD t j := hfrE2.2.2.1
      have hmark2 : ∀ j ℓa, j ≠ 0 → markB t2 j ℓa = markB t j ℓa := hfrE2.2.2.2.2.2.1
      have hch2 : ∀ ℓ, ℓ < m → IsChain t2 ℓ (ptrAt t2 0 ℓ) (d ℓ) := by
        intro ℓ hℓ
        rw [ptrAt_congr t2 t 0 ℓ (hlow ℓ (by omega))]
        exact isChain_of_nodeAt_eq t2 t ℓ _ (d ℓ)
          (fun i hi => hnode2 i (hval ℓ (by omega) i hi).1) (hch ℓ (by omega))
      have hval2 : ∀ ℓ, ℓ < m → ∀ i ∈ d ℓ, i ≠ 0 ∧ (nodeAt t2 i).isSome = true := by
        intro ℓ hℓ i hi
        obtain ⟨h1, h2⟩ := hval ℓ (by omega) i hi
        exact ⟨h1, by rw [hnode2 i h1]; exact h2⟩
      have hsor2 : ∀ ℓ, ℓ < m → SortedIds t2 (d ℓ) := by
        intro ℓ hℓ
        exact (sortedIds_congr t2 t (d ℓ) hprio2).mpr (hsor ℓ (by omega))
      have hmpre2 : ∀ ℓ, ℓ < m → ∃ dm2 du2, d ℓ = dm2 ++ du2 ∧
          (∀ i ∈ dm2, markB t2 i ℓ = true) ∧ (∀ i ∈ du2, markB t2 i ℓ = false) := by
        intro ℓ hℓ
        obtain ⟨dm2, du2, hd2, hm2, hu2⟩ := hmpre ℓ (by omega)
        refine ⟨dm2, du2, hd2, ?_, ?_⟩
        · intro i hi
          rw [hmark2 i ℓ (hval ℓ (by omega) i (by rw [hd2]; exact List.mem_append_left _ hi)).1]
          exact hm2 i hi
        · intro i hi
          rw [hmark2 i ℓ (hval ℓ (by omega) i (by rw [hd2]; exact List.mem_append_right _ hi)).1]
          exact hu2 i hi
      have hsub2 : ∀ ℓ, ℓ + 1 < m → ∀ i ∈ d (ℓ+1), markB t2 i (ℓ+1) = false →
          i ∈ d ℓ ∧ markB t2 i ℓ = false := by
        intro ℓ hℓ i hi hm
        have hi0 : i ≠ 0 := (hval (ℓ+1) (by omega) i hi).1
        rw [hmark2 i (ℓ+1) hi0] at hm
        obtain ⟨h1, h2⟩ := hsub ℓ (by omega) i hi hm
        exact ⟨h1, by rw [hmark2 i ℓ hi0]; exact h2⟩
      have hhc2 : ∀ ℓ, ℓ < m → ∃ mp, linkAt t2 0 ℓ = some mp ∧ mp.mark = false := by
        intro ℓ hℓ
        rw [hlow ℓ (by omega)]
        exact hhc ℓ (by omega)
      -- the new predecessor and its facts
      have hp1 : (A.getLast?).getD 0 = 0 ∨
          ((A.getLast?).getD 0 ∈ du ∧ markB t ((A.getLast?).getD 0) m = false ∧
            prioD t ((A.getLast?).getD 0) < k) := by
        rcases getLastD_mem A 0 with h1 | h1
        · left; exact h1
        · right
          have hmem : (A.getLast?).getD 0 ∈ du := by rw [hAB]; exact List.mem_append_left B h1
          exact ⟨hmem, hdu_mk _ hmem, hA _ h1⟩
      have hp2 : 0 < m → (A.getLast?).getD 0 = 0 ∨
          ((A.getLast?).getD 0 ∈ d (m-1) ∧ markB t2 ((A.getLast?).getD 0) (m-1) = false ∧
            prioD t2 ((A.getLast?).getD 0) < k) := by
        intro hm0
        rcases hp1 with h1 | ⟨hmem, hmk, hlt⟩
        · left; exact h1
        · right
          have hmm : (A.getLast?).getD 0 ∈ d m := by
            rw [hdmu]; exact List.mem_append_right dm hmem
          have hne0 : (A.getLast?).getD 0 ≠ 0 := (hval m (by omega) _ hmm).1
          have := hsub (m-1) (by omega) _ (by rw [show m - 1 + 1 = m by omega]; exact hmm)
            (by rw [show m - 1 + 1 = m by omega]; exact hmk)
          refine ⟨this.1, ?_, ?_⟩
          · rw [hmark2 _ (m-1) hne0]; exact this.2
          · rw [hprio2]; exact hlt
      have hfl2 : ∀ ℓ, ℓ < m → (d ℓ).length < fuel := fun ℓ hℓ => hfl ℓ (by omega)
      obtain ⟨t1, ps, ss, e, hcomp, hpsl, hssl, hfrH, hche, hed, hAB2, hCa, hCb, hHC, hMF⟩ :=
        ih t2 ((A.getLast?).getD 0) d k fuel hhc2 hch2 hval2 hsor2
          (fun ℓ hℓ => hnd ℓ (by omega)) hmpre2 hsub2 hp2 hfl2 hf1
      -- assemble
      refine ⟨t1, ps ++ [(A.getLast?).getD 0], ss ++ [B.head?],
        (fun ℓ => if ℓ = m then du else e ℓ), ?_, by simp [hpsl], by simp [hssl],
        ?_, ?_, ?_, ?_, ?_, ?_, ?_, ?_⟩
      · -- computation
        unfold findLevels
        rw [getNextPtr_eq t 0 m mph hmph, hmph_eta]
        simp only [Option.bind_eq_bind, Option.some_bind]
        rw [hwalk]
        simp only [Option.bind_eq_bind, Option.some_bind]
        try dsimp only []
        rw [hcomp]
        simp only [Option.bind_eq_bind, Option.some_bind]
        rfl
      · -- frame
        exact frameHead_trans t1 t2 t (m+1) (frameHead_mono t1 t2 m (m+1) hfrH (by omega))
          (frameHead_of_frameExcept t2 t m (m+1) hfrE2 (by omega))
      · -- chains
        intro ℓ hℓ
        dsimp only
        by_cases hlm : ℓ = m
        · subst hlm
          rw [if_pos rfl]
          have hcell : linkAt t1 0 ℓ = linkAt t2 0 ℓ := hfrH.2.1 ℓ (le_refl ℓ)
          rw [ptrAt_congr t1 t2 0 ℓ hcell]
          have hptr : ptrAt t2 0 ℓ = du.head? := by unfold ptrAt; rw [hplf]
          rw [hptr]
          refine isChain_of_nodeAt_eq t1 t2 ℓ du.head? du ?_ hchf
          intro i hi
          have hi0 : i ≠ 0 := by
            intro hc; subst hc; exact h0du hi
          exact hfrH.1 i hi0
        · rw [if_neg hlm]
          exact hche ℓ (by omega)
      · -- e vs d
        intro ℓ hℓ
        dsimp only
        by_cases hlm : ℓ = m
        · subst hlm
          rw [if_pos rfl]
          cases dm with
          | nil => left; rw [hdmu]; rfl
          | cons x xs =>
            right
            exact ⟨x :: xs, by simp, hdmu, hdm_mk⟩
        · rw [if_neg hlm]
          rcases hed ℓ (by omega) with h1 | ⟨dm2, hdm2ne, hdm2, hdm2mk⟩
          · left; exact h1
          · right
            refine ⟨dm2, hdm2ne, hdm2, ?_⟩
            intro i hi
            have hid : i ∈ d ℓ := by rw [hdm2]; exact List.mem_append_left _ hi
            rw [← hmark2 i ℓ (hval ℓ (by omega) i hid).1]
            exact hdm2mk i hi
      · -- per-level pred/succ facts
        intro ℓ hℓ
        dsimp only
        by_cases hlm : ℓ = m
        · subst hlm
          rw [if_pos rfl]
          refine ⟨A, B, hAB, hA, hB, ?_, ?_, ?_, ?_⟩
          · rw [List.getElem?_append_right (by omega)]
            simp [hpsl]
          · rw [List.getElem?_append_right (by omega)]
            simp [hssl]
          · rcases hp1 with h1 | ⟨hmem, hmk, hlt⟩
            · left; exact h1
            · right
              exact ⟨hmem, hmk⟩
          · -- the cell of the found predecessor survives the lower descent
            have hpred0 : (A.getLast?).getD 0 = 0 ∨ (A.getLast?).getD 0 ≠ 0 := by
              tauto
            rcases hpred0 with h1 | h1
            · rw [h1] at hlink ⊢
              have hcell : linkAt t1 0 ℓ = linkAt t2 0 ℓ := hfrH.2.1 ℓ (le_refl ℓ)
              rw [hcell]
              exact hlink
            · have : nodeAt t1 ((A.getLast?).getD 0) = nodeAt t2 ((A.getLast?).getD 0) :=
                hfrH.1 _ h1
              rw [linkAt_congr t1 t2 _ ℓ this]
              exact hlink
        · rw [if_neg hlm]
          obtain ⟨A2, B2, hAB2e, hA2, hB2, hps2, hss2, hpm2, hlink2⟩ := hAB2 ℓ (by omega)
          refine ⟨A2, B2, hAB2e, ?_, ?_, ?_, ?_, ?_, hlink2⟩
          · intro i hi
            rw [← hprio2 i]
            exact hA2 i hi
          · intro i hi
            rw [← hprio2 i]
            exact hB2 i hi
          · rw [List.getElem?_append_left (by omega)]
            exact hps2
          · rw [List.getElem?_append_left (by omega)]
            exact hss2
          · rcases hpm2 with h1 | ⟨hmem, hmk⟩
            · left; exact h1
            · right
              refine ⟨hmem, ?_⟩
              have hmm : (A2.getLast?).getD 0 ∈ d ℓ := by
                rcases hed ℓ (by omega) with h2 | ⟨dmx, -, h2, -⟩
                · rw [← h2]; exact hmem
                · rw [h2]; exact List.mem_append_right dmx hmem
              rw [← hmark2 _ ℓ (hval ℓ (by omega) _ hmm).1]
              exact hmk
      · -- Ca
        intro h0 hne
        rfl
      · -- Cb
        intro h0 hne ℓ hℓ i hi
        dsimp only at hi hne
        by_cases hlm : ℓ = m
        · subst hlm
          rw [if_pos rfl] at hi
          exact hdu_mk i hi
        · rw [if_neg hlm] at hi
          -- level below m
          rcases Nat.eq_zero_or_pos m with rfl | hm0
          · omega
          · have he0 : e 0 ≠ d 0 := by
              have heq0 : (if 0 = m then du else e 0) = e 0 := by
                rw [if_neg (by omega)]
              rw [heq0] at hne
              exact hne
            have hunm := hCb hm0 he0 ℓ (by omega) i hi
            have hi0 : i ≠ 0 := by
              have hmm : i ∈ d ℓ := by
                rcases hed ℓ (by omega) with h2 | ⟨dmx, -, h2, -⟩
                · rw [← h2]; exact hi
                · rw [h2]; exact List.mem_append_right dmx hi
              exact (hval ℓ (by omega) i hmm).1
            rw [← hmark2 i ℓ hi0]
            exact hunm
      · -- head cells unmarked after the descent
        intro ℓ hℓ
        by_cases hlm : ℓ = m
        · subst hlm
          refine ⟨⟨du.head?, false⟩, ?_, rfl⟩
          rw [hfrH.2.1 ℓ (le_refl ℓ)]
          exact hplf
        · exact hHC ℓ (by omega)
      · -- marked fronts of the result chains lie below the key
        intro ℓ hℓ
        dsimp only
        by_cases hlm : ℓ = m
        · subst hlm
          rw [if_pos rfl]
          exact ⟨[], du, rfl, by simp, hdu_mk⟩
        · rw [if_neg hlm]
          obtain ⟨fm, fu, hefu, hfm, hfu⟩ := hMF ℓ (by omega)
          refine ⟨fm, fu, hefu, ?_, ?_⟩
          · intro i hi
            have hie : i ∈ e ℓ := by rw [hefu]; exact List.mem_append_left _ hi
            have hid : i ∈ d ℓ := by
              rcases hed ℓ (by omega) with h2 | ⟨dmx, -, h2, -⟩
              · rw [← h2]; exact hie
              · rw [h2]; exact List.mem_append_right dmx hie
            obtain ⟨hm2, hpk2⟩ := hfm i hi
            refine ⟨?_, ?_⟩
            · rw [← hmark2 i ℓ (hval ℓ (by omega) i hid).1]
              exact hm2
            · rw [← hprio2 i]
              exact hpk2
          · intro i hi
            have hie : i ∈ e ℓ := by rw [hefu]; exact List.mem_append_right _ hi
            have hid : i ∈ d ℓ := by
              rcases hed ℓ (by omega) with h2 | ⟨dmx, -, h2, -⟩
              · rw [← h2]; exact hie
              · rw [h2]; exact List.mem_append_right dmx hie
            rw [← hmark2 i ℓ (hval ℓ (by omega) i hid).1]
            exact hfu i hi
    · -- p ≠ 0: the walk starts strictly inside the chain and changes nothing
      have hpfacts := hp (by omega)
      rcases hpfacts with h1 | ⟨hpm, hpmk, hplt⟩
      · exact absurd h1 hp0
      rw [show m + 1 - 1 = m by omega] at hpm hpmk
      have hpdu : p ∈ du := by
        rcases List.mem_append.mp (hdmu ▸ hpm) with h1 | h1
        · exact absurd (hdm_mk p h1) (by rw [hpmk]; simp)
        · exact h1
      obtain ⟨du1, du2, hdu12⟩ := List.append_of_mem hpdu
      have hdall : d m = (dm ++ du1) ++ p :: du2 := by
        rw [hdmu, hdu12, List.append_assoc]
      obtain ⟨mpp, hmpp, hchp⟩ := isChain_elem_suffix t m (dm ++ du1) (ptrAt t 0 m) p du2
        (by rw [← hdall]; exact hch m (by omega))
      have hmpp_mk : mpp.mark = false := by
        have := hpmk
        rw [markB_eq_of_link t p m mpp hmpp] at this
        exact this
      have hmpp_eta : mpp = ⟨mpp.ptr, false⟩ := by
        cases mpp with
        | mk q mk2 => cases hmpp_mk; rfl
      have hnd_m := hnd m (by omega)
      have hpdu2 : p ∉ du2 := by
        rw [hdall] at hnd_m
        have := List.Nodup.of_append_right hnd_m
        exact (List.nodup_cons.mp this).1
      have hdu2_mk : ∀ i ∈ du2, markB t i m = false := by
        intro i hi
        exact hdu_mk i (by rw [hdu12]; exact List.mem_append_right du1 (by simp [hi]))
      have hsor_du2 : SortedIds t du2 := by
        have h1 := hsor m (by omega)
        rw [hdall] at h1
        have h2 := List.Chain'.right_of_append h1
        exact List.Chain'.tail h2
      obtain ⟨t2, A2, B2, hAB, hA, hB, hwalk, hfrE, hnilc, hlink, hchf, hplf⟩ :=
        walk_main [] du2 fuel t m p mpp.ptr k (by simpa using hchp)
          (by simp) hdu2_mk hsor_du2 (by simp) hpdu2
          (by rw [← hmpp_eta]; exact hmpp)
          (by
            have := hfl m (by omega)
            rw [hdall] at this
            simp only [List.length_append, List.length_cons, List.nil_append] at this ⊢
            omega)
      have ht2 : t2 = t := hnilc rfl
      subst t2
      -- the global decomposition at level m
      have hAglob : d m = ((dm ++ du1) ++ p :: A2) ++ B2 := by
        rw [hdall, hAB]
        simp [List.append_assoc]
      have hAglob_lt : ∀ i ∈ (dm ++ du1) ++ p :: A2, prioD t i < k := by
        intro i hi
        have hpair := sortedIds_pairwise t (d m) (hsor m (by omega))
        rw [hdall] at hpair
        rcases List.mem_append.mp hi with h1 | h1
        · -- elements before p are ≤ p < k
          have hrel := (List.pairwise_append.mp hpair).2.2 i h1 p (by simp)
          exact lt_of_le_of_lt hrel hplt
        · rcases List.mem_cons.mp h1 with rfl | h1
          · exact hplt
          · exact hA i h1
      have hpred_eq : (((dm ++ du1) ++ p :: A2).getLast?).getD 0 = (A2.getLast?).getD p := by
        exact getLastD_append_cons (dm ++ du1) p 0 A2
      -- the descent below level m (state unchanged)
      have hp2 : 0 < m → (A2.getLast?).getD p = 0 ∨
          ((A2.getLast?).getD p ∈ d (m-1) ∧ markB t ((A2.getLast?).getD p) (m-1) = false ∧
            prioD t ((A2.getLast?).getD p) < k) := by
        intro hm0
        have hfacts : (A2.getLast?).getD p ∈ d m ∧ markB t ((A2.getLast?).getD p) m = false ∧
            prioD t ((A2.getLast?).getD p) < k := by
          rcases getLastD_mem A2 p with h1 | h1
          · rw [h1]
            exact ⟨hpm, hpmk, hplt⟩
          · have hmem2 : (A2.getLast?).getD p ∈ du2 := by
              rw [hAB]; exact List.mem_append_left B2 h1
            refine ⟨?_, hdu2_mk _ hmem2, hA _ h1⟩
            rw [hdall]
            exact List.mem_append_right _ (by simp [hmem2])
        right
        have := hsub (m-1) (by omega) _ (by rw [show m - 1 + 1 = m by omega]; exact hfacts.1)
          (by rw [show m - 1 + 1 = m by omega]; exact hfacts.2.1)
        exact ⟨this.1, this.2, hfacts.2.2⟩
      obtain ⟨t1, ps, ss, e, hcomp, hpsl, hssl, hfrH, hche, hed, hAB2, hCa, hCb, hHC, hMF⟩ :=
        ih t ((A2.getLast?).getD p) d k fuel (fun ℓ hℓ => hhc ℓ (by omega))
          (fun ℓ hℓ => hch ℓ (by omega)) (fun ℓ hℓ => hval ℓ (by omega))
          (fun ℓ hℓ => hsor ℓ (by omega)) (fun ℓ hℓ => hnd ℓ (by omega))
          (fun ℓ hℓ => hmpre ℓ (by omega)) (fun ℓ hℓ => hsub ℓ (by omega)) hp2
          (fun ℓ hℓ => hfl ℓ (by omega)) hf1
      refine ⟨t1, ps ++ [(A2.getLast?).getD p], ss ++ [B2.head?],
        (fun ℓ => if ℓ = m then d m else e ℓ), ?_, by simp [hpsl], by simp [hssl],
        ?_, ?_, ?_, ?_, ?_, ?_, ?_, ?_⟩
      · unfold findLevels
        rw [getNextPtr_eq t p m mpp hmpp]
        simp only [Option.bind_eq_bind, Option.some_bind]
        rw [hwalk]
        simp only [Option.bind_eq_bind, Option.some_bind]
        try dsimp only []
        rw [hcomp]
        simp only [Option.bind_eq_bind, Option.some_bind]
        rfl
      · exact frameHead_mono t1 t m (m+1) hfrH (by omega)
      · intro ℓ hℓ
        dsimp only
        by_cases hlm : ℓ = m
        · subst hlm
          rw [if_pos rfl]
          have hcell : linkAt t1 0 ℓ = linkAt t 0 ℓ := hfrH.2.1 ℓ (le_refl ℓ)
          rw [ptrAt_congr t1 t 0 ℓ hcell]
          refine isChain_of_nodeAt_eq t1 t ℓ _ (d ℓ) ?_ (hch ℓ (by omega))
          intro i hi
          exact hfrH.1 i (hval ℓ (by omega) i hi).1
        · rw [if_neg hlm]
          exact hche ℓ (by omega)
      · intro ℓ hℓ
        dsimp only
        by_cases hlm : ℓ = m
        · subst hlm
          rw [if_pos rfl]
          left; rfl
        · rw [if_neg hlm]
          exact hed ℓ (by omega)
      · intro ℓ hℓ
        dsimp only
        by_cases hlm : ℓ = m
        · subst hlm
          rw [if_pos rfl]
          refine ⟨(dm ++ du1) ++ p :: A2, B2, hAglob, hAglob_lt, hB, ?_, ?_, ?_, ?_⟩
          · rw [List.getElem?_append_right (by omega), hpsl, Nat.sub_self, hpred_eq]
            rfl
          · rw [List.getElem?_append_right (by omega), hssl, Nat.sub_self]
            rfl
          · rw [hpred_eq]
            right
            rcases getLastD_mem A2 p with h1 | h1
            · rw [h1]
              exact ⟨hpm, hpmk⟩
            · have hmem2 : (A2.getLast?).getD p ∈ du2 := by
                rw [hAB]; exact List.mem_append_left B2 h1
              refine ⟨?_, hdu2_mk _ hmem2⟩
              rw [hdall]
              exact List.mem_append_right _ (by simp [hmem2])
          · rw [hpred_eq]
            have hpne0 : (A2.getLast?).getD p ≠ 0 := by
              rcases getLastD_mem A2 p with h1 | h1
              · rw [h1]; exact hp0
              · have hmem2 : (A2.getLast?).getD p ∈ du2 := by
                  rw [hAB]; exact List.mem_append_left B2 h1
                refine (hval ℓ (by omega) ((A2.getLast?).getD p) ?_).1
                rw [hdall]
                exact List.mem_append_right _ (by simp [hmem2])
            rw [linkAt_congr t1 t _ ℓ (hfrH.1 _ hpne0)]
            exact hlink
        · rw [if_neg hlm]
          obtain ⟨A3, B3, hAB3, hA3, hB3, hps3, hss3, hpm3, hlink3⟩ := hAB2 ℓ (by omega)
          refine ⟨A3, B3, hAB3, hA3, hB3, ?_, ?_, hpm3, hlink3⟩
          · rw [List.getElem?_append_left (by omega)]
            exact hps3
          · rw [List.getElem?_append_left (by omega)]
            exact hss3
      · -- Ca: a drop at level 0 is impossible here unless p = 0
        intro h0 hne
        dsimp only at hne
        exfalso
        rcases Nat.eq_zero_or_pos m with rfl | hm0
        · exact hne (if_pos rfl)
        · have he0 : e 0 ≠ d 0 := by
            have heq : (if 0 = m then d m else e 0) = e 0 := by rw [if_neg (by omega)]
            rw [heq] at hne
            exact hne
          have hstart0 := hCa hm0 he0
          rcases getLastD_mem A2 p with h1 | h1
          · rw [h1] at hstart0
            exact hp0 hstart0
          · have hmem2 : (A2.getLast?).getD p ∈ du2 := by
              rw [hAB]; exact List.mem_append_left B2 h1
            have hin : (A2.getLast?).getD p ∈ d m := by
              rw [hdall]
              exact List.mem_append_right _ (by simp [hmem2])
            have := (hval m (by omega) ((A2.getLast?).getD p) hin).1
            exact this hstart0
      · intro h0 hne ℓ hℓ i hi
        dsimp only at hne
        exfalso
        rcases Nat.eq_zero_or_pos m with rfl | hm0
        · exact hne (if_pos rfl)
        · have he0 : e 0 ≠ d 0 := by
            have heq : (if 0 = m then d m else e 0) = e 0 := by rw [if_neg (by omega)]
            rw [heq] at hne
            exact hne
          have hstart0 := hCa hm0 he0
          rcases getLastD_mem A2 p with h1 | h1
          · rw [h1] at hstart0
            exact hp0 hstart0
          · have hmem2 : (A2.getLast?).getD p ∈ du2 := by
              rw [hAB]; exact List.mem_append_left B2 h1
            have hin : (A2.getLast?).getD p ∈ d m := by
              rw [hdall]
              exact List.mem_append_right _ (by simp [hmem2])
            have := (hval m (by omega) ((A2.getLast?).getD p) hin).1
            exact this hstart0
      · -- head cells unmarked after the descent
        intro ℓ hℓ
        by_cases hlm : ℓ = m
        · subst hlm
          obtain ⟨mp2, hmp2, hmp2m⟩ := hhc ℓ (by omega)
          refine ⟨mp2, ?_, hmp2m⟩
          rw [hfrH.2.1 ℓ (le_refl ℓ)]
          exact hmp2
        · exact hHC ℓ (by omega)
      · -- marked fronts of the result chains lie below the key
        intro ℓ hℓ
        dsimp only
        by_cases hlm : ℓ = m
        · subst hlm
          rw [if_pos rfl]
          refine ⟨dm, du, hdmu, ?_, hdu_mk⟩
          intro i hi
          refine ⟨hdm_mk i hi, ?_⟩
          have hpair := sortedIds_pairwise t (d ℓ) (hsor ℓ (by omega))
          rw [hdmu] at hpair
          have hrel := (List.pairwise_append.mp hpair).2.2 i hi p hpdu
          exact lt_of_le_of_lt hrel hplt
        · rw [if_neg hlm]
          exact hMF ℓ (by omega)

/-! ## The mark resolution and level loop of `FindFirst` -/

/-- Correctness of `ffResolve` from the head: the chain at level `ℓ` is a
fully marked front `cm` followed by an unmarked rest `cu`; the resolution
CAS-unlinks all of `cm` out of the head (each CAS succeeding) and stops at
the first unmarked node, changing the state only in the head's level-`ℓ`
cell. -/
theorem ffResolve_main [Inhabited K] :
    ∀ (cm cu : List Nat) (fuel : Nat) (s : QState K V) (ℓ : Nat) (cp : Option Nat),
      IsChain s ℓ cp (cm ++ cu) →
      (∀ i ∈ cm, markB s i ℓ = true) →
      (∀ i ∈ cu, markB s i ℓ = false) →
      (0 : Nat) ∉ cm → (0 : Nat) ∉ cu →
      linkAt s 0 ℓ = some ⟨cp, false⟩ →
      (cm ++ cu).length < fuel →
      ∃ s1, ffResolve fuel s ℓ 0 cp = some (.ok (s1, cu.head?)) ∧
        FrameExcept s1 s 0 ℓ ∧ (cm = [] → s1 = s) ∧
        linkAt s1 0 ℓ = some ⟨cu.head?, false⟩ ∧
        IsChain s1 ℓ cu.head? cu := by
  intro cm
  induction cm with
  | nil =>
    intro cu fuel s ℓ cp hch hmkm hmku h0m h0u hpl hfuel
    simp only [List.nil_append] at hch hfuel
    have hcp : cp = cu.head? := isChain_start s ℓ cp cu hch
    subst hcp
    cases fuel with
    | zero => omega
    | succ fuel =>
      cases cu with
      | nil =>
        exact ⟨s, rfl, frameExcept_refl s 0 ℓ, fun _ => rfl, hpl, hch⟩
      | cons i rest =>
        obtain ⟨mp, rest2, heq, hli, hchr⟩ := isChain_some_inv s ℓ i _ hch
        simp only [List.cons_inj_right] at heq
        subst heq
        have hmpm : mp.mark = false := by
          have := hmku i (by simp)
          rw [markB_eq_of_link s i ℓ mp hli] at this
          exact this
        refine ⟨s, ?_, frameExcept_refl s 0 ℓ, fun _ => rfl, hpl, hch⟩
        unfold ffResolve getNextPM
        simp only [List.head?_cons]
        try dsimp only []
        rw [hli]
        simp only [Option.bind_eq_bind, Option.some_bind, Option.pure_def]
        try dsimp only []
        rw [if_neg (by rw [hmpm]; simp)]
  | cons x cm ih =>
    intro cu fuel s ℓ cp hch hmkm hmku h0m h0u hpl hfuel
    simp only [List.cons_append] at hch
    have hcp : cp = some x := by cases hch; rfl
    subst hcp
    obtain ⟨mpx, rest2, heq, hlx, hchx⟩ := isChain_some_inv s ℓ x _ hch
    simp only [List.cons_inj_right] at heq
    subst heq
    have hmpx : mpx.mark = true := by
      have := hmkm x (by simp)
      rw [markB_eq_of_link s x ℓ mpx hlx] at this
      exact this
    have h0x : (0 : Nat) ≠ x := by intro hc; exact h0m (by simp [hc])
    cases fuel with
    | zero => simp at hfuel
    | succ fuel =>
      set s' := setLink s 0 ℓ ⟨mpx.ptr, false⟩ with hs'
      have hch' : IsChain s' ℓ mpx.ptr (cm ++ cu) := by
        refine isChain_setLink s ℓ 0 ℓ ⟨mpx.ptr, false⟩ mpx.ptr (cm ++ cu) hchx ?_
        intro j hj
        left
        intro hc
        subst hc
        rcases List.mem_append.mp hj with hj | hj
        · exact h0m (by simp [hj])
        · exact h0u hj
      have hmkm' : ∀ i ∈ cm, markB s' i ℓ = true := by
        intro j hj
        rw [markB_setLink_ne_node s 0 ℓ j ℓ ⟨mpx.ptr, false⟩
          (by intro hc; subst hc; exact h0m (by simp [hj]))]
        exact hmkm j (by simp [hj])
      have hmku' : ∀ i ∈ cu, markB s' i ℓ = false := by
        intro j hj
        rw [markB_setLink_ne_node s 0 ℓ j ℓ ⟨mpx.ptr, false⟩
          (by intro hc; subst hc; exact h0u hj)]
        exact hmku j hj
      have hpl' : linkAt s' 0 ℓ = some ⟨mpx.ptr, false⟩ :=
        linkAt_setLink_self s 0 ℓ ⟨mpx.ptr, false⟩ ⟨some x, false⟩ hpl
      obtain ⟨s1, hcomp, hfr, hnilc, hcell, hchf⟩ :=
        ih cu fuel s' ℓ mpx.ptr hch' hmkm' hmku'
          (fun hc => h0m (by simp [hc])) h0u hpl'
          (by simp only [List.length_append, List.length_cons] at hfuel ⊢; omega)
      refine ⟨s1, ?_, ?_, by simp, hcell, hchf⟩
      · unfold ffResolve getNextPM
        try dsimp only []
        rw [hlx]
        simp only [Option.bind_eq_bind, Option.some_bind, Option.pure_def]
        try dsimp only []
        rw [if_pos (by rw [hmpx])]
        rw [compareExchange_success s 0 ℓ (some x) mpx.ptr hpl]
        simp only [Option.bind_eq_bind, Option.some_bind]
        try dsimp only []
        rw [if_pos trivial]
        exact hcomp
      · exact frameExcept_trans s1 s' s 0 ℓ hfr (frameExcept_setLink s 0 ℓ _)

/-- Correctness of the level loop of `FindFirst` on a quiescent state: at
every level the marked front `cmf ℓ` of the chain is unlinked from the head
(the predecessor never advances), the state changes only in the head's
cells at the visited levels, and the result is the first unmarked node of
the cleaned bottom chain. -/
theorem findFirstLevels_main [Inhabited K] :
    ∀ (m : Nat) (t : QState K V) (cmf cuf : Nat → List Nat) (fuel : Nat),
      (∀ ℓ, ℓ ≤ m → ∃ mp, linkAt t 0 ℓ = some mp ∧ mp.mark = false) →
      (∀ ℓ, ℓ ≤ m → IsChain t ℓ (ptrAt t 0 ℓ) (cmf ℓ ++ cuf ℓ)) →
      (∀ ℓ, ℓ ≤ m → ∀ i ∈ cmf ℓ ++ cuf ℓ, i ≠ 0 ∧ (nodeAt t i).isSome = true) →
      (∀ ℓ, ℓ ≤ m → ∀ i ∈ cmf ℓ, markB t i ℓ = true) →
      (∀ ℓ, ℓ ≤ m → ∀ i ∈ cuf ℓ, markB t i ℓ = false) →
      (∀ ℓ, ℓ ≤ m → (cmf ℓ ++ cuf ℓ).length < fuel) →
      ∃ t1, findFirstLevels fuel t (m+1) 0 = some (.ok (t1, (cuf 0).head?)) ∧
        FrameHead t1 t (m+1) ∧
        (∀ ℓ, ℓ ≤ m → linkAt t1 0 ℓ = some ⟨(cuf ℓ).head?, false⟩) ∧
        (∀ ℓ, ℓ ≤ m → IsChain t1 ℓ (ptrAt t1 0 ℓ) (cuf ℓ)) := by
  intro m
  induction m with
  | zero =>
    intro t cmf cuf fuel hhc hch hval hmkm hmku hfl
    obtain ⟨mph, hmph, hmph_mk⟩ := hhc 0 (le_refl 0)
    have hmph_eta : mph = ⟨ptrAt t 0 0, false⟩ := by
      cases mph with
      | mk q mk2 =>
        cases hmph_mk
        unfold ptrAt
        rw [hmph]
    have h0m : (0 : Nat) ∉ cmf 0 := by
      intro hc
      exact (hval 0 (le_refl 0) 0 (List.mem_append_left _ hc)).1 rfl
    have h0u : (0 : Nat) ∉ cuf 0 := by
      intro hc
      exact (hval 0 (le_refl 0) 0 (List.mem_append_right _ hc)).1 rfl
    obtain ⟨s1, hcomp, hfr, hnilc, hcell, hchf⟩ :=
      ffResolve_main (cmf 0) (cuf 0) fuel t 0 (ptrAt t 0 0) (hch 0 (le_refl 0))
        (hmkm 0 (le_refl 0)) (hmku 0 (le_refl 0)) h0m h0u
        (by rw [hmph, hmph_eta]) (hfl 0 (le_refl 0))
    refine ⟨s1, ?_, frameHead_of_frameExcept s1 t 0 1 hfr (by omega), ?_, ?_⟩
    · unfold findFirstLevels
      rw [getNextPtr_eq t 0 0 mph hmph, hmph_eta]
      simp only [Option.bind_eq_bind, Option.some_bind]
      rw [hcomp]
      simp only [Option.bind_eq_bind, Option.some_bind]
      try dsimp only []
      rw [if_pos trivial]
      rfl
    · intro ℓ hℓ
      interval_cases ℓ
      exact hcell
    · intro ℓ hℓ
      interval_cases ℓ
      have hptr : ptrAt s1 0 0 = (cuf 0).head? := by unfold ptrAt; rw [hcell]
      rw [hptr]
      exact hchf
  | succ m ih =>
    intro t cmf cuf fuel hhc hch hval hmkm hmku hfl
    obtain ⟨mph, hmph, hmph_mk⟩ := hhc (m+1) (le_refl (m+1))
    have hmph_eta : mph = ⟨ptrAt t 0 (m+1), false⟩ := by
      cases mph with
      | mk q mk2 =>
        cases hmph_mk
        unfold ptrAt
        rw [hmph]
    have h0m : (0 : Nat) ∉ cmf (m+1) := by
      intro hc
      exact (hval (m+1) (le_refl _) 0 (List.mem_append_left _ hc)).1 rfl
    have h0u : (0 : Nat) ∉ cuf (m+1) := by
      intro hc
      exact (hval (m+1) (le_refl _) 0 (List.mem_append_right _ hc)).1 rfl
    obtain ⟨s1, hcomp, hfr, hnilc, hcell, hchf⟩ :=
      ffResolve_main (cmf (m+1)) (cuf (m+1)) fuel t (m+1) (ptrAt t 0 (m+1))
        (hch (m+1) (le_refl _)) (hmkm (m+1) (le_refl _)) (hmku (m+1) (le_refl _))
        h0m h0u (by rw [hmph, hmph_eta]) (hfl (m+1) (le_refl _))
    have hnode1 : ∀ j, j ≠ 0 → nodeAt s1 j = nodeAt t j := hfr.1
    have hlow1 : ∀ ℓa, ℓa ≠ m+1 → linkAt s1 0 ℓa = linkAt t 0 ℓa := hfr.2.1
    have hmark1 : ∀ j ℓa, j ≠ 0 → markB s1 j ℓa = markB t j ℓa := hfr.2.2.2.2.2.1
    have hhc1 : ∀ ℓ, ℓ ≤ m → ∃ mp, linkAt s1 0 ℓ = some mp ∧ mp.mark = false := by
      intro ℓ hℓ
      rw [hlow1 ℓ (by omega)]
      exact hhc ℓ (by omega)
    have hch1 : ∀ ℓ, ℓ ≤ m → IsChain s1 ℓ (ptrAt s1 0 ℓ) (cmf ℓ ++ cuf ℓ) := by
      intro ℓ hℓ
      rw [ptrAt_congr s1 t 0 ℓ (hlow1 ℓ (by omega))]
      exact isChain_of_nodeAt_eq s1 t ℓ _ _
        (fun i hi => hnode1 i (hval ℓ (by omega) i hi).1) (hch ℓ (by omega))
    have hval1 : ∀ ℓ, ℓ ≤ m → ∀ i ∈ cmf ℓ ++ cuf ℓ, i ≠ 0 ∧ (nodeAt s1 i).isSome = true := by
      intro ℓ hℓ i hi
      obtain ⟨h1, h2⟩ := hval ℓ (by omega) i hi
      exact ⟨h1, by rw [hnode1 i h1]; exact h2⟩
    have hmkm1 : ∀ ℓ, ℓ ≤ m → ∀ i ∈ cmf ℓ, markB s1 i ℓ = true := by
      intro ℓ hℓ i hi
      rw [hmark1 i ℓ (hval ℓ (by omega) i (List.mem_append_left _ hi)).1]
      exact hmkm ℓ (by omega) i hi
    have hmku1 : ∀ ℓ, ℓ ≤ m → ∀ i ∈ cuf ℓ, markB s1 i ℓ = false := by
      intro ℓ hℓ i hi
      rw [hmark1 i ℓ (hval ℓ (by omega) i (List.mem_append_right _ hi)).1]
      exact hmku ℓ (by omega) i hi
    obtain ⟨t1, hcomp2, hfrH, hcells, hchains⟩ :=
      ih s1 cmf cuf fuel hhc1 hch1 hval1 hmkm1 hmku1 (fun ℓ hℓ => hfl ℓ (by omega))
    refine ⟨t1, ?_, ?_, ?_, ?_⟩
    · unfold findFirstLevels
      rw [getNextPtr_eq t 0 (m+1) mph hmph, hmph_eta]
      simp only [Option.bind_eq_bind, Option.some_bind]
      rw [hcomp]
      simp only [Option.bind_eq_bind, Option.some_bind]
      try dsimp only []
      rw [if_neg (by omega)]
      exact hcomp2
    · exact frameHead_trans t1 s1 t (m+2)
        (frameHead_mono t1 s1 (m+1) (m+2) hfrH (by omega))
        (frameHead_of_frameExcept s1 t (m+1) (m+2) hfr (by omega))
    · intro ℓ hℓ
      rcases Nat.lt_or_ge ℓ (m+1) with h1 | h1
      · exact hcells ℓ (by omega)
      · have hℓeq : ℓ = m + 1 := by omega
        subst hℓeq
        rw [hfrH.2.1 (m+1) (le_refl (m+1))]
        exact hcell
    · intro ℓ hℓ
      rcases Nat.lt_or_ge ℓ (m+1) with h1 | h1
      · exact hchains ℓ (by omega)
      · have hℓeq : ℓ = m + 1 := by omega
        subst hℓeq
        have hc1 : linkAt t1 0 (m+1) = linkAt s1 0 (m+1) := hfrH.2.1 (m+1) (le_refl (m+1))
        have hptr : ptrAt t1 0 (m+1) = (cuf (m+1)).head? := by
          unfold ptrAt; rw [hc1, hcell]
        rw [hptr]
        refine isChain_of_nodeAt_eq t1 s1 (m+1) _ _ ?_ hchf
        intro i hi
        exact hfrH.1 i (hval (m+1) (le_refl (m+1)) i (List.mem_append_right _ hi)).1

/-! ## Consequences of the quiescent invariant -/

theorem split_unique (f : Nat → Bool) (P1 U1 P2 U2 : List Nat)
    (heq : P1 ++ U1 = P2 ++ U2)
    (h1 : ∀ i ∈ P1, f i = true) (h2 : ∀ i ∈ U1, f i = false)
    (h3 : ∀ i ∈ P2, f i = true) (h4 : ∀ i ∈ U2, f i = false) :
    P1 = P2 ∧ U1 = U2 := by
  rcases List.append_eq_append_iff.mp heq with ⟨a, ha1, ha2⟩ | ⟨a, ha1, ha2⟩
  · have hanil : a = [] := by
      cases a with
      | nil => rfl
      | cons x xs =>
        have hxP : f x = true := h3 x (by rw [ha1]; simp)
        have hxU : f x = false := h2 x (by rw [ha2]; simp)
        rw [hxP] at hxU
        exact absurd hxU (by simp)
    subst hanil
    simp at ha1 ha2
    exact ⟨ha1.symm, ha2⟩
  · have hanil : a = [] := by
      cases a with
      | nil => rfl
      | cons x xs =>
        have hxP : f x = true := h1 x (by rw [ha1]; simp)
        have hxU : f x = false := h4 x (by rw [ha2]; simp)
        rw [hxP] at hxU
        exact absurd hxU (by simp)
    subst hanil
    simp at ha1 ha2
    exact ⟨ha1, ha2.symm⟩

theorem sortedIds_of_pairwise [Inhabited K] (s : QState K V) (c : List Nat)
    (h : List.Pairwise (fun i j => prioD s i ≤ prioD s j) c) : SortedIds s c := by
  unfold SortedIds
  have : IsTrans Nat (fun i j => prioD s i ≤ prioD s j) := ⟨fun a b c hab hbc => le_trans hab hbc⟩
  exact (List.chain'_iff_pairwise).mpr h

theorem sortedIds_sublist [Inhabited K] (s : QState K V) (c1 c : List Nat)
    (hsub : c1.Sublist c) (h : SortedIds s c) : SortedIds s c1 :=
  sortedIds_of_pairwise s c1 ((sortedIds_pairwise s c h).sublist hsub)

theorem FL_append (s : QState K V) (a b : List Nat) (ℓ : Nat) :
    FL s (a ++ b) ℓ = FL s a ℓ ++ FL s b ℓ := by
  unfold FL
  rw [List.filter_append]

theorem FL_sublist (s : QState K V) (c : List Nat) (ℓ : Nat) : (FL s c ℓ).Sublist c :=
  List.filter_sublist c

theorem FL_mem (s : QState K V) (c : List Nat) (ℓ i : Nat) :
    i ∈ FL s c ℓ ↔ i ∈ c ∧ ℓ < levelOf s i := by
  unfold FL
  simp

theorem FL_congr (s1 s : QState K V) (c : List Nat) (ℓ : Nat)
    (h : ∀ i ∈ c, levelOf s1 i = levelOf s i) : FL s1 c ℓ = FL s c ℓ := by
  unfold FL
  exact List.filter_congr (fun i hi => by rw [h i hi])

theorem liveIds_congr (s1 s : QState K V) (c : List Nat)
    (h : ∀ i ∈ c, markB s1 i 0 = markB s i 0) : liveIds s1 c = liveIds s c := by
  unfold liveIds
  exact List.filter_congr (fun i hi => by rw [h i hi])

theorem liveIds_all_unmarked (s : QState K V) (c : List Nat)
    (h : ∀ i ∈ c, markB s i 0 = false) : liveIds s c = c := by
  unfold liveIds
  exact List.filter_eq_self.mpr (fun i hi => by rw [h i hi]; rfl)

theorem liveIds_append (s : QState K V) (a b : List Nat) :
    liveIds s (a ++ b) = liveIds s a ++ liveIds s b := by
  unfold liveIds
  rw [List.filter_append]

theorem liveIds_all_marked (s : QState K V) (c : List Nat)
    (h : ∀ i ∈ c, markB s i 0 = true) : liveIds s c = [] := by
  unfold liveIds
  exact List.filter_eq_nil_iff.mpr (fun i hi => by rw [h i hi]; simp)

/-- Every member of an upper-level chain is a member of the bottom chain and
tall enough to reach its level. -/
theorem invc_upper_mem [Inhabited K] {L : Nat} {s : QState K V} {c : Nat → List Nat}
    (hI : InvC L s c) (ℓ : Nat) (h1 : 1 ≤ ℓ) (hL : ℓ ≤ L) :
    ∀ i ∈ c ℓ, i ∈ c 0 ∧ ℓ < levelOf s i := by
  intro i hi
  obtain ⟨pre, hpre, hprem⟩ := hI.upper_eq ℓ h1 hL
  have : i ∈ FL s (c 0) ℓ := by rw [hpre]; exact List.mem_append_right pre hi
  exact (FL_mem s (c 0) ℓ i).mp this

theorem invc_mem0 [Inhabited K] {L : Nat} {s : QState K V} {c : Nat → List Nat}
    (hI : InvC L s c) (ℓ : Nat) (hL : ℓ ≤ L) : ∀ i ∈ c ℓ, i ∈ c 0 := by
  intro i hi
  rcases Nat.eq_zero_or_pos ℓ with rfl | h1
  · exact hi
  · exact (invc_upper_mem hI ℓ h1 hL i hi).1

theorem invc_valid [Inhabited K] {L : Nat} {s : QState K V} {c : Nat → List Nat}
    (hI : InvC L s c) (ℓ : Nat) (hL : ℓ ≤ L) :
    ∀ i ∈ c ℓ, i ≠ 0 ∧ (nodeAt s i).isSome = true := by
  intro i hi
  have h0 := hI.c0_valid i (invc_mem0 hI ℓ hL i hi)
  exact ⟨h0.1, h0.2⟩

theorem invc_sublist0 [Inhabited K] {L : Nat} {s : QState K V} {c : Nat → List Nat}
    (hI : InvC L s c) (ℓ : Nat) (hL : ℓ ≤ L) : (c ℓ).Sublist (c 0) := by
  rcases Nat.eq_zero_or_pos ℓ with rfl | h1
  · exact List.Sublist.refl (c 0)
  · obtain ⟨pre, hpre, hprem⟩ := hI.upper_eq ℓ h1 hL
    have h2 : (c ℓ).Sublist (FL s (c 0) ℓ) := by
      rw [hpre]
      exact List.sublist_append_right pre (c ℓ)
    exact h2.trans (FL_sublist s (c 0) ℓ)

theorem invc_sorted [Inhabited K] {L : Nat} {s : QState K V} {c : Nat → List Nat}
    (hI : InvC L s c) (ℓ : Nat) (hL : ℓ ≤ L) : SortedIds s (c ℓ) :=
  sortedIds_sublist s (c ℓ) (c 0) (invc_sublist0 hI ℓ hL) hI.sorted0

theorem invc_nodup [Inhabited K] {L : Nat} {s : QState K V} {c : Nat → List Nat}
    (hI : InvC L s c) (ℓ : Nat) (hL : ℓ ≤ L) : (c ℓ).Nodup :=
  (hI.nodup0).sublist (invc_sublist0 hI ℓ hL)

/-- Every per-level chain splits into a fully marked front and an unmarked
rest. -/
theorem invc_split [Inhabited K] {L : Nat} {s : QState K V} {c : Nat → List Nat}
    (hI : InvC L s c) (ℓ : Nat) (hL : ℓ ≤ L) :
    ∃ dm du, c ℓ = dm ++ du ∧ (∀ i ∈ dm, markB s i ℓ = true) ∧
      ∀ i ∈ du, markB s i ℓ = false := by
  rcases Nat.eq_zero_or_pos ℓ with rfl | h1
  · exact hI.marked_front
  · obtain ⟨cm0, cu0, hc0, hcm0, hcu0⟩ := hI.marked_front
    obtain ⟨pre, hpre, hprem⟩ := hI.upper_eq ℓ h1 hL
    have hflsplit : FL s cm0 ℓ ++ FL s cu0 ℓ = pre ++ c ℓ := by
      rw [← FL_append, ← hc0, hpre]
    have hmark_of_mem : ∀ i ∈ c ℓ, markB s i ℓ = markB s i 0 := by
      intro i hi
      obtain ⟨hi0, hlev⟩ := invc_upper_mem hI ℓ h1 hL i hi
      exact hI.marks_levels i hi0 ℓ hlev
    rcases List.append_eq_append_iff.mp hflsplit with ⟨a, ha1, ha2⟩ | ⟨a, ha1, ha2⟩
    · -- pre = FL cm0 ++ a, c ℓ = ... : a ⊆ FL cu0 unmarked, a ⊆ pre marked → a = []
      have hanil : a = [] := by
        cases a with
        | nil => rfl
        | cons x xs =>
          have hxmem : x ∈ FL s cu0 ℓ := by rw [ha2]; simp
          have hxu : markB s x 0 = false :=
            hcu0 x ((FL_mem s cu0 ℓ x).mp hxmem).1
          have hxp : markB s x 0 = true := hprem x (by rw [ha1]; simp)
          rw [hxp] at hxu
          exact absurd hxu (by simp)
      subst hanil
      simp only [List.append_nil, List.nil_append] at ha1 ha2
      refine ⟨[], c ℓ, by simp, by simp, ?_⟩
      intro i hi
      rw [hmark_of_mem i hi]
      exact hcu0 i ((FL_mem s cu0 ℓ i).mp (by rw [ha2]; exact hi)).1
    · -- FL cm0 = pre ++ a and c ℓ = a ++ FL cu0
      refine ⟨a, FL s cu0 ℓ, ha2, ?_, ?_⟩
      · intro i hi
        have hia : i ∈ c ℓ := by rw [ha2]; exact List.mem_append_left _ hi
        rw [hmark_of_mem i hia]
        exact hcm0 i ((FL_mem s cm0 ℓ i).mp (by rw [ha1]; exact List.mem_append_right pre hi)).1
      · intro i hi
        have hia : i ∈ c ℓ := by rw [ha2]; exact List.mem_append_right a hi
        rw [hmark_of_mem i hia]
        exact hcu0 i ((FL_mem s cu0 ℓ i).mp hi).1

/-- Given per-level marked/unmarked splits, the level filter of the live
part of the bottom chain is exactly the live part of the corresponding
upper-level chain, and the filter of the marked part is the dropped prefix
plus the marked part. -/
theorem invc_FL_split [Inhabited K] {L : Nat} {s : QState K V} {c : Nat → List Nat}
    (hI : InvC L s c) (cm cu : Nat → List Nat)
    (hsplit : ∀ ℓ, ℓ ≤ L → c ℓ = cm ℓ ++ cu ℓ)
    (hm : ∀ ℓ, ℓ ≤ L → ∀ i ∈ cm ℓ, markB s i ℓ = true)
    (hu : ∀ ℓ, ℓ ≤ L → ∀ i ∈ cu ℓ, markB s i ℓ = false)
    (ℓ : Nat) (h1 : 1 ≤ ℓ) (hL : ℓ ≤ L) :
    FL s (cu 0) ℓ = cu ℓ ∧
      ∃ pre, FL s (cm 0) ℓ = pre ++ cm ℓ ∧ ∀ i ∈ pre, markB s i 0 = true := by
  obtain ⟨pre, hpre, hprem⟩ := hI.upper_eq ℓ h1 hL
  have hmark_of_mem : ∀ i ∈ c ℓ, markB s i ℓ = markB s i 0 := by
    intro i hi
    obtain ⟨hi0, hlev⟩ := invc_upper_mem hI ℓ h1 hL i hi
    exact hI.marks_levels i hi0 ℓ hlev
  have hflsplit : FL s (cm 0) ℓ ++ FL s (cu 0) ℓ = (pre ++ cm ℓ) ++ cu ℓ := by
    rw [← FL_append, ← hsplit 0 (by omega), hpre, hsplit ℓ hL, List.append_assoc]
  have := split_unique (fun i => markB s i 0) (FL s (cm 0) ℓ) (FL s (cu 0) ℓ)
    (pre ++ cm ℓ) (cu ℓ) hflsplit
    (fun i hi => hm 0 (by omega) i ((FL_mem s (cm 0) ℓ i).mp hi).1)
    (fun i hi => hu 0 (by omega) i ((FL_mem s (cu 0) ℓ i).mp hi).1)
    (by
      intro i hi
      show markB s i 0 = true
      rcases List.mem_append.mp hi with hi | hi
      · exact hprem i hi
      · rw [← hmark_of_mem i (by rw [hsplit ℓ hL]; exact List.mem_append_left _ hi)]
        exact hm ℓ hL i hi)
    (by
      intro i hi
      show markB s i 0 = false
      rw [← hmark_of_mem i (by rw [hsplit ℓ hL]; exact List.mem_append_right _ hi)]
      exact hu ℓ hL i hi)
  exact ⟨this.2, pre, this.1, hprem⟩

theorem levelOf_eq_of_nodeAt (s : QState K V) (i : Nat) (nd : Node K V)
    (h : nodeAt s i = some nd) : levelOf s i = nd.level := by
  unfold levelOf
  rw [h]

theorem linksLen_eq_of_nodeAt (s : QState K V) (i : Nat) (nd : Node K V)
    (h : nodeAt s i = some nd) : linksLen s i = nd.next.length := by
  unfold linksLen
  rw [h]

theorem insB_eq_of_nodeAt (s : QState K V) (i : Nat) (nd : Node K V)
    (h : nodeAt s i = some nd) : insB s i = nd.inserting := by
  unfold insB
  rw [h]

theorem prioD_eq_of_nodeAt [Inhabited K] (s : QState K V) (i : Nat) (nd : Node K V)
    (h : nodeAt s i = some nd) : prioD s i = nd.priority := by
  unfold prioD
  rw [h]

/-- A chain survives any state change that preserves the pointer halves of
its members' cells. -/
theorem isChain_congr_ptr (t1 t : QState K V) (ℓ : Nat) :
    ∀ (c : List Nat) (p : Option Nat),
      (∀ i ∈ c, ∃ nd1 mp1 mp, nodeAt t1 i = some nd1 ∧ nd1.next[ℓ]? = some mp1 ∧
        linkAt t i ℓ = some mp ∧ mp1.ptr = mp.ptr) →
      IsChain t ℓ p c → IsChain t1 ℓ p c := by
  intro c
  induction c with
  | nil =>
    intro p hcells hch
    cases hch
    exact IsChain.nil t1 ℓ
  | cons i rest ih =>
    intro p hcells hch
    obtain ⟨mp, rest2, heq, hli, hchr⟩ := isChain_some_inv t ℓ i _ (by
      have hcp : p = some i := by cases hch; rfl
      rw [← hcp]; exact hch)
    simp only [List.cons_inj_right] at heq
    subst heq
    have hcp : p = some i := by cases hch; rfl
    subst hcp
    obtain ⟨nd1, mp1, mp', hnd1, hmp1, hmp', hptr⟩ := hcells i (by simp)
    have hmpeq : mp' = mp := by
      rw [hli] at hmp'
      exact (Option.some_inj.mp hmp').symm
    rw [hmpeq] at hptr
    refine IsChain.cons t1 ℓ i nd1 mp1 rest hnd1 hmp1 ?_
    rw [hptr]
    exact ih mp.ptr (fun j hj => hcells j (by simp [hj])) hchr

/-- `FindFirst` is one successful pass of its level loop. -/
theorem findFirst_eq (s : QState K V) (nlev hid : Nat)
    (r : QState K V × Option Nat) (fuel : Nat) (hh : s.head = some hid)
    (hc : findFirstLevels (fuel+1) s nlev hid = some (.ok r)) :
    findFirst (fuel+1) s nlev = some r := by
  unfold findFirst
  rw [hh]
  dsimp only
  rw [hc]

/-- `FindLastOfPriority` is one successful pass of its level descent. -/
theorem findLast_eq (s : QState K V) (nlev hid : Nat) (k : K)
    (r : QState K V × List Nat × List (Option Nat)) (fuel : Nat)
    (hh : s.head = some hid)
    (hc : findLevels (fuel+1) s nlev hid k = some (.ok r)) :
    findLast (fuel+1) s nlev k = some r := by
  unfold findLast
  rw [hh]
  dsimp only
  rw [hc]

/-- A duplicate-free list of valid node ids is no longer than the heap. -/
theorem nodup_valid_length_le (s : QState K V) (c : List Nat)
    (hnd : c.Nodup) (hval : ∀ i ∈ c, (nodeAt s i).isSome = true) :
    c.length ≤ s.nodes.length := by
  classical
  have hsub : c.toFinset ⊆ Finset.range s.nodes.length := by
    intro i hi
    rw [List.mem_toFinset] at hi
    rw [Finset.mem_range]
    have := hval i hi
    unfold nodeAt at this
    rw [Option.isSome_iff_exists] at this
    obtain ⟨nd, hnd2⟩ := this
    exact (List.getElem?_eq_some.mp hnd2).1
  have h1 : c.toFinset.card = c.length := List.toFinset_card_of_nodup hnd
  have h2 := Finset.card_le_card hsub
  rw [h1, Finset.card_range] at h2
  exact h2

/-- `FindFirst` on a quiescent state: it succeeds in one pass, unlinks every
level's marked front from the head, returns the first live node of the
bottom chain (or null when no node is live), and re-establishes the full
invariant with the cleaned chains. -/
theorem findFirst_main [Inhabited K] (L : Nat) (s : QState K V)
    (c cm cu : Nat → List Nat) (hI : InvC L s c)
    (hsplit : ∀ ℓ, ℓ ≤ L → c ℓ = cm ℓ ++ cu ℓ)
    (hm : ∀ ℓ, ℓ ≤ L → ∀ i ∈ cm ℓ, markB s i ℓ = true)
    (hu : ∀ ℓ, ℓ ≤ L → ∀ i ∈ cu ℓ, markB s i ℓ = false)
    (fuel : Nat) (hfuel : s.nodes.length + 1 < fuel) :
    ∃ t1, findFirst fuel s (L+1) = some (t1, (cu 0).head?) ∧
      InvC L t1 cu ∧ FrameHead t1 s (L+1) ∧
      liveIds s (c 0) = cu 0 ∧ liveIds t1 (cu 0) = cu 0 := by
  have hchain : ∀ ℓ, ℓ ≤ L → IsChain s ℓ (ptrAt s 0 ℓ) (cm ℓ ++ cu ℓ) := by
    intro ℓ hℓ
    rw [← hsplit ℓ hℓ]
    rcases Nat.eq_zero_or_pos ℓ with rfl | h1
    · exact hI.chain0
    · exact hI.chain_up ℓ h1 hℓ
  have hval : ∀ ℓ, ℓ ≤ L → ∀ i ∈ cm ℓ ++ cu ℓ, i ≠ 0 ∧ (nodeAt s i).isSome = true := by
    intro ℓ hℓ i hi
    exact invc_valid hI ℓ hℓ i (by rw [hsplit ℓ hℓ]; exact hi)
  have hlen : ∀ ℓ, ℓ ≤ L → (cm ℓ ++ cu ℓ).length < fuel := by
    intro ℓ hℓ
    rw [← hsplit ℓ hℓ]
    have h1 : (c ℓ).length ≤ (c 0).length :=
      (invc_sublist0 hI ℓ hℓ).length_le
    have h2 : (c 0).length ≤ s.nodes.length :=
      nodup_valid_length_le s (c 0) hI.nodup0 (fun i hi => (hI.c0_valid i hi).2)
    omega
  obtain ⟨t1, hcomp, hfrH, hcells, hchains⟩ :=
    findFirstLevels_main L s cm cu fuel hI.head_unmarked hchain hval hm hu hlen
  have hlive0 : liveIds s (c 0) = cu 0 := by
    rw [hsplit 0 (by omega), liveIds_append,
      liveIds_all_marked s (cm 0) (hm 0 (by omega)),
      liveIds_all_unmarked s (cu 0) (hu 0 (by omega))]
    rfl
  have hmem0 : ∀ ℓ, ℓ ≤ L → ∀ i ∈ cu ℓ, i ∈ c ℓ := by
    intro ℓ hℓ i hi
    rw [hsplit ℓ hℓ]
    exact List.mem_append_right _ hi
  have hvalu : ∀ ℓ, ℓ ≤ L → ∀ i ∈ cu ℓ, i ≠ 0 ∧ (nodeAt s i).isSome = true := by
    intro ℓ hℓ i hi
    exact invc_valid hI ℓ hℓ i (hmem0 ℓ hℓ i hi)
  have hliveu : liveIds t1 (cu 0) = cu 0 := by
    refine liveIds_all_unmarked t1 (cu 0) ?_
    intro i hi
    rw [hfrH.2.2.2.2.2.1 i 0 (hvalu 0 (by omega) i hi).1]
    exact hu 0 (by omega) i hi
  cases fuel with
  | zero => omega
  | succ f =>
    refine ⟨t1, findFirst_eq s (L+1) 0 (t1, (cu 0).head?) f hI.head_some hcomp, ?_,
      hfrH, hlive0, hliveu⟩
    -- the invariant for the cleaned chains
    have hnodeEq : ∀ j, j ≠ 0 → nodeAt t1 j = nodeAt s j := hfrH.1
    have hprioEq : ∀ j, prioD t1 j = prioD s j := hfrH.2.2.1
    have hlevEq : ∀ j, levelOf t1 j = levelOf s j := hfrH.2.2.2.1
    have hinsEq : ∀ j, insB t1 j = insB s j := hfrH.2.2.2.2.1
    have hmarkEq : ∀ j ℓa, j ≠ 0 → markB t1 j ℓa = markB s j ℓa := hfrH.2.2.2.2.2.1
    have hlinksEq : ∀ j, linksLen t1 j = linksLen s j := hfrH.2.2.2.2.2.2.2.2.2.2
    have hheadEq : t1.head = s.head := hfrH.2.2.2.2.2.2.2.1
    have hsizeEq : t1.size = s.size := hfrH.2.2.2.2.2.2.1
    obtain ⟨ndh1, hndh1, -⟩ :=
      linkAt_isSome_nodeAt t1 0 0 ⟨(cu 0).head?, false⟩ (hcells 0 (by omega))
    constructor
    case head_some => rw [hheadEq]; exact hI.head_some
    case head_node =>
      obtain ⟨nd0, hnd0, hlev0, hins0⟩ := hI.head_node
      refine ⟨ndh1, hndh1, ?_, ?_⟩
      · have h1 := hlevEq 0
        rw [levelOf_eq_of_nodeAt t1 0 ndh1 hndh1, levelOf_eq_of_nodeAt s 0 nd0 hnd0] at h1
        rw [h1, hlev0]
      · have h1 := hinsEq 0
        rw [insB_eq_of_nodeAt t1 0 ndh1 hndh1, insB_eq_of_nodeAt s 0 nd0 hnd0] at h1
        rw [h1, hins0]
    case head_unmarked =>
      intro ℓ hℓ
      exact ⟨⟨(cu ℓ).head?, false⟩, hcells ℓ hℓ, rfl⟩
    case links_len =>
      intro i nd hnd
      rcases eq_or_ne i 0 with rfl | hne
      · have h1 := hlinksEq 0
        have h2 := hlevEq 0
        rw [linksLen_eq_of_nodeAt t1 0 nd hnd] at h1
        rw [levelOf_eq_of_nodeAt t1 0 nd hnd] at h2
        obtain ⟨nd0, hnd0, hlev0, hins0⟩ := hI.head_node
        rw [linksLen_eq_of_nodeAt s 0 nd0 hnd0] at h1
        rw [levelOf_eq_of_nodeAt s 0 nd0 hnd0] at h2
        rw [h1, h2, hI.links_len 0 nd0 hnd0]
      · rw [hnodeEq i hne] at hnd
        exact hI.links_len i nd hnd
    case all_wf =>
      intro i nd hnd hne
      rw [hnodeEq i hne] at hnd
      exact hI.all_wf i nd hnd hne
    case chain0 => exact hchains 0 (by omega)
    case chain_up => intro ℓ h1 hℓ; exact hchains ℓ hℓ
    case c0_valid =>
      intro i hi
      obtain ⟨h1, h2⟩ := hvalu 0 (by omega) i hi
      exact ⟨h1, by rw [hnodeEq i h1]; exact h2⟩
    case nodup0 =>
      refine (hI.nodup0).sublist ?_
      rw [hsplit 0 (by omega)]
      exact List.sublist_append_right (cm 0) (cu 0)
    case sorted0 =>
      refine (sortedIds_congr t1 s (cu 0) hprioEq).mpr ?_
      refine sortedIds_sublist s (cu 0) (c 0) ?_ hI.sorted0
      rw [hsplit 0 (by omega)]
      exact List.sublist_append_right (cm 0) (cu 0)
    case marked_front =>
      refine ⟨[], cu 0, rfl, by simp, ?_⟩
      intro i hi
      rw [hmarkEq i 0 (hvalu 0 (by omega) i hi).1]
      exact hu 0 (by omega) i hi
    case marks_levels =>
      intro i hi ℓ hℓ
      have hi0 : i ≠ 0 := (hvalu 0 (by omega) i hi).1
      rw [hmarkEq i ℓ hi0, hmarkEq i 0 hi0]
      exact hI.marks_levels i (hmem0 0 (by omega) i hi) ℓ (by rw [← hlevEq i]; exact hℓ)
    case upper_eq =>
      intro ℓ h1 hℓ
      refine ⟨[], ?_, by simp⟩
      rw [List.nil_append]
      have hFLc : FL t1 (cu 0) ℓ = FL s (cu 0) ℓ :=
        FL_congr t1 s (cu 0) ℓ (fun i hi => hlevEq i)
      rw [hFLc]
      exact (invc_FL_split hI cm cu hsplit hm hu ℓ h1 hℓ).1
    case complete0 =>
      intro i nd hnd hne hunm
      rw [hnodeEq i hne] at hnd
      rw [hmarkEq i 0 hne] at hunm
      have hi0 : i ∈ c 0 := hI.complete0 i nd hnd hne hunm
      rw [hsplit 0 (by omega)] at hi0
      rcases List.mem_append.mp hi0 with h2 | h2
      · have := hm 0 (by omega) i h2
        rw [hunm] at this
        exact absurd this (by simp)
      · exact h2
    case size_eq =>
      rw [hsizeEq, hI.size_eq, hlive0, hliveu]

/-! ## The claim CAS and upper-level marking of `TryPop` -/

/-- The data field of node `i` (default on a dangling id). -/
def dataD [Inhabited V] (s : QState K V) (i : Nat) : V :=
  match nodeAt s i with
  | some nd => nd.data
  | none => default

theorem dataD_eq_of_nodeAt [Inhabited V] (s : QState K V) (i : Nat) (nd : Node K V)
    (h : nodeAt s i = some nd) : dataD s i = nd.data := by
  unfold dataD
  rw [h]

theorem ptrAt_setSize (s : QState K V) (x : Nat) (a ℓ : Nat) :
    ptrAt { s with size := x } a ℓ = ptrAt s a ℓ := rfl

theorem linksLen_setSize (s : QState K V) (x : Nat) (a : Nat) :
    linksLen { s with size := x } a = linksLen s a := rfl

theorem dataD_setSize [Inhabited V] (s : QState K V) (x : Nat) (a : Nat) :
    dataD { s with size := x } a = dataD s a := rfl

theorem testAndSetMark_success (s : QState K V) (i : Nat) (e : Option Nat)
    (h : linkAt s i 0 = some ⟨e, false⟩) :
    testAndSetMark s i e = some (setLink s i 0 ⟨e, true⟩, true) := by
  unfold testAndSetMark getNextPM
  rw [h]
  simp

theorem dataD_setLink [Inhabited V] (s : QState K V) (a ℓa i : Nat) (mp : MPtr) :
    dataD (setLink s a ℓa mp) i = dataD s i := by
  rcases eq_or_ne i a with rfl | h
  · cases hx : nodeAt s i with
    | none => rw [setLink_of_none s i ℓa mp hx]
    | some nd => unfold dataD; rw [nodeAt_setLink_self s i ℓa mp nd hx, hx]
  · unfold dataD; rw [nodeAt_setLink_ne s a ℓa i mp h]

theorem ptrAt_setLink_keep (s : QState K V) (a ℓa : Nat) (mp mp0 : MPtr)
    (h : linkAt s a ℓa = some mp0) (hp : mp.ptr = mp0.ptr) (i ℓ : Nat) :
    ptrAt (setLink s a ℓa mp) i ℓ = ptrAt s i ℓ := by
  rcases eq_or_ne i a with rfl | hne
  · rcases eq_or_ne ℓ ℓa with rfl | hnl
    · unfold ptrAt
      rw [linkAt_setLink_self s i ℓ mp mp0 h, h]
      dsimp only
      exact hp
    · unfold ptrAt
      rw [linkAt_setLink_ne_level s i ℓa ℓ mp hnl]
  · unfold ptrAt
    rw [linkAt_setLink_ne_node s a ℓa i ℓ mp hne]

/-- The strong specification of `markUpper`: it sets the mark bits of the
node's cells at levels `1..m`, touching nothing else — in particular every
pointer half, every other node, and the node's level-0 cell survive. -/
theorem markUpper_main [Inhabited K] [Inhabited V] :
    ∀ (m : Nat) (s : QState K V) (nid : Nat),
      (∀ ℓ', 1 ≤ ℓ' → ℓ' ≤ m → (linkAt s nid ℓ').isSome = true) →
      ∃ s1, markUpper s nid m = some s1 ∧
        (∀ a, a ≠ nid → nodeAt s1 a = nodeAt s a) ∧
        (∀ ℓ', ℓ' = 0 ∨ m < ℓ' → linkAt s1 nid ℓ' = linkAt s nid ℓ') ∧
        (∀ ℓ', 1 ≤ ℓ' → ℓ' ≤ m → markB s1 nid ℓ' = true) ∧
        (∀ i ℓ', ptrAt s1 i ℓ' = ptrAt s i ℓ') ∧
        (∀ i ℓ', (nodeAt s1 i).isSome = (nodeAt s i).isSome ∧
          (linkAt s1 i ℓ').isSome = (linkAt s i ℓ').isSome) ∧
        (∀ j, prioD s1 j = prioD s j) ∧ (∀ j, levelOf s1 j = levelOf s j) ∧
        (∀ j, insB s1 j = insB s j) ∧ (∀ j, linksLen s1 j = linksLen s j) ∧
        (∀ j, dataD s1 j = dataD s j) ∧
        s1.size = s.size ∧ s1.head = s.head ∧ s1.maxSize = s.maxSize ∧
        s1.nodes.length = s.nodes.length := by
  intro m
  induction m with
  | zero =>
    intro s nid hcells
    exact ⟨s, rfl, fun a _ => rfl, fun ℓ' _ => rfl, fun ℓ' h1 h2 => absurd h2 (by omega),
      fun i ℓ' => rfl, fun i ℓ' => ⟨rfl, rfl⟩, fun j => rfl, fun j => rfl, fun j => rfl,
      fun j => rfl, fun j => rfl, rfl, rfl, rfl, rfl⟩
  | succ m ih =>
    intro s nid hcells
    have hc : (linkAt s nid (m+1)).isSome = true :=
      hcells (m+1) (by omega) (le_refl _)
    obtain ⟨mp, hmp⟩ := Option.isSome_iff_exists.mp hc
    set s' := setLink s nid (m+1) ⟨mp.ptr, true⟩ with hs'
    have hcell' : linkAt s' nid (m+1) = some ⟨mp.ptr, true⟩ :=
      linkAt_setLink_self s nid (m+1) ⟨mp.ptr, true⟩ mp hmp
    have hcells1 : ∀ ℓ', 1 ≤ ℓ' → ℓ' ≤ m → (linkAt s' nid ℓ').isSome = true := by
      intro ℓ' h1 h2
      rw [linkAt_setLink_ne_level s nid (m+1) ℓ' ⟨mp.ptr, true⟩ (by omega)]
      exact hcells ℓ' h1 (by omega)
    obtain ⟨s1, hs1, hother, hkeep, hmarks, hptr, hsomes, hprio, hlev, hins, hlinks,
      hdata, hsz, hhd, hmx, hnl⟩ := ih s' nid hcells1
    refine ⟨s1, ?_, ?_, ?_, ?_, ?_, ?_, ?_, ?_, ?_, ?_, ?_, ?_, ?_, ?_, ?_⟩
    · unfold markUpper
      rw [setNextMark_eq s nid (m+1) mp hmp]
      simp only [Option.bind_eq_bind, Option.some_bind]
      exact hs1
    · intro a ha
      rw [hother a ha, nodeAt_setLink_ne s nid (m+1) a ⟨mp.ptr, true⟩ ha]
    · intro ℓ' hl
      have hne : ℓ' ≠ m + 1 := by omega
      rw [hkeep ℓ' (by omega), linkAt_setLink_ne_level s nid (m+1) ℓ' ⟨mp.ptr, true⟩ hne]
    · intro ℓ' h1 h2
      rcases Nat.lt_or_ge ℓ' (m+1) with hlt | hge
      · exact hmarks ℓ' h1 (by omega)
      · have heq2 : ℓ' = m + 1 := by omega
        subst heq2
        unfold markB
        rw [hkeep (m+1) (Or.inr (by omega)), hcell']
    · intro i ℓ'
      rw [hptr i ℓ', hs', ptrAt_setLink_keep s nid (m+1) ⟨mp.ptr, true⟩ mp hmp rfl i ℓ']
    · intro i ℓ'
      constructor
      · rw [(hsomes i ℓ').1, hs']
        rcases eq_or_ne i nid with rfl | hne
        · cases hx : nodeAt s i with
          | none => rw [setLink_of_none s i (m+1) ⟨mp.ptr, true⟩ hx, hx]
          | some nd =>
            rw [nodeAt_setLink_self s i (m+1) ⟨mp.ptr, true⟩ nd hx]
            rfl
        · rw [nodeAt_setLink_ne s nid (m+1) i ⟨mp.ptr, true⟩ hne]
      · rw [(hsomes i ℓ').2, hs']
        rcases eq_or_ne i nid with rfl | hne
        · rcases eq_or_ne ℓ' (m+1) with rfl | hnl
          · rw [linkAt_setLink_self s i (m+1) ⟨mp.ptr, true⟩ mp hmp, hmp]
            rfl
          · rw [linkAt_setLink_ne_level s i (m+1) ℓ' ⟨mp.ptr, true⟩ hnl]
        · rw [linkAt_setLink_ne_node s nid (m+1) i ℓ' ⟨mp.ptr, true⟩ hne]
    · intro j
      rw [hprio j, hs', prioD_setLink s nid (m+1) j ⟨mp.ptr, true⟩]
    · intro j
      rw [hlev j, hs', levelOf_setLink s nid (m+1) j ⟨mp.ptr, true⟩]
    · intro j
      rw [hins j, hs', insB_setLink s nid (m+1) j ⟨mp.ptr, true⟩]
    · intro j
      rw [hlinks j, hs', linksLen_setLink s nid (m+1) j ⟨mp.ptr, true⟩]
    · intro j
      rw [hdata j, hs', dataD_setLink s nid (m+1) j ⟨mp.ptr, true⟩]
    · rw [hsz, hs', setLink_size s nid (m+1) ⟨mp.ptr, true⟩]
    · rw [hhd, hs', setLink_head s nid (m+1) ⟨mp.ptr, true⟩]
    · rw [hmx, hs', setLink_maxSize s nid (m+1) ⟨mp.ptr, true⟩]
    · rw [hnl, hs', setLink_nodes_length s nid (m+1) ⟨mp.ptr, true⟩]

theorem linkAt_isSome_of_lt (s : QState K V) (i ℓ : Nat) (nd : Node K V)
    (hnd : nodeAt s i = some nd) (h : ℓ < nd.next.length) :
    (linkAt s i ℓ).isSome = true := by
  unfold linkAt
  rw [hnd]
  simp [List.getElem?_eq_getElem h]

theorem nodeAt_isSome_setLink (s : QState K V) (a ℓa i : Nat) (mp : MPtr) :
    (nodeAt (setLink s a ℓa mp) i).isSome = (nodeAt s i).isSome := by
  rcases eq_or_ne i a with rfl | hne
  · cases hx : nodeAt s i with
    | none => rw [setLink_of_none s i ℓa mp hx, hx]
    | some nd =>
      rw [nodeAt_setLink_self s i ℓa mp nd hx]
      rfl
  · rw [nodeAt_setLink_ne s a ℓa i mp hne]

theorem linkAt_isSome_setLink (s : QState K V) (a ℓa i ℓ : Nat) (mp : MPtr) :
    (linkAt (setLink s a ℓa mp) i ℓ).isSome = (linkAt s i ℓ).isSome := by
  rcases eq_or_ne i a with rfl | hne
  · cases hx : nodeAt s i with
    | none => rw [setLink_of_none s i ℓa mp hx]
    | some nd =>
      unfold linkAt
      rw [nodeAt_setLink_self s i ℓa mp nd hx, hx]
      simp only [Option.bind_eq_bind, Option.some_bind]
      rcases Nat.lt_or_ge ℓ nd.next.length with hlt | hge
      · rw [List.getElem?_eq_getElem hlt,
          List.getElem?_eq_getElem (by rw [List.length_set]; exact hlt)]
        rfl
      · rw [List.getElem?_eq_none hge,
          List.getElem?_eq_none (by rw [List.length_set]; exact hge)]
  · rw [linkAt_setLink_ne_node s a ℓa i ℓ mp hne]

/-- A chain survives any state change that preserves pointer halves and cell
existence. -/
theorem isChain_transfer (t1 t : QState K V) (ℓ : Nat) (p : Option Nat) (c : List Nat)
    (hptr : ∀ i ℓ', ptrAt t1 i ℓ' = ptrAt t i ℓ')
    (hsome : ∀ i ℓ', (linkAt t1 i ℓ').isSome = (linkAt t i ℓ').isSome)
    (hch : IsChain t ℓ p c) : IsChain t1 ℓ p c := by
  refine isChain_congr_ptr t1 t ℓ c p ?_ hch
  intro i hi
  obtain ⟨mp, hmp⟩ := isChain_mem_link t ℓ p c hch i hi
  have h1 : (linkAt t1 i ℓ).isSome = true := by rw [hsome i ℓ, hmp]; rfl
  obtain ⟨mp1, hmp1⟩ := Option.isSome_iff_exists.mp h1
  obtain ⟨nd1, hnd1, hnext1⟩ := linkAt_isSome_nodeAt t1 i ℓ mp1 hmp1
  refine ⟨nd1, mp1, mp, hnd1, hnext1, hmp, ?_⟩
  have := hptr i ℓ
  unfold ptrAt at this
  rw [hmp1, hmp] at this
  exact this

theorem links_len_transfer (t1 t : QState K V)
    (hlev : ∀ j, levelOf t1 j = levelOf t j)
    (hlinks : ∀ j, linksLen t1 j = linksLen t j)
    (hsome : ∀ j, (nodeAt t1 j).isSome = (nodeAt t j).isSome)
    (h : ∀ i nd, nodeAt t i = some nd → nd.next.length = nd.level) :
    ∀ i nd, nodeAt t1 i = some nd → nd.next.length = nd.level := by
  intro i nd hnd
  have h1 : (nodeAt t i).isSome = true := by rw [← hsome i, hnd]; rfl
  obtain ⟨nd0, hnd0⟩ := Option.isSome_iff_exists.mp h1
  have e1 := hlinks i
  rw [linksLen_eq_of_nodeAt t1 i nd hnd, linksLen_eq_of_nodeAt t i nd0 hnd0] at e1
  have e2 := hlev i
  rw [levelOf_eq_of_nodeAt t1 i nd hnd, levelOf_eq_of_nodeAt t i nd0 hnd0] at e2
  rw [e1, e2]
  exact h i nd0 hnd0

theorem all_wf_transfer (t1 t : QState K V) (L : Nat)
    (hlev : ∀ j, levelOf t1 j = levelOf t j)
    (hins : ∀ j, insB t1 j = insB t j)
    (hsome : ∀ j, (nodeAt t1 j).isSome = (nodeAt t j).isSome)
    (h : ∀ i nd, nodeAt t i = some nd → i ≠ 0 →
      1 ≤ nd.level ∧ nd.level ≤ L + 1 ∧ nd.inserting = false) :
    ∀ i nd, nodeAt t1 i = some nd → i ≠ 0 →
      1 ≤ nd.level ∧ nd.level ≤ L + 1 ∧ nd.inserting = false := by
  intro i nd hnd hne
  have h1 : (nodeAt t i).isSome = true := by rw [← hsome i, hnd]; rfl
  obtain ⟨nd0, hnd0⟩ := Option.isSome_iff_exists.mp h1
  have e2 := hlev i
  rw [levelOf_eq_of_nodeAt t1 i nd hnd, levelOf_eq_of_nodeAt t i nd0 hnd0] at e2
  have e3 := hins i
  rw [insB_eq_of_nodeAt t1 i nd hnd, insB_eq_of_nodeAt t i nd0 hnd0] at e3
  obtain ⟨w1, w2, w3⟩ := h i nd0 hnd0 hne
  exact ⟨by omega, by omega, by rw [e3, w3]⟩

theorem dataD_congr [Inhabited V] (t1 t : QState K V) (j : Nat)
    (h : nodeAt t1 j = nodeAt t j) : dataD t1 j = dataD t j := by
  unfold dataD
  rw [h]

set_option maxHeartbeats 1600000 in
/-- The tail of `TryPop` on a quiescent state whose bottom chain is fully
live and starts with `f`: the node is claimed (the level-0 test-and-set-mark
succeeds), `true` is returned together with the node's priority and data,
the `u32` size is decremented, and the invariant is re-established with the
same chains — `f` is now the marked front of the bottom chain. -/
theorem tryPopAfterFind_main [Inhabited K] [Inhabited V] (L : Nat) (t1 : QState K V)
    (cu : Nat → List Nat) (f : Nat) (frest : List Nat)
    (hI : InvC L t1 cu) (hcu0 : cu 0 = f :: frest)
    (hunm : ∀ i ∈ cu 0, markB t1 i 0 = false)
    (pr0 : K) (d0 : V) :
    ∃ s2, tryPopAfterFind t1 f pr0 d0 = some (s2, true, prioD t1 f, dataD t1 f) ∧
      InvC L s2 cu ∧ liveIds s2 (cu 0) = frest ∧
      (∀ j, prioD s2 j = prioD t1 j) ∧ (∀ j, dataD s2 j = dataD t1 j) ∧
      s2.size = (t1.size + (2^32 - 1)) % 2^32 ∧ s2.nodes.length = t1.nodes.length ∧
      s2.maxSize = t1.maxSize ∧ s2.head = t1.head := by
  have hfmem : f ∈ cu 0 := by rw [hcu0]; simp
  obtain ⟨hf0, hfsome⟩ := hI.c0_valid f hfmem
  obtain ⟨nd, hnd⟩ := Option.isSome_iff_exists.mp hfsome
  obtain ⟨hlev1, hlevL, hinsf⟩ := hI.all_wf f nd hnd hf0
  have hlenf : nd.next.length = nd.level := hI.links_len f nd hnd
  have hfnotr : f ∉ frest := by
    have := hI.nodup0
    rw [hcu0] at this
    exact (List.nodup_cons.mp this).1
  -- the marked-upper state u
  obtain ⟨u, hmu, huother, hukeep, humarks, huptr, husomes, huprio, hulev, huins,
    hulinks, hudata, husz, huhd, humx, hunl⟩ :=
    markUpper_main (nd.level - 1) t1 f (by
      intro ℓ' h1 h2
      exact linkAt_isSome_of_lt t1 f ℓ' nd hnd (by omega))
  -- the level-0 cell of f
  have hmkf0 : markB t1 f 0 = false := hunm f hfmem
  have hch0 := hI.chain0
  rw [hcu0] at hch0
  have hstart0 : ptrAt t1 0 0 = some f := by
    rw [isChain_start t1 0 (ptrAt t1 0 0) (f :: frest) hch0]
    rfl
  obtain ⟨mp0, rest2, heq0, hli0, hchr0⟩ :=
    isChain_some_inv t1 0 f (f :: frest) (hstart0 ▸ hch0)
  simp only [List.cons_inj_right] at heq0
  subst heq0
  have hmp0m : mp0.mark = false := by
    have := hmkf0
    rw [markB_eq_of_link t1 f 0 mp0 hli0] at this
    exact this
  have hmp0eta : mp0 = ⟨mp0.ptr, false⟩ := by
    cases mp0 with
    | mk q m2 => cases hmp0m; rfl
  have hcellu0 : linkAt u f 0 = some ⟨mp0.ptr, false⟩ := by
    rw [hukeep 0 (Or.inl rfl), ← hmp0eta]
    exact hli0
  -- the claim CAS
  set w := setLink u f 0 ⟨mp0.ptr, true⟩ with hw
  set s2 : QState K V := { w with size := (w.size + (2^32 - 1)) % 2^32 } with hs2
  -- transfer facts t1 → s2
  have hnodeEq : ∀ a, a ≠ f → nodeAt s2 a = nodeAt t1 a := by
    intro a ha
    rw [hs2, nodeAt_setSize w _ a, hw, nodeAt_setLink_ne u f 0 a _ ha]
    exact huother a ha
  have hptrEq : ∀ i ℓ', ptrAt s2 i ℓ' = ptrAt t1 i ℓ' := by
    intro i ℓ'
    rw [hs2, ptrAt_setSize w _ i ℓ', hw,
      ptrAt_setLink_keep u f 0 ⟨mp0.ptr, true⟩ ⟨mp0.ptr, false⟩ hcellu0 rfl i ℓ']
    exact huptr i ℓ'
  have hsomeN : ∀ i, (nodeAt s2 i).isSome = (nodeAt t1 i).isSome := by
    intro i
    rw [hs2, nodeAt_setSize w _ i, hw, nodeAt_isSome_setLink u f 0 i _]
    exact (husomes i 0).1
  have hsomeL : ∀ i ℓ', (linkAt s2 i ℓ').isSome = (linkAt t1 i ℓ').isSome := by
    intro i ℓ'
    rw [hs2, linkAt_setSize w _ i ℓ', hw, linkAt_isSome_setLink u f 0 i ℓ' _]
    exact (husomes i ℓ').2
  have hprioEq : ∀ j, prioD s2 j = prioD t1 j := by
    intro j
    rw [hs2, prioD_setSize w _ j, hw, prioD_setLink u f 0 j _]
    exact huprio j
  have hlevEq : ∀ j, levelOf s2 j = levelOf t1 j := by
    intro j
    rw [hs2, levelOf_setSize w _ j, hw, levelOf_setLink u f 0 j _]
    exact hulev j
  have hinsEq : ∀ j, insB s2 j = insB t1 j := by
    intro j
    rw [hs2, insB_setSize w _ j, hw, insB_setLink u f 0 j _]
    exact huins j
  have hlinksEq : ∀ j, linksLen s2 j = linksLen t1 j := by
    intro j
    rw [hs2, linksLen_setSize w _ j, hw, linksLen_setLink u f 0 j _]
    exact hulinks j
  have hdataEq : ∀ j, dataD s2 j = dataD t1 j := by
    intro j
    rw [hs2, dataD_setSize w _ j, hw, dataD_setLink u f 0 j _]
    exact hudata j
  have hmarkNe : ∀ i ℓ', i ≠ f → markB s2 i ℓ' = markB t1 i ℓ' := by
    intro i ℓ' hne
    rw [hs2, markB_setSize w _ i ℓ', hw, markB_setLink_ne_node u f 0 i ℓ' _ hne]
    exact markB_congr u t1 i ℓ' (linkAt_congr u t1 i ℓ' (huother i hne))
  have hcellw0 : linkAt s2 f 0 = some ⟨mp0.ptr, true⟩ := by
    rw [hs2, linkAt_setSize w _ f 0, hw]
    exact linkAt_setLink_self u f 0 ⟨mp0.ptr, true⟩ ⟨mp0.ptr, false⟩ hcellu0
  have hmarkF0 : markB s2 f 0 = true := by
    unfold markB
    rw [hcellw0]
  have hmarkFup : ∀ ℓ', 1 ≤ ℓ' → ℓ' < nd.level → markB s2 f ℓ' = true := by
    intro ℓ' h1 h2
    rw [hs2, markB_setSize w _ f ℓ', hw, markB_setLink_ne_level u f 0 ℓ' _ (by omega)]
    exact humarks ℓ' h1 (by omega)
  have hszEq : s2.size = (t1.size + (2^32 - 1)) % 2^32 := by
    rw [hs2]
    show (w.size + (2^32 - 1)) % 2^32 = (t1.size + (2^32 - 1)) % 2^32
    rw [hw, setLink_size u f 0 _, husz]
  have hheadEq : s2.head = t1.head := by
    rw [hs2]
    show w.head = t1.head
    rw [hw, setLink_head u f 0 _, huhd]
  have hmaxEq : s2.maxSize = t1.maxSize := by
    rw [hs2]
    show w.maxSize = t1.maxSize
    rw [hw, setLink_maxSize u f 0 _, humx]
  have hlenEq : s2.nodes.length = t1.nodes.length := by
    rw [hs2]
    show w.nodes.length = t1.nodes.length
    rw [hw, setLink_nodes_length u f 0 _, hunl]
  have hliveT1 : liveIds t1 (cu 0) = cu 0 := liveIds_all_unmarked t1 (cu 0) hunm
  have hliveS2 : liveIds s2 (cu 0) = frest := by
    rw [hcu0]
    unfold liveIds
    rw [List.filter_cons_of_neg (by simp [hmarkF0])]
    refine List.filter_eq_self.mpr ?_
    intro i hi
    have hif : i ≠ f := fun hc => hfnotr (hc ▸ hi)
    simp only [decide_eq_true_eq]
    rw [hmarkNe i 0 hif]
    exact hunm i (by rw [hcu0]; simp [hi])
  refine ⟨s2, ?_, ?_, hliveS2, hprioEq, hdataEq, hszEq, hlenEq, hmaxEq, hheadEq⟩
  · -- the computation
    unfold tryPopAfterFind
    rw [hnd]
    simp only [Option.bind_eq_bind, Option.some_bind]
    rw [if_neg (by rw [hinsf]; simp)]
    rw [hmu]
    simp only [Option.bind_eq_bind, Option.some_bind]
    rw [getNextPtr_eq u f 0 ⟨mp0.ptr, false⟩ hcellu0]
    simp only [Option.bind_eq_bind, Option.some_bind]
    try dsimp only []
    rw [testAndSetMark_success u f mp0.ptr hcellu0]
    simp only [Option.bind_eq_bind, Option.some_bind]
    try dsimp only []
    rw [if_pos trivial]
    rw [prioD_eq_of_nodeAt t1 f nd hnd, dataD_eq_of_nodeAt t1 f nd hnd]
    rfl
  · -- the invariant
    constructor
    case head_some => rw [hheadEq]; exact hI.head_some
    case head_node =>
      obtain ⟨nd0, hnd0, hl0, hi0⟩ := hI.head_node
      refine ⟨nd0, ?_, hl0, hi0⟩
      rw [hnodeEq 0 (by omega)]
      exact hnd0
    case head_unmarked =>
      intro ℓ hℓ
      obtain ⟨mp, hmp, hmpm⟩ := hI.head_unmarked ℓ hℓ
      refine ⟨mp, ?_, hmpm⟩
      rw [linkAt_congr s2 t1 0 ℓ (hnodeEq 0 (by omega))]
      exact hmp
    case links_len =>
      exact links_len_transfer s2 t1 hlevEq hlinksEq hsomeN hI.links_len
    case all_wf =>
      exact all_wf_transfer s2 t1 L hlevEq hinsEq hsomeN hI.all_wf
    case chain0 =>
      rw [hptrEq 0 0]
      exact isChain_transfer s2 t1 0 _ (cu 0) hptrEq hsomeL hI.chain0
    case chain_up =>
      intro ℓ h1 hℓ
      rw [hptrEq 0 ℓ]
      exact isChain_transfer s2 t1 ℓ _ (cu ℓ) hptrEq hsomeL (hI.chain_up ℓ h1 hℓ)
    case c0_valid =>
      intro i hi
      obtain ⟨h1, h2⟩ := hI.c0_valid i hi
      exact ⟨h1, by rw [hsomeN i]; exact h2⟩
    case nodup0 => exact hI.nodup0
    case sorted0 => exact (sortedIds_congr s2 t1 (cu 0) hprioEq).mpr hI.sorted0
    case marked_front =>
      refine ⟨[f], frest, hcu0, ?_, ?_⟩
      · intro i hi
        have : i = f := by simpa using hi
        subst this
        exact hmarkF0
      · intro i hi
        have hif : i ≠ f := fun hc => hfnotr (hc ▸ hi)
        rw [hmarkNe i 0 hif]
        exact hunm i (by rw [hcu0]; simp [hi])
    case marks_levels =>
      intro i hi ℓ hℓ
      rcases eq_or_ne i f with rfl | hne
      · have hlf : levelOf s2 i = nd.level := by
          rw [hlevEq i, levelOf_eq_of_nodeAt t1 i nd hnd]
        rw [hmarkF0]
        rcases Nat.eq_zero_or_pos ℓ with rfl | h1
        · exact hmarkF0
        · exact hmarkFup ℓ h1 (by rw [hlf] at hℓ; exact hℓ)
      · rw [hmarkNe i ℓ hne, hmarkNe i 0 hne]
        exact hI.marks_levels i hi ℓ (by rw [← hlevEq i]; exact hℓ)
    case upper_eq =>
      intro ℓ h1 hℓ
      obtain ⟨pre, hpre, hprem⟩ := hI.upper_eq ℓ h1 hℓ
      refine ⟨pre, ?_, ?_⟩
      · rw [FL_congr s2 t1 (cu 0) ℓ (fun i hi => hlevEq i)]
        exact hpre
      · intro i hi
        have hif : i ≠ f := by
          intro hc
          have h2 := hprem i hi
          rw [hc, hmkf0] at h2
          exact absurd h2 (by simp)
        rw [hmarkNe i 0 hif]
        exact hprem i hi
    case complete0 =>
      intro i nd2 hnd2 hne hunm2
      rcases eq_or_ne i f with rfl | hif
      · rw [hmarkF0] at hunm2
        exact absurd hunm2 (by simp)
      · rw [hnodeEq i hif] at hnd2
        rw [hmarkNe i 0 hif] at hunm2
        exact hI.complete0 i nd2 hnd2 hne hunm2
    case size_eq =>
      rw [hszEq, hI.size_eq, hliveT1, hliveS2, hcu0]
      simp only [List.length_cons]
      have hM : (2:Nat)^32 = 4294967296 := by norm_num
      rw [hM]
      omega

/-- `TryPop` on a quiescent state: with no live node it returns `false` and
only cleans up (size unchanged); with live nodes it claims the first live
node — the minimum — returning `true`, its priority and data, decrementing
the size, and preserving the invariant with one fewer live node. -/
theorem tryPop_main [Inhabited K] [Inhabited V] (L : Nat) (s : QState K V)
    (c cm cu : Nat → List Nat) (hI : InvC L s c)
    (hsplit : ∀ ℓ, ℓ ≤ L → c ℓ = cm ℓ ++ cu ℓ)
    (hm : ∀ ℓ, ℓ ≤ L → ∀ i ∈ cm ℓ, markB s i ℓ = true)
    (hu : ∀ ℓ, ℓ ≤ L → ∀ i ∈ cu ℓ, markB s i ℓ = false)
    (fuel : Nat) (hfuel : s.nodes.length + 1 < fuel) (pr0 : K) (d0 : V) :
    (cu 0 = [] →
      ∃ t1, tryPop fuel L s pr0 d0 = some (t1, false, pr0, d0) ∧ InvC L t1 cu ∧
        liveIds t1 (cu 0) = cu 0 ∧ t1.size = s.size ∧
        (∀ j, prioD t1 j = prioD s j)) ∧
    (∀ f frest, cu 0 = f :: frest →
      ∃ s2, tryPop fuel L s pr0 d0 = some (s2, true, prioD s f, dataD s f) ∧
        InvC L s2 cu ∧ liveIds s2 (cu 0) = frest ∧
        (∀ j, prioD s2 j = prioD s j) ∧ (∀ j, j ≠ 0 → dataD s2 j = dataD s j) ∧
        s2.size = (s.size + (2^32 - 1)) % 2^32 ∧
        s2.nodes.length = s.nodes.length ∧ s2.maxSize = s.maxSize) := by
  obtain ⟨t1, hff, hI1, hfrH, hlive0, hliveu⟩ :=
    findFirst_main L s c cm cu hI hsplit hm hu fuel hfuel
  have hunm1 : ∀ i ∈ cu 0, markB t1 i 0 = false := by
    intro i hi
    have := List.filter_eq_self.mp hliveu i hi
    simpa using this
  have hprio1 : ∀ j, prioD t1 j = prioD s j := hfrH.2.2.1
  have hdata1 : ∀ j, j ≠ 0 → dataD t1 j = dataD s j := by
    intro j hne
    exact dataD_congr t1 s j (hfrH.1 j hne)
  have hsize1 : t1.size = s.size := hfrH.2.2.2.2.2.2.1
  have hlen1 : t1.nodes.length = s.nodes.length := hfrH.2.2.2.2.2.2.2.2.2.1
  have hmax1 : t1.maxSize = s.maxSize := hfrH.2.2.2.2.2.2.2.2.1
  constructor
  · -- empty: no live node
    intro hnil
    refine ⟨t1, ?_, hI1, hliveu, hsize1, hprio1⟩
    unfold tryPop
    rw [hff]
    simp only [Option.bind_eq_bind, Option.some_bind]
    rw [hnil]
    rfl
  · -- a live node f exists
    intro f frest hcu0
    obtain ⟨s2, hcomp2, hI2, hlive2, hprio2, hdata2, hsz2, hnl2, hmx2, hhd2⟩ :=
      tryPopAfterFind_main L t1 cu f frest hI1 hcu0 hunm1 pr0 d0
    have hfne : f ≠ 0 := (hI1.c0_valid f (by rw [hcu0]; simp)).1
    refine ⟨s2, ?_, hI2, hlive2, ?_, ?_, ?_, ?_, ?_⟩
    · unfold tryPop
      rw [hff]
      simp only [Option.bind_eq_bind, Option.some_bind]
      rw [hcu0]
      simp only [List.head?_cons]
      try dsimp only []
      rw [hcomp2, hprio1 f, hdata1 f hfne]
    · intro j
      rw [hprio2 j, hprio1 j]
    · intro j hj
      rw [hdata2 j, hdata1 j hj]
    · rw [hsz2, hsize1]
    · rw [hnl2, hlen1]
    · rw [hmx2, hmax1]

/-! ## The publication path of `Push` -/

theorem waitGate_pass (fuel ms sz : Nat) (hf : 1 ≤ fuel) (h : ms = 0 ∨ sz < ms) :
    waitGate fuel ms sz = some () := by
  cases fuel with
  | zero => omega
  | succ f =>
    unfold waitGate
    rw [if_neg (by
      intro hc
      rcases h with h | h
      · exact hc.1 h
      · omega)]

theorem isChain_suffix (s : QState K V) (ℓ : Nat) :
    ∀ (A B : List Nat) (cp : Option Nat), IsChain s ℓ cp (A ++ B) →
      IsChain s ℓ B.head? B := by
  intro A
  induction A with
  | nil =>
    intro B cp h
    simp only [List.nil_append] at h
    exact (isChain_start s ℓ cp B h) ▸ h
  | cons a A' ih =>
    intro B cp h
    simp only [List.cons_append] at h
    have hcp : cp = some a := by cases h; rfl
    subst hcp
    obtain ⟨mp, rest, heq, hl, hch⟩ := isChain_some_inv s ℓ a _ h
    simp only [List.cons_inj_right] at heq
    exact ih B mp.ptr (heq ▸ hch)

theorem getLastD_mem_of_ne_nil (l : List Nat) (z : Nat) (h : l ≠ []) :
    (l.getLast?).getD z ∈ l := by
  cases hx : l.getLast? with
  | none =>
    exfalso
    exact h (List.getLast?_eq_none_iff.mp hx)
  | some x =>
    simp only [Option.getD_some]
    exact List.mem_of_mem_getLast? (by rw [hx]; exact rfl)

theorem getLastD_default_irrel (l : List Nat) (z z' : Nat) (h : l ≠ []) :
    (l.getLast?).getD z = (l.getLast?).getD z' := by
  cases hx : l.getLast? with
  | none =>
    exfalso
    exact h (List.getLast?_eq_none_iff.mp hx)
  | some x => rfl

/-- Splicing a fresh node into a chain: the predecessor's cell now points to
`nid`, `nid`'s cell points to the old successor block `B`, and every other
member's pointer half survives. -/
theorem isChain_splice (w t2 : QState K V) (ℓ nid : Nat) (B : List Nat)
    (hnidcell : linkAt w nid ℓ = some ⟨B.head?, false⟩)
    (hB : ∀ i ∈ B, ∃ mp ndw mpw, linkAt t2 i ℓ = some mp ∧ nodeAt w i = some ndw ∧
      ndw.next[ℓ]? = some mpw ∧ mpw.ptr = mp.ptr) :
    ∀ (A : List Nat),
      A.Nodup →
      IsChain t2 ℓ (A ++ B).head? (A ++ B) →
      (∀ i ∈ A, i ≠ (A.getLast?).getD 0 → ∃ mp ndw mpw, linkAt t2 i ℓ = some mp ∧
        nodeAt w i = some ndw ∧ ndw.next[ℓ]? = some mpw ∧ mpw.ptr = mp.ptr) →
      (A ≠ [] → linkAt w ((A.getLast?).getD 0) ℓ = some ⟨some nid, false⟩) →
      IsChain w ℓ (A ++ nid :: B).head? (A ++ nid :: B) := by
  intro A
  induction A with
  | nil =>
    intro _ hch _ _
    simp only [List.nil_append] at hch ⊢
    obtain ⟨ndw, hndw, hmpw⟩ := linkAt_isSome_nodeAt w nid ℓ _ hnidcell
    refine IsChain.cons w ℓ nid ndw ⟨B.head?, false⟩ B hndw hmpw ?_
    refine isChain_congr_ptr w t2 ℓ B B.head? ?_ hch
    intro i hi
    obtain ⟨mp, ndw2, mpw2, h1, h2, h3, h4⟩ := hB i hi
    exact ⟨ndw2, mpw2, mp, h2, h3, h1, h4⟩
  | cons a A' ih =>
    intro hnd hch hA hlast
    simp only [List.cons_append] at hch ⊢
    obtain ⟨mp, rest, heq, hl, hchr⟩ := isChain_some_inv t2 ℓ a (a :: (A' ++ B)) hch
    simp only [List.cons_inj_right] at heq
    cases A' with
    | nil =>
      -- `a` is the predecessor: its cell in `w` points to `nid`
      have hpd : linkAt w a ℓ = some ⟨some nid, false⟩ := by
        have := hlast (by simp)
        simpa using this
      obtain ⟨ndw, hndw, hmpw⟩ := linkAt_isSome_nodeAt w a ℓ _ hpd
      refine IsChain.cons w ℓ a ndw ⟨some nid, false⟩ (nid :: B) hndw hmpw ?_
      have hchB : IsChain t2 ℓ B.head? B := by
        simp only [List.nil_append] at heq
        subst heq
        exact (isChain_start t2 ℓ mp.ptr B hchr) ▸ hchr
      have := ih List.nodup_nil (by simpa using hchB) (by simp) (by simp)
      simpa using this
    | cons a2 A'' =>
      -- `a` keeps its pointer: the next element is `a2`
      have hLne : (a2 :: A'') ≠ ([] : List Nat) := by simp
      have hLeq : (((a :: a2 :: A'').getLast?).getD 0) = (((a2 :: A'').getLast?).getD 0) := by
        rw [getLastD_cons a 0 (a2 :: A'')]
        exact getLastD_default_irrel (a2 :: A'') a 0 hLne
      have hane2 : a ≠ (((a :: a2 :: A'').getLast?).getD 0) := by
        rw [hLeq]
        intro hc
        have hlmem := getLastD_mem_of_ne_nil (a2 :: A'') 0 hLne
        rw [← hc] at hlmem
        exact (List.nodup_cons.mp hnd).1 hlmem
      obtain ⟨mp2, ndw, mpw, hmp2, hndw, hmpw, hptrw⟩ := hA a (by simp) hane2
      have hmpeq : mp2 = mp := by
        rw [hl] at hmp2
        exact (Option.some_inj.mp hmp2).symm
      subst hmpeq
      refine IsChain.cons w ℓ a ndw mpw (a2 :: A'' ++ nid :: B) hndw hmpw ?_
      have hptr2 : mpw.ptr = some a2 := by
        rw [hptrw]
        have hst := isChain_start t2 ℓ mp2.ptr rest hchr
        rw [hst, ← heq]
        rfl
      rw [hptr2]
      have hch2 : IsChain t2 ℓ ((a2 :: A'') ++ B).head? ((a2 :: A'') ++ B) := by
        rw [← heq] at hchr
        have hst := isChain_start t2 ℓ mp2.ptr _ hchr
        rw [hst] at hchr
        exact hchr
      have hih := ih (List.nodup_cons.mp hnd).2 hch2
        (by
          intro i hi hine
          refine hA i (by simp [hi]) ?_
          rw [hLeq]
          exact hine)
        (by
          intro _
          have hl2 := hlast (by simp)
          rw [hLeq] at hl2
          exact hl2)
      simpa using hih

theorem setNext_ok (s : QState K V) (i ℓ : Nat) (p : Option Nat) (mp0 : MPtr)
    (h : linkAt s i ℓ = some mp0) :
    setNext s i ℓ p = some (setLink s i ℓ ⟨p, false⟩) := by
  unfold setNext getNextPM
  rw [h]
  rfl

/-- The pre-publication stores of `Push`: they set the fresh node's cells at
levels `ℓ0..ℓ0+togo-1` to the recorded successors and touch nothing else. -/
theorem setNexts_main [Inhabited K] [Inhabited V] :
    ∀ (togo : Nat) (s : QState K V) (nid : Nat) (ss : List (Option Nat)) (ℓ0 : Nat),
      (∀ j, ℓ0 ≤ j → j < ℓ0 + togo → (ss[j]?).isSome = true ∧
        (linkAt s nid j).isSome = true) →
      ∃ s1, setNexts s nid ss ℓ0 togo = some s1 ∧
        (∀ a, a ≠ nid → nodeAt s1 a = nodeAt s a) ∧
        (∀ j, j < ℓ0 ∨ ℓ0 + togo ≤ j → linkAt s1 nid j = linkAt s nid j) ∧
        (∀ j sl, ℓ0 ≤ j → j < ℓ0 + togo → ss[j]? = some sl →
          linkAt s1 nid j = some ⟨sl, false⟩) ∧
        (∀ j, prioD s1 j = prioD s j) ∧ (∀ j, levelOf s1 j = levelOf s j) ∧
        (∀ j, insB s1 j = insB s j) ∧ (∀ j, linksLen s1 j = linksLen s j) ∧
        (∀ j, dataD s1 j = dataD s j) ∧
        (∀ i, (nodeAt s1 i).isSome = (nodeAt s i).isSome) ∧
        (∀ i ℓ', (linkAt s1 i ℓ').isSome = (linkAt s i ℓ').isSome) ∧
        s1.size = s.size ∧ s1.head = s.head ∧ s1.maxSize = s.maxSize ∧
        s1.nodes.length = s.nodes.length := by
  intro togo
  induction togo with
  | zero =>
    intro s nid ss ℓ0 hcells
    exact ⟨s, rfl, fun a _ => rfl, fun j _ => rfl, fun j sl h1 h2 _ => absurd h2 (by omega),
      fun j => rfl, fun j => rfl, fun j => rfl, fun j => rfl, fun j => rfl,
      fun i => rfl, fun i ℓ' => rfl, rfl, rfl, rfl, rfl⟩
  | succ togo ih =>
    intro s nid ss ℓ0 hcells
    obtain ⟨hss0, hc0⟩ := hcells ℓ0 (le_refl ℓ0) (by omega)
    obtain ⟨sl0, hsl0⟩ := Option.isSome_iff_exists.mp hss0
    obtain ⟨mp0, hmp0⟩ := Option.isSome_iff_exists.mp hc0
    set s' := setLink s nid ℓ0 ⟨sl0, false⟩ with hs'
    have hcell' : linkAt s' nid ℓ0 = some ⟨sl0, false⟩ :=
      linkAt_setLink_self s nid ℓ0 ⟨sl0, false⟩ mp0 hmp0
    have hcells1 : ∀ j, ℓ0 + 1 ≤ j → j < (ℓ0 + 1) + togo → (ss[j]?).isSome = true ∧
        (linkAt s' nid j).isSome = true := by
      intro j h1 h2
      obtain ⟨ha, hb⟩ := hcells j (by omega) (by omega)
      refine ⟨ha, ?_⟩
      rw [hs', linkAt_isSome_setLink s nid ℓ0 nid j ⟨sl0, false⟩]
      exact hb
    obtain ⟨s1, hs1, hother, hkeep, hset, hprio, hlev, hins, hlinks, hdata,
      hsomeN, hsomeL, hsz, hhd, hmx, hnl⟩ := ih s' nid ss (ℓ0+1) hcells1
    refine ⟨s1, ?_, ?_, ?_, ?_, ?_, ?_, ?_, ?_, ?_, ?_, ?_, ?_, ?_, ?_, ?_⟩
    · unfold setNexts
      rw [hsl0]
      simp only [Option.bind_eq_bind, Option.some_bind]
      rw [setNext_ok s nid ℓ0 sl0 mp0 hmp0]
      simp only [Option.bind_eq_bind, Option.some_bind]
      rw [← hs']
      exact hs1
    · intro a ha
      rw [hother a ha, hs', nodeAt_setLink_ne s nid ℓ0 a _ ha]
    · intro j hj
      have hne : j ≠ ℓ0 := by omega
      rw [hkeep j (by omega), hs', linkAt_setLink_ne_level s nid ℓ0 j _ hne]
    · intro j sl h1 h2 hssj
      rcases Nat.lt_or_ge j (ℓ0+1) with hlt | hge
      · have hjeq : j = ℓ0 := by omega
        subst hjeq
        rw [hkeep j (by omega), hcell']
        rw [hsl0] at hssj
        rw [Option.some_inj.mp hssj]
      · exact hset j sl hge (by omega) hssj
    · intro j
      rw [hprio j, hs', prioD_setLink s nid ℓ0 j _]
    · intro j
      rw [hlev j, hs', levelOf_setLink s nid ℓ0 j _]
    · intro j
      rw [hins j, hs', insB_setLink s nid ℓ0 j _]
    · intro j
      rw [hlinks j, hs', linksLen_setLink s nid ℓ0 j _]
    · intro j
      rw [hdata j, hs', dataD_setLink s nid ℓ0 j _]
    · intro i
      rw [hsomeN i, hs', nodeAt_isSome_setLink s nid ℓ0 i _]
    · intro i ℓ'
      rw [hsomeL i ℓ', hs', linkAt_isSome_setLink s nid ℓ0 i ℓ' _]
    · rw [hsz, hs', setLink_size s nid ℓ0 _]
    · rw [hhd, hs', setLink_head s nid ℓ0 _]
    · rw [hmx, hs', setLink_maxSize s nid ℓ0 _]
    · rw [hnl, hs', setLink_nodes_length s nid ℓ0 _]

/-- The upper-level linking loop of `Push` on a quiescent state: every CAS
succeeds at once, installing `nid` into each level's predecessor cell. -/
theorem linkUppers_main [Inhabited K] [Inhabited V] :
    ∀ (togo : Nat) (s : QState K V) (nlev nid : Nat) (k : K)
      (ps : List Nat) (ss : List (Option Nat)) (ℓ0 : Nat) (fuel : Nat),
      1 ≤ fuel →
      (∀ ℓ2, ℓ0 ≤ ℓ2 → ℓ2 < ℓ0 + togo → ∃ pl sl, ps[ℓ2]? = some pl ∧
        ss[ℓ2]? = some sl ∧ linkAt s pl ℓ2 = some ⟨sl, false⟩) →
      ∃ s1, linkUppers fuel s nlev nid k ps ss ℓ0 togo = some s1 ∧
        (∀ a ℓ', (∀ ℓ2, ℓ0 ≤ ℓ2 → ℓ2 < ℓ0 + togo → ¬(ps[ℓ2]? = some a ∧ ℓ' = ℓ2)) →
          linkAt s1 a ℓ' = linkAt s a ℓ') ∧
        (∀ ℓ2 pl, ℓ0 ≤ ℓ2 → ℓ2 < ℓ0 + togo → ps[ℓ2]? = some pl →
          linkAt s1 pl ℓ2 = some ⟨some nid, false⟩) ∧
        (∀ j, prioD s1 j = prioD s j) ∧ (∀ j, levelOf s1 j = levelOf s j) ∧
        (∀ j, insB s1 j = insB s j) ∧ (∀ j, linksLen s1 j = linksLen s j) ∧
        (∀ j, dataD s1 j = dataD s j) ∧
        (∀ i, (nodeAt s1 i).isSome = (nodeAt s i).isSome) ∧
        (∀ i ℓ', (linkAt s1 i ℓ').isSome = (linkAt s i ℓ').isSome) ∧
        s1.size = s.size ∧ s1.head = s.head ∧ s1.maxSize = s.maxSize ∧
        s1.nodes.length = s.nodes.length := by
  intro togo
  induction togo with
  | zero =>
    intro s nlev nid k ps ss ℓ0 fuel hf hcells
    refine ⟨s, ?_, fun a ℓ' _ => rfl, fun ℓ2 pl h1 h2 _ => absurd h2 (by omega),
      fun j => rfl, fun j => rfl, fun j => rfl, fun j => rfl, fun j => rfl,
      fun i => rfl, fun i ℓ' => rfl, rfl, rfl, rfl, rfl⟩
    unfold linkUppers
    rfl
  | succ togo ih =>
    intro s nlev nid k ps ss ℓ0 fuel hf hcells
    obtain ⟨pl0, sl0, hpl0, hsl0, hcell0⟩ := hcells ℓ0 (le_refl ℓ0) (by omega)
    set s' := setLink s pl0 ℓ0 ⟨some nid, false⟩ with hs'
    have hcells1 : ∀ ℓ2, ℓ0 + 1 ≤ ℓ2 → ℓ2 < (ℓ0 + 1) + togo → ∃ pl sl,
        ps[ℓ2]? = some pl ∧ ss[ℓ2]? = some sl ∧ linkAt s' pl ℓ2 = some ⟨sl, false⟩ := by
      intro ℓ2 h1 h2
      obtain ⟨pl, sl, ha, hb, hc⟩ := hcells ℓ2 (by omega) (by omega)
      refine ⟨pl, sl, ha, hb, ?_⟩
      rw [hs']
      rcases eq_or_ne pl pl0 with rfl | hne
      · rw [linkAt_setLink_ne_level s pl ℓ0 ℓ2 _ (by omega)]
        exact hc
      · rw [linkAt_setLink_ne_node s pl0 ℓ0 pl ℓ2 _ hne]
        exact hc
    obtain ⟨s1, hs1, hkeep, hset, hprio, hlev, hins, hlinks, hdata,
      hsomeN, hsomeL, hsz, hhd, hmx, hnl⟩ := ih s' nlev nid k ps ss (ℓ0+1) fuel hf hcells1
    refine ⟨s1, ?_, ?_, ?_, ?_, ?_, ?_, ?_, ?_, ?_, ?_, ?_, ?_, ?_, ?_⟩
    · unfold linkUppers
      cases fuel with
      | zero => omega
      | succ f =>
        unfold linkLevel
        rw [hpl0]
        simp only [Option.bind_eq_bind, Option.some_bind]
        rw [hsl0]
        simp only [Option.bind_eq_bind, Option.some_bind]
        rw [compareExchange_success s pl0 ℓ0 sl0 (some nid) hcell0]
        simp only [Option.bind_eq_bind, Option.some_bind]
        try dsimp only []
        rw [if_pos trivial]
        try simp only [Option.bind_eq_bind, Option.some_bind]
        try dsimp only []
        rw [← hs']
        exact hs1
    · intro a ℓ' hnot
      rw [hkeep a ℓ' (by
        intro ℓ2 h1 h2 hc
        exact hnot ℓ2 (by omega) (by omega) hc), hs']
      have hnot0 := hnot ℓ0 (le_refl ℓ0) (by omega)
      rcases eq_or_ne a pl0 with rfl | hne
      · rcases eq_or_ne ℓ' ℓ0 with rfl | hnl
        · exact absurd ⟨hpl0, rfl⟩ hnot0
        · rw [linkAt_setLink_ne_level s a ℓ0 ℓ' _ hnl]
      · rw [linkAt_setLink_ne_node s pl0 ℓ0 a ℓ' _ hne]
    · intro ℓ2 pl h1 h2 hps2
      rcases Nat.lt_or_ge ℓ2 (ℓ0+1) with hlt | hge
      · have hℓeq : ℓ2 = ℓ0 := by omega
        subst hℓeq
        have hpleq : pl = pl0 := by
          rw [hpl0] at hps2
          exact (Option.some_inj.mp hps2).symm
        subst hpleq
        rw [hkeep pl ℓ2 (by
          intro ℓ3 h3 h4 hc
          omega), hs']
        exact linkAt_setLink_self s pl ℓ2 ⟨some nid, false⟩ ⟨sl0, false⟩ hcell0
      · exact hset ℓ2 pl hge (by omega) hps2
    · intro j
      rw [hprio j, hs', prioD_setLink s pl0 ℓ0 j _]
    · intro j
      rw [hlev j, hs', levelOf_setLink s pl0 ℓ0 j _]
    · intro j
      rw [hins j, hs', insB_setLink s pl0 ℓ0 j _]
    · intro j
      rw [hlinks j, hs', linksLen_setLink s pl0 ℓ0 j _]
    · intro j
      rw [hdata j, hs', dataD_setLink s pl0 ℓ0 j _]
    · intro i
      rw [hsomeN i, hs', nodeAt_isSome_setLink s pl0 ℓ0 i _]
    · intro i ℓ'
      rw [hsomeL i ℓ', hs', linkAt_isSome_setLink s pl0 ℓ0 i ℓ' _]
    · rw [hsz, hs', setLink_size s pl0 ℓ0 _]
    · rw [hhd, hs', setLink_head s pl0 ℓ0 _]
    · rw [hmx, hs', setLink_maxSize s pl0 ℓ0 _]
    · rw [hnl, hs', setLink_nodes_length s pl0 ℓ0 _]

theorem sortedIds_congr_mem [Inhabited K] (t1 t : QState K V) (c : List Nat)
    (hpr : ∀ i ∈ c, prioD t1 i = prioD t i) (h : SortedIds t c) : SortedIds t1 c := by
  refine sortedIds_of_pairwise t1 c ?_
  have hp := sortedIds_pairwise t c h
  refine List.Pairwise.imp_of_mem ?_ hp
  intro a b ha hb hab
  rw [hpr a ha, hpr b hb]
  exact hab

/-- `SetDoneInserting` clears the flag and touches nothing else. -/
theorem setDoneInserting_main [Inhabited K] [Inhabited V] (s : QState K V) (nid : Nat)
    (nd : Node K V) (hnd : nodeAt s nid = some nd) :
    ∃ s1, setDoneInserting s nid = some s1 ∧
      (∀ a, a ≠ nid → nodeAt s1 a = nodeAt s a) ∧
      nodeAt s1 nid = some { nd with inserting := false } ∧
      (∀ ℓ', linkAt s1 nid ℓ' = linkAt s nid ℓ') ∧
      (∀ j, prioD s1 j = prioD s j) ∧ (∀ j, levelOf s1 j = levelOf s j) ∧
      (∀ j, linksLen s1 j = linksLen s j) ∧ (∀ j, dataD s1 j = dataD s j) ∧
      insB s1 nid = false ∧
      (∀ i, (nodeAt s1 i).isSome = (nodeAt s i).isSome) ∧
      (∀ i ℓ', (linkAt s1 i ℓ').isSome = (linkAt s i ℓ').isSome) ∧
      (∀ i ℓ', markB s1 i ℓ' = markB s i ℓ') ∧
      (∀ i ℓ', ptrAt s1 i ℓ' = ptrAt s i ℓ') ∧
      s1.size = s.size ∧ s1.head = s.head ∧ s1.maxSize = s.maxSize ∧
      s1.nodes.length = s.nodes.length := by
  have hidx : nid < s.nodes.length := by
    have : s.nodes[nid]? = some nd := hnd
    exact (List.getElem?_eq_some.mp this).1
  refine ⟨{ s with nodes := s.nodes.set nid { nd with inserting := false } }, ?_,
    ?_, ?_, ?_, ?_, ?_, ?_, ?_, ?_, ?_, ?_, ?_, ?_, rfl, rfl, rfl, by simp⟩
  · unfold setDoneInserting
    rw [hnd]
    rfl
  · intro a ha
    unfold nodeAt
    exact List.getElem?_set_ne (Ne.symm ha)
  · unfold nodeAt
    rw [List.getElem?_set_self', show s.nodes[nid]? = some nd from hnd]
    rfl
  · intro ℓ'
    unfold linkAt nodeAt
    rw [List.getElem?_set_self', show s.nodes[nid]? = some nd from hnd]
    rfl
  · intro j
    rcases eq_or_ne j nid with rfl | hne
    · unfold prioD nodeAt
      rw [List.getElem?_set_self', show s.nodes[j]? = some nd from hnd]
      rfl
    · unfold prioD nodeAt
      rw [List.getElem?_set_ne (Ne.symm hne)]
  · intro j
    rcases eq_or_ne j nid with rfl | hne
    · unfold levelOf nodeAt
      rw [List.getElem?_set_self', show s.nodes[j]? = some nd from hnd]
      rfl
    · unfold levelOf nodeAt
      rw [List.getElem?_set_ne (Ne.symm hne)]
  · intro j
    rcases eq_or_ne j nid with rfl | hne
    · unfold linksLen nodeAt
      rw [List.getElem?_set_self', show s.nodes[j]? = some nd from hnd]
      rfl
    · unfold linksLen nodeAt
      rw [List.getElem?_set_ne (Ne.symm hne)]
  · intro j
    rcases eq_or_ne j nid with rfl | hne
    · unfold dataD nodeAt
      rw [List.getElem?_set_self', show s.nodes[j]? = some nd from hnd]
      rfl
    · unfold dataD nodeAt
      rw [List.getElem?_set_ne (Ne.symm hne)]
  · unfold insB nodeAt
    rw [List.getElem?_set_self', show s.nodes[nid]? = some nd from hnd]
    rfl
  · intro i
    rcases eq_or_ne i nid with rfl | hne
    · unfold nodeAt
      rw [List.getElem?_set_self', show s.nodes[i]? = some nd from hnd]
      rfl
    · unfold nodeAt
      rw [List.getElem?_set_ne (Ne.symm hne)]
  · intro i ℓ'
    rcases eq_or_ne i nid with rfl | hne
    · unfold linkAt nodeAt
      rw [List.getElem?_set_self', show s.nodes[i]? = some nd from hnd]
      rfl
    · unfold linkAt nodeAt
      rw [List.getElem?_set_ne (Ne.symm hne)]
  · intro i ℓ'
    rcases eq_or_ne i nid with rfl | hne
    · unfold markB linkAt nodeAt
      rw [List.getElem?_set_self', show s.nodes[i]? = some nd from hnd]
      rfl
    · unfold markB linkAt nodeAt
      rw [List.getElem?_set_ne (Ne.symm hne)]
  · intro i ℓ'
    rcases eq_or_ne i nid with rfl | hne
    · unfold ptrAt linkAt nodeAt
      rw [List.getElem?_set_self', show s.nodes[i]? = some nd from hnd]
      rfl
    · unfold ptrAt linkAt nodeAt
      rw [List.getElem?_set_ne (Ne.symm hne)]

theorem invc_sub [Inhabited K] {L : Nat} {s : QState K V} {c : Nat → List Nat}
    (hI : InvC L s c) (ℓ : Nat) (h : ℓ + 1 ≤ L) :
    ∀ i ∈ c (ℓ+1), markB s i (ℓ+1) = false → i ∈ c ℓ ∧ markB s i ℓ = false := by
  intro i hi hm
  obtain ⟨hi0, hlev⟩ := invc_upper_mem hI (ℓ+1) (by omega) h i hi
  have hm0 : markB s i 0 = false := by
    rw [← hI.marks_levels i hi0 (ℓ+1) hlev]
    exact hm
  have hmℓ : markB s i ℓ = false := by
    rcases Nat.eq_zero_or_pos ℓ with rfl | h1
    · exact hm0
    · rw [hI.marks_levels i hi0 ℓ (by omega)]
      exact hm0
  refine ⟨?_, hmℓ⟩
  rcases Nat.eq_zero_or_pos ℓ with rfl | h1
  · exact hi0
  · obtain ⟨pre, hpre, hprem⟩ := hI.upper_eq ℓ h1 (by omega)
    have hFL : i ∈ FL s (c 0) ℓ := (FL_mem s (c 0) ℓ i).mpr ⟨hi0, by omega⟩
    rw [hpre] at hFL
    rcases List.mem_append.mp hFL with h2 | h2
    · exact absurd (hprem i h2) (by rw [hm0]; simp)
    · exact h2

/-! ## Claim C6: move semantics of the two queue variants -/

/-- C6 (amended): both variants are move-constructible and move-assignable
(copying is deleted at compile time, which a semantic embedding does not
model); after a move the target holds the source's `max_size`, `head` (heap)
and `size`, and the moved-from queue's `head` is cleared.  The `KVQueue`
variant additionally zeroes the moved-from `size`; the key-only `Queue`
variant leaves the moved-from `size` unchanged. -/
theorem move_ops_spec (dst other : QState K V) :
    (moveCtorQ other).1 = ⟨other.maxSize, other.head, other.nodes, other.size⟩ ∧
    (moveCtorQ other).2.head = none ∧
    (moveCtorQ other).2.size = other.size ∧
    (moveAssignQ dst other).1 = ⟨other.maxSize, other.head, other.nodes, other.size⟩ ∧
    (moveAssignQ dst other).2.head = none ∧
    (moveAssignQ dst other).2.size = other.size ∧
    (moveCtorKV other).1 = ⟨other.maxSize, other.head, other.nodes, other.size⟩ ∧
    (moveCtorKV other).2.head = none ∧
    (moveCtorKV other).2.size = 0 ∧
    (moveAssignKV dst other).1 = ⟨other.maxSize, other.head, other.nodes, other.size⟩ ∧
    (moveAssignKV dst other).2.head = none ∧
    (moveAssignKV dst other).2.size = 0 := by
  refine ⟨rfl, rfl, rfl, ?_, rfl, rfl, rfl, rfl, rfl, ?_, rfl, rfl⟩ <;> rfl

/-- C6 counterexample: on a key-only `Queue` holding one element
(`size = 1`), move construction clears the moved-from `head` but leaves the
moved-from `size` at `1 ≠ 0` — the moved-from queue is not "emptied (head
cleared, size zero)" as claimed. -/
theorem moveQ_size_not_zeroed :
    ((push 5 0 (initQ 0 0 : QState Nat Unit) 7 () 1).map
       (fun s1 => ((moveCtorQ s1).2.head, getSize (moveCtorQ s1).2, getSize s1)))
      = some (none, 1, 1) ∧ (1 : Nat) ≠ 0 := by
  exact ⟨by decide, by decide⟩

/-! ## Claim C7: the capacity gate -/

/-- C7: `Wait()` with `max_size = 0` passes the gate in a single check
(zero loop iterations) whatever `size` is; with `max_size > 0` it passes
immediately when `size < max_size` and, the loop body changing nothing,
spins forever (no fuel suffices) when `size ≥ max_size`; consequently
`Push` on a full bounded queue never proceeds past the gate. -/
theorem capacity_gate_spec (L : Nat) :
    (∀ sz : Nat, waitGate 1 0 sz = some ()) ∧
    (∀ ms sz : Nat, ms ≠ 0 → sz < ms → waitGate 1 ms sz = some ()) ∧
    (∀ ms sz f : Nat, ms ≠ 0 → ms ≤ sz → waitGate f ms sz = none) ∧
    (∀ (s : QState K V) (k : K) (d : V) (lvl fuel : Nat),
      s.maxSize ≠ 0 → s.maxSize ≤ s.size → push fuel L s k d lvl = none) := by
  have hspin : ∀ f ms sz : Nat, ms ≠ 0 → ms ≤ sz → waitGate f ms sz = none := by
    intro f
    induction f with
    | zero => intro ms sz _ _; rfl
    | succ f ih =>
      intro ms sz h1 h2
      unfold waitGate
      rw [if_pos ⟨h1, h2⟩]
      exact ih ms sz h1 h2
  refine ⟨?_, ?_, fun ms sz f h1 h2 => hspin f ms sz h1 h2, ?_⟩
  · intro sz; unfold waitGate; simp
  · intro ms sz h1 h2
    unfold waitGate
    rw [if_neg (by omega)]
  · intro s k d lvl fuel h1 h2
    unfold push
    rw [hspin fuel s.maxSize s.size h1 h2]
    rfl

/-- Witness for C7 at concrete inputs: an unbounded gate passes at once, a
bounded non-full gate passes, a bounded full gate spins, and `Push` on a
full `max_size = 2` queue does not proceed. -/
theorem capacity_gate_spec_witness :
    waitGate 1 0 5 = some () ∧ waitGate 1 2 1 = some () ∧ waitGate 7 2 3 = none ∧
    push 9 0 { initQ 0 2 with size := 2 : QState Nat Unit } 7 () 1 = none := by
  have h := @capacity_gate_spec Nat Unit _ 0
  exact ⟨h.1 5, h.2.1 2 1 (by decide) (by decide), h.2.2.1 2 3 7 (by decide) (by decide),
    h.2.2.2 { initQ 0 2 with size := 2 } 7 () 1 9 (by decide) (by decide)⟩


/-! ## Push on a quiescent state -/

theorem markB_eq_of_linkAt (s : QState K V) (i ℓ : Nat) (mp : MPtr)
    (h : linkAt s i ℓ = some mp) : markB s i ℓ = mp.mark := by
  unfold markB
  rw [h]

theorem markB_eq_of_linkAt_none (s : QState K V) (i ℓ : Nat)
    (h : linkAt s i ℓ = none) : markB s i ℓ = false := by
  unfold markB
  rw [h]

theorem ptrAt_eq_of_linkAt (s : QState K V) (i ℓ : Nat) (mp : MPtr)
    (h : linkAt s i ℓ = some mp) : ptrAt s i ℓ = mp.ptr := by
  unfold ptrAt
  rw [h]

theorem markB_link_congr (t1 t : QState K V) (i ℓ : Nat)
    (h : linkAt t1 i ℓ = linkAt t i ℓ) : markB t1 i ℓ = markB t i ℓ := by
  unfold markB
  rw [h]

theorem prioD_node_congr [Inhabited K] (t1 t : QState K V) (j : Nat)
    (h : nodeAt t1 j = nodeAt t j) : prioD t1 j = prioD t j := by
  unfold prioD
  rw [h]

theorem levelOf_node_congr (t1 t : QState K V) (j : Nat)
    (h : nodeAt t1 j = nodeAt t j) : levelOf t1 j = levelOf t j := by
  unfold levelOf
  rw [h]

theorem linksLen_node_congr (t1 t : QState K V) (j : Nat)
    (h : nodeAt t1 j = nodeAt t j) : linksLen t1 j = linksLen t j := by
  unfold linksLen
  rw [h]

theorem insB_node_congr (t1 t : QState K V) (j : Nat)
    (h : nodeAt t1 j = nodeAt t j) : insB t1 j = insB t j := by
  unfold insB
  rw [h]

set_option maxHeartbeats 3200000 in
set_option maxRecDepth 4000 in
/-- `Push` on a quiescent state whose capacity gate passes: the publication
loop succeeds in one pass (every CAS wins), the new node is linked at levels
`0..lvl-1` between the last node of priority `< k` and the first node of
priority `≥ k`, the `u32` size is incremented, and the invariant is
re-established.  The live bottom chain gains exactly the new node, placed
after the live nodes of smaller priority and before those of priority
`≥ k`. -/
theorem push_main [Inhabited K] [Inhabited V] (L : Nat) (s : QState K V)
    (c : Nat → List Nat) (hI : InvC L s c) (k : K) (d : V) (lvl : Nat)
    (hlvl1 : 1 ≤ lvl) (hlvlL : lvl ≤ L + 1)
    (hgate : s.maxSize = 0 ∨ s.size < s.maxSize)
    (fuel : Nat) (hfuel : s.nodes.length + 2 < fuel) :
    ∃ s' c2 A0 B0, push fuel L s k d lvl = some s' ∧
      InvC L s' c2 ∧
      liveIds s (c 0) = A0 ++ B0 ∧
      (∀ x ∈ A0, prioD s x < k) ∧ (∀ x ∈ B0, ¬ prioD s x < k) ∧
      liveIds s' (c2 0) = A0 ++ s.nodes.length :: B0 ∧
      prioD s' s.nodes.length = k ∧ dataD s' s.nodes.length = d ∧
      (∀ j, j ≠ s.nodes.length → prioD s' j = prioD s j) ∧
      (∀ j, j ≠ s.nodes.length → j ≠ 0 → dataD s' j = dataD s j) ∧
      s'.nodes.length = s.nodes.length + 1 ∧ s'.maxSize = s.maxSize ∧
      s'.size = (s.size + 1) % 2 ^ 32 := by
  obtain ⟨nd0, hnd0, hnd0lev, hnd0ins⟩ := hI.head_node
  have hnid1 : 1 ≤ s.nodes.length := by
    have h1 : s.nodes[0]? = some nd0 := hnd0
    have h2 := (List.getElem?_eq_some.mp h1).1
    omega
  -- the fresh node and the appended state
  set nid := s.nodes.length with hniddef
  set nw : Node K V := ⟨k, d, lvl, List.replicate lvl ⟨none, false⟩, true⟩ with hnw
  set s1 : QState K V := { s with nodes := s.nodes ++ [nw] } with hs1
  have hnwlen : nw.next.length = lvl := by
    rw [hnw]
    simp
  have hhead1 : s1.head = some 0 := by
    rw [hs1]
    exact hI.head_some
  have hs1len : s1.nodes.length = nid + 1 := by
    rw [hs1, hniddef]
    simp
  have hnodeA : ∀ a, a ≠ nid → nodeAt s1 a = nodeAt s a := by
    intro a ha
    rw [hs1]
    exact nodeAt_append_ne s nw a ha
  have hnodeNid : nodeAt s1 nid = some nw := by
    rw [hs1, hniddef]
    exact nodeAt_append_self s nw
  have hprioA : ∀ a, a ≠ nid → prioD s1 a = prioD s a := by
    intro a ha
    exact prioD_node_congr s1 s a (hnodeA a ha)
  have hmarkA : ∀ a ℓ', a ≠ nid → markB s1 a ℓ' = markB s a ℓ' := by
    intro a ℓ' ha
    unfold markB linkAt
    rw [hnodeA a ha]
  have hlinkA : ∀ a ℓ', a ≠ nid → linkAt s1 a ℓ' = linkAt s a ℓ' := by
    intro a ℓ' ha
    unfold linkAt
    rw [hnodeA a ha]
  -- chain members are old ids
  have hmemlt : ∀ ℓ, ℓ ≤ L → ∀ i ∈ c ℓ, i < nid := by
    intro ℓ hℓ i hi
    obtain ⟨-, hsome⟩ := invc_valid hI ℓ hℓ i hi
    obtain ⟨ndi, hndi⟩ := Option.isSome_iff_exists.mp hsome
    have h1 : s.nodes[i]? = some ndi := hndi
    exact (List.getElem?_eq_some.mp h1).1
  have hc0len : (c 0).length ≤ nid :=
    nodup_valid_length_le s (c 0) hI.nodup0 (fun i hi => (hI.c0_valid i hi).2)
  -- fuel shape
  cases fuel with
  | zero => omega
  | succ f =>
  -- hypotheses of the level descent on s1
  have hhc1 : ∀ ℓ, ℓ < L + 1 → ∃ mp, linkAt s1 0 ℓ = some mp ∧ mp.mark = false := by
    intro ℓ hℓ
    rw [hlinkA 0 ℓ (by omega)]
    exact hI.head_unmarked ℓ (by omega)
  have hch1 : ∀ ℓ, ℓ < L + 1 → IsChain s1 ℓ (ptrAt s1 0 ℓ) (c ℓ) := by
    intro ℓ hℓ
    have hp1 : ptrAt s1 0 ℓ = ptrAt s 0 ℓ := by
      unfold ptrAt
      rw [hlinkA 0 ℓ (by omega)]
    rw [hp1]
    refine isChain_of_nodeAt_eq s1 s ℓ _ (c ℓ) ?_ ?_
    · intro i hi
      exact hnodeA i (by have := hmemlt ℓ (by omega) i hi; omega)
    · rcases Nat.eq_zero_or_pos ℓ with rfl | h1
      · exact hI.chain0
      · exact hI.chain_up ℓ h1 (by omega)
  have hval1 : ∀ ℓ, ℓ < L + 1 → ∀ i ∈ c ℓ, i ≠ 0 ∧ (nodeAt s1 i).isSome = true := by
    intro ℓ hℓ i hi
    obtain ⟨h1, h2⟩ := invc_valid hI ℓ (by omega) i hi
    refine ⟨h1, ?_⟩
    rw [hnodeA i (by have := hmemlt ℓ (by omega) i hi; omega)]
    exact h2
  have hsor1 : ∀ ℓ, ℓ < L + 1 → SortedIds s1 (c ℓ) := by
    intro ℓ hℓ
    refine sortedIds_congr_mem s1 s (c ℓ) ?_ (invc_sorted hI ℓ (by omega))
    intro i hi
    exact hprioA i (by have := hmemlt ℓ (by omega) i hi; omega)
  have hnd1 : ∀ ℓ, ℓ < L + 1 → (c ℓ).Nodup := fun ℓ hℓ => invc_nodup hI ℓ (by omega)
  have hmpre1 : ∀ ℓ, ℓ < L + 1 → ∃ dm du, c ℓ = dm ++ du ∧
      (∀ i ∈ dm, markB s1 i ℓ = true) ∧ ∀ i ∈ du, markB s1 i ℓ = false := by
    intro ℓ hℓ
    obtain ⟨dm, du, hsp, hm2, hu2⟩ := invc_split hI ℓ (by omega)
    refine ⟨dm, du, hsp, ?_, ?_⟩
    · intro i hi
      have him : i ∈ c ℓ := by rw [hsp]; exact List.mem_append_left _ hi
      rw [hmarkA i ℓ (by have := hmemlt ℓ (by omega) i him; omega)]
      exact hm2 i hi
    · intro i hi
      have him : i ∈ c ℓ := by rw [hsp]; exact List.mem_append_right _ hi
      rw [hmarkA i ℓ (by have := hmemlt ℓ (by omega) i him; omega)]
      exact hu2 i hi
  have hsub1 : ∀ ℓ, ℓ + 1 < L + 1 → ∀ i ∈ c (ℓ+1), markB s1 i (ℓ+1) = false →
      i ∈ c ℓ ∧ markB s1 i ℓ = false := by
    intro ℓ hℓ i hi hm
    have hlt : i < nid := hmemlt (ℓ+1) (by omega) i hi
    rw [hmarkA i (ℓ+1) (by omega)] at hm
    obtain ⟨h1, h2⟩ := invc_sub hI ℓ (by omega) i hi hm
    refine ⟨h1, ?_⟩
    rw [hmarkA i ℓ (by omega)]
    exact h2
  have hfl1 : ∀ ℓ, ℓ < L + 1 → (c ℓ).length < f + 1 := by
    intro ℓ hℓ
    have := (invc_sublist0 hI ℓ (by omega)).length_le
    omega
  obtain ⟨t2, ps, ss, e, hcomp, hpsl, hssl, hfrH, hche, hed, hAB2, hCa, hCb, hHC, hMF⟩ :=
    findLevels_main (L+1) s1 0 c k (f+1) hhc1 hch1 hval1 hsor1 hnd1 hmpre1 hsub1
      (fun _ => Or.inl rfl) hfl1 (by omega)
  choose Af Bf hABe hAlt hBge hps hss hpm hplink using hAB2
  -- total versions of the per-level split
  set AfT : Nat → List Nat := fun ℓ => if h : ℓ < L + 1 then Af ℓ h else [] with hAfT
  set BfT : Nat → List Nat := fun ℓ => if h : ℓ < L + 1 then Bf ℓ h else [] with hBfT
  have hAfTe : ∀ ℓ (h : ℓ < L + 1), AfT ℓ = Af ℓ h := by
    intro ℓ h
    rw [hAfT]
    exact dif_pos h
  have hBfTe : ∀ ℓ (h : ℓ < L + 1), BfT ℓ = Bf ℓ h := by
    intro ℓ h
    rw [hBfT]
    exact dif_pos h
  set pdT : Nat → Nat := fun ℓ => ((AfT ℓ).getLast?).getD 0 with hpdT
  have heAB : ∀ ℓ (h : ℓ < L + 1), e ℓ = AfT ℓ ++ BfT ℓ := by
    intro ℓ h
    rw [hAfTe ℓ h, hBfTe ℓ h]
    exact hABe ℓ h
  have hAltT : ∀ ℓ (h : ℓ < L + 1), ∀ i ∈ AfT ℓ, prioD s1 i < k := by
    intro ℓ h i hi
    rw [hAfTe ℓ h] at hi
    exact hAlt ℓ h i hi
  have hBgeT : ∀ ℓ (h : ℓ < L + 1), ∀ i ∈ BfT ℓ, ¬ prioD s1 i < k := by
    intro ℓ h i hi
    rw [hBfTe ℓ h] at hi
    exact hBge ℓ h i hi
  -- frame facts of the descent
  have hnodeF : ∀ j, j ≠ 0 → nodeAt t2 j = nodeAt s1 j := hfrH.1
  have hprioF : ∀ j, prioD t2 j = prioD s1 j := hfrH.2.2.1
  have hlevF : ∀ j, levelOf t2 j = levelOf s1 j := hfrH.2.2.2.1
  have hinsF : ∀ j, insB t2 j = insB s1 j := hfrH.2.2.2.2.1
  have hmarkF : ∀ j ℓa, j ≠ 0 → markB t2 j ℓa = markB s1 j ℓa := hfrH.2.2.2.2.2.1
  have hszF : t2.size = s1.size := hfrH.2.2.2.2.2.2.1
  have hhdF : t2.head = s1.head := hfrH.2.2.2.2.2.2.2.1
  have hmxF : t2.maxSize = s1.maxSize := hfrH.2.2.2.2.2.2.2.2.1
  have hnlF : t2.nodes.length = s1.nodes.length := hfrH.2.2.2.2.2.2.2.2.2.1
  have hllF : ∀ j, linksLen t2 j = linksLen s1 j := hfrH.2.2.2.2.2.2.2.2.2.2
  -- per-level knowledge
  have heMem : ∀ ℓ (h : ℓ < L + 1), ∀ i ∈ e ℓ, i ∈ c ℓ := by
    intro ℓ h i hi
    rcases hed ℓ h with h1 | ⟨dmx, -, h1, -⟩
    · rw [← h1]; exact hi
    · rw [h1]; exact List.mem_append_right dmx hi
  have heLt : ∀ ℓ (h : ℓ < L + 1), ∀ i ∈ e ℓ, i < nid := by
    intro ℓ h i hi
    exact hmemlt ℓ (by omega) i (heMem ℓ h i hi)
  have heValid : ∀ ℓ (h : ℓ < L + 1), ∀ i ∈ e ℓ, i ≠ 0 ∧ (nodeAt s i).isSome = true := by
    intro ℓ h i hi
    exact invc_valid hI ℓ (by omega) i (heMem ℓ h i hi)
  have hesub : ∀ ℓ (h : ℓ < L + 1), (e ℓ).Sublist (c ℓ) := by
    intro ℓ h
    rcases hed ℓ h with h1 | ⟨dmx, -, h1, -⟩
    · rw [h1]
    · rw [h1]
      exact List.sublist_append_right dmx (e ℓ)
  have heNodup : ∀ ℓ (h : ℓ < L + 1), (e ℓ).Nodup := by
    intro ℓ h
    exact (invc_nodup hI ℓ (by omega)).sublist (hesub ℓ h)
  have hpd_cases : ∀ ℓ (h : ℓ < L + 1), pdT ℓ = 0 ∨
      (pdT ℓ ∈ e ℓ ∧ markB s1 (pdT ℓ) ℓ = false) := by
    intro ℓ h
    have h2 := hpm ℓ h
    rw [hpdT]
    dsimp only
    rw [hAfTe ℓ h]
    exact h2
  have hpd_ne : ∀ ℓ (h : ℓ < L + 1), pdT ℓ ≠ nid := by
    intro ℓ h
    rcases hpd_cases ℓ h with h1 | ⟨h1, -⟩
    · rw [h1]; omega
    · have := heLt ℓ h _ h1; omega
  have hpsT : ∀ ℓ (h : ℓ < L + 1), ps[ℓ]? = some (pdT ℓ) := by
    intro ℓ h
    rw [hpdT]
    dsimp only
    rw [hAfTe ℓ h]
    exact hps ℓ h
  have hssT : ∀ ℓ (h : ℓ < L + 1), ss[ℓ]? = some ((BfT ℓ).head?) := by
    intro ℓ h
    rw [hBfTe ℓ h]
    exact hss ℓ h
  have hplinkT : ∀ ℓ (h : ℓ < L + 1), linkAt t2 (pdT ℓ) ℓ = some ⟨(BfT ℓ).head?, false⟩ := by
    intro ℓ h
    rw [hpdT]
    dsimp only
    rw [hAfTe ℓ h, hBfTe ℓ h]
    exact hplink ℓ h
  -- the pre-publication stores
  have hnd2w : nodeAt t2 nid = some nw := by
    rw [hnodeF nid (by omega)]
    exact hnodeNid
  obtain ⟨t3, hc3, hN_other, hN_keep, hN_set, hN_prio, hN_lev, hN_ins, hN_links, hN_data,
    hN_someN, hN_someL, hN_sz, hN_hd, hN_mx, hN_nl⟩ :=
    setNexts_main lvl t2 nid ss 0 (by
      intro j h1 h2
      refine ⟨?_, ?_⟩
      · rw [hssT j (by omega)]
        rfl
      · exact linkAt_isSome_of_lt t2 nid j nw hnd2w (by rw [hnwlen]; omega))
  simp only [Nat.zero_add] at hN_set hN_keep
  -- the level-0 publishing CAS
  have hp0link3 : linkAt t3 (pdT 0) 0 = some ⟨(BfT 0).head?, false⟩ := by
    rw [linkAt_congr t3 t2 (pdT 0) 0 (hN_other (pdT 0) (hpd_ne 0 (by omega)))]
    exact hplinkT 0 (by omega)
  set t4 : QState K V := setLink t3 (pdT 0) 0 ⟨some nid, false⟩ with ht4
  have hcas : compareExchange t3 (pdT 0) 0 ((BfT 0).head?) (some nid) = some (t4, true) := by
    rw [ht4]
    exact compareExchange_success t3 (pdT 0) 0 ((BfT 0).head?) (some nid) hp0link3
  -- the upper-level links
  obtain ⟨t5, hc5, hU_keep, hU_set, hU_prio, hU_lev, hU_ins, hU_links, hU_data,
    hU_someN, hU_someL, hU_sz, hU_hd, hU_mx, hU_nl⟩ :=
    linkUppers_main (lvl - 1) t4 (L+1) nid k ps ss 1 (f+1) (by omega) (by
      intro ℓ2 h1 h2
      refine ⟨pdT ℓ2, (BfT ℓ2).head?, hpsT ℓ2 (by omega), hssT ℓ2 (by omega), ?_⟩
      rw [ht4]
      have hstep : linkAt (setLink t3 (pdT 0) 0 ⟨some nid, false⟩) (pdT ℓ2) ℓ2
          = linkAt t3 (pdT ℓ2) ℓ2 := by
        rcases eq_or_ne (pdT ℓ2) (pdT 0) with heq2 | hne2
        · rw [heq2]
          exact linkAt_setLink_ne_level t3 (pdT 0) 0 ℓ2 _ (by omega)
        · exact linkAt_setLink_ne_node t3 (pdT 0) 0 (pdT ℓ2) ℓ2 _ hne2
      rw [hstep]
      rw [linkAt_congr t3 t2 (pdT ℓ2) ℓ2 (hN_other (pdT ℓ2) (hpd_ne ℓ2 (by omega)))]
      exact hplinkT ℓ2 (by omega))
  -- clearing the inserting flag
  have hnid5 : nodeAt t5 nid ≠ none := by
    intro hcn
    have h1 : (nodeAt t5 nid).isSome = (nodeAt t4 nid).isSome := hU_someN nid
    have h2 : (nodeAt t4 nid).isSome = (nodeAt t3 nid).isSome := by
      rw [ht4]
      exact nodeAt_isSome_setLink t3 (pdT 0) 0 nid _
    have h3 : (nodeAt t3 nid).isSome = (nodeAt t2 nid).isSome := hN_someN nid
    rw [hcn] at h1
    rw [hnd2w] at h3
    rw [h3] at h2
    rw [h2] at h1
    simp at h1
  obtain ⟨nd5, hnd5⟩ := Option.ne_none_iff_exists'.mp hnid5
  obtain ⟨t6, hc6, hD_other, hD_self, hD_nidlink, hD_prio, hD_lev, hD_links, hD_data,
    hD_ins, hD_someN, hD_someL, hD_mark, hD_ptr, hD_sz, hD_hd, hD_mx, hD_nl⟩ :=
    setDoneInserting_main t5 nid nd5 hnd5
  set sF : QState K V := { t6 with size := (t6.size + 1) % 2 ^ 32 } with hsF
  -- the computation equation
  have hploop : pushLoop (f+1) s1 (L+1) nid lvl k = some t5 := by
    unfold pushLoop
    rw [findLast_eq s1 (L+1) 0 k (t2, ps, ss) f hhead1 hcomp]
    simp only [Option.bind_eq_bind, Option.some_bind]
    rw [hc3]
    simp only [Option.bind_eq_bind, Option.some_bind]
    rw [hpsT 0 (by omega)]
    simp only [Option.bind_eq_bind, Option.some_bind]
    rw [hssT 0 (by omega)]
    simp only [Option.bind_eq_bind, Option.some_bind]
    rw [hcas]
    simp only [Option.bind_eq_bind, Option.some_bind]
    rw [if_pos trivial]
    exact hc5
  have hcompEq : push (f+1) L s k d lvl = some sF := by
    unfold push
    rw [waitGate_pass (f+1) s.maxSize s.size (by omega) hgate]
    simp only [Option.bind_eq_bind, Option.some_bind]
    simp only [← hniddef, ← hnw, ← hs1]
    rw [hploop]
    simp only [Option.bind_eq_bind, Option.some_bind]
    rw [hc6]
    simp only [Option.bind_eq_bind, Option.some_bind, Option.pure_def, Option.some_inj]
  -- link-cell summary for the final state
  have hL65 : ∀ a ℓ', linkAt sF a ℓ' = linkAt t5 a ℓ' := by
    intro a ℓ'
    have h6 : linkAt sF a ℓ' = linkAt t6 a ℓ' := rfl
    rw [h6]
    rcases eq_or_ne a nid with rfl | hne
    · exact hD_nidlink ℓ'
    · exact linkAt_congr t6 t5 a ℓ' (hD_other a hne)
  have hLkeep : ∀ a ℓ', a ≠ nid → (ℓ' < lvl → a ≠ pdT ℓ') →
      linkAt sF a ℓ' = linkAt t2 a ℓ' := by
    intro a ℓ' hne hguard
    rw [hL65 a ℓ']
    have h54 : linkAt t5 a ℓ' = linkAt t4 a ℓ' := by
      refine hU_keep a ℓ' ?_
      intro ℓ2 h1 h2 hc
      obtain ⟨hps2, hℓeq⟩ := hc
      subst hℓeq
      rw [hpsT ℓ' (by omega)] at hps2
      exact hguard (by omega) (Option.some_inj.mp hps2).symm
    rw [h54]
    have h43 : linkAt t4 a ℓ' = linkAt t3 a ℓ' := by
      rw [ht4]
      rcases eq_or_ne a (pdT 0) with rfl | hne0
      · have hℓ0 : ℓ' ≠ 0 := by
          intro hc
          subst hc
          exact hguard (by omega) rfl
        exact linkAt_setLink_ne_level t3 (pdT 0) 0 ℓ' _ hℓ0
      · exact linkAt_setLink_ne_node t3 (pdT 0) 0 a ℓ' _ hne0
    rw [h43]
    exact linkAt_congr t3 t2 a ℓ' (hN_other a hne)
  have hU_keep_nid : ∀ j, linkAt t5 nid j = linkAt t4 nid j := by
    intro j
    refine hU_keep nid j ?_
    intro ℓ2 h1 h2 hc
    have h3 := hpsT ℓ2 (by omega)
    rw [h3] at hc
    exact hpd_ne ℓ2 (by omega) (Option.some_inj.mp hc.1)
  have hLnid_lt : ∀ j, j < lvl → linkAt sF nid j = some ⟨(BfT j).head?, false⟩ := by
    intro j hj
    rw [hL65 nid j, hU_keep_nid j, ht4,
      linkAt_setLink_ne_node t3 (pdT 0) 0 nid j _ (Ne.symm (hpd_ne 0 (by omega)))]
    exact hN_set j ((BfT j).head?) (by omega) (by omega) (hssT j (by omega))
  have hLnid_ge : ∀ j, lvl ≤ j → linkAt sF nid j = none := by
    intro j hj
    rw [hL65 nid j, hU_keep_nid j, ht4,
      linkAt_setLink_ne_node t3 (pdT 0) 0 nid j _ (Ne.symm (hpd_ne 0 (by omega))),
      hN_keep j (Or.inr hj), linkAt_congr t2 s1 nid j (hnodeF nid (by omega))]
    unfold linkAt
    rw [hnodeNid]
    simp only [Option.some_bind]
    exact List.getElem?_eq_none (by rw [hnwlen]; omega)
  have hLpd : ∀ ℓa, ℓa < lvl → linkAt sF (pdT ℓa) ℓa = some ⟨some nid, false⟩ := by
    intro ℓa hℓa
    rw [hL65]
    rcases Nat.eq_zero_or_pos ℓa with rfl | hpos
    · have h54 : linkAt t5 (pdT 0) 0 = linkAt t4 (pdT 0) 0 := by
        refine hU_keep (pdT 0) 0 ?_
        intro ℓ2 h1 h2 hc
        exact absurd hc.2 (by omega)
      rw [h54, ht4]
      exact linkAt_setLink_self t3 (pdT 0) 0 ⟨some nid, false⟩ ⟨(BfT 0).head?, false⟩ hp0link3
    · exact hU_set ℓa (pdT ℓa) (by omega) (by omega) (hpsT ℓa (by omega))
  -- mark summary
  have hMnid : ∀ ℓ', markB sF nid ℓ' = false := by
    intro ℓ'
    rcases Nat.lt_or_ge ℓ' lvl with h | h
    · rw [markB_eq_of_linkAt sF nid ℓ' _ (hLnid_lt ℓ' h)]
    · exact markB_eq_of_linkAt_none sF nid ℓ' (hLnid_ge ℓ' h)
  have hMkeep : ∀ a ℓ', a ≠ nid → (ℓ' < lvl → a ≠ pdT ℓ') →
      markB sF a ℓ' = markB t2 a ℓ' := by
    intro a ℓ' h1 h2
    exact markB_link_congr sF t2 a ℓ' (hLkeep a ℓ' h1 h2)
  have hMold : ∀ a ℓ', a ≠ 0 → a ≠ nid → markB sF a ℓ' = markB s a ℓ' := by
    intro a ℓ' h0 hn
    by_cases hw : ℓ' < lvl ∧ a = pdT ℓ'
    · obtain ⟨hw1, hw2⟩ := hw
      subst hw2
      rw [markB_eq_of_linkAt sF (pdT ℓ') ℓ' _ (hLpd ℓ' hw1)]
      rcases hpd_cases ℓ' (by omega) with hz | ⟨-, hmk⟩
      · exact absurd hz h0
      · rw [hmarkA (pdT ℓ') ℓ' hn] at hmk
        exact hmk.symm
    · push_neg at hw
      rw [hMkeep a ℓ' hn hw, hmarkF a ℓ' h0, hmarkA a ℓ' hn]
  -- node-field summary
  have hPrioT : ∀ j, prioD sF j = prioD s1 j := by
    intro j
    have h6 : prioD sF j = prioD t6 j := rfl
    rw [h6, hD_prio j, hU_prio j, ht4, prioD_setLink t3 (pdT 0) 0 j _, hN_prio j, hprioF j]
  have hPrioOld : ∀ j, j ≠ nid → prioD sF j = prioD s j := by
    intro j h
    rw [hPrioT j, hprioA j h]
  have hPrioNid : prioD sF nid = k := by
    rw [hPrioT nid, prioD_eq_of_nodeAt s1 nid nw hnodeNid, hnw]
  have hLevT : ∀ j, levelOf sF j = levelOf s1 j := by
    intro j
    have h6 : levelOf sF j = levelOf t6 j := rfl
    rw [h6, hD_lev j, hU_lev j, ht4, levelOf_setLink t3 (pdT 0) 0 j _, hN_lev j, hlevF j]
  have hLevS1Nid : levelOf s1 nid = lvl := by
    rw [levelOf_eq_of_nodeAt s1 nid nw hnodeNid, hnw]
  have hLevNid : levelOf sF nid = lvl := by
    rw [hLevT nid, hLevS1Nid]
  have hLevOld : ∀ j, j ≠ nid → levelOf sF j = levelOf s j := by
    intro j h
    rw [hLevT j]
    exact levelOf_node_congr s1 s j (hnodeA j h)
  have hLinksT : ∀ j, linksLen sF j = linksLen s1 j := by
    intro j
    have h6 : linksLen sF j = linksLen t6 j := rfl
    rw [h6, hD_links j, hU_links j, ht4, linksLen_setLink t3 (pdT 0) 0 j _, hN_links j,
      hllF j]
  have hLinksNid : linksLen sF nid = lvl := by
    rw [hLinksT nid, linksLen_eq_of_nodeAt s1 nid nw hnodeNid, hnwlen]
  have hLinksOld : ∀ j, j ≠ nid → linksLen sF j = linksLen s j := by
    intro j h
    rw [hLinksT j]
    exact linksLen_node_congr s1 s j (hnodeA j h)
  have hInsOld : ∀ j, j ≠ nid → insB sF j = insB s j := by
    intro j h
    have h6 : insB sF j = insB t6 j := rfl
    rw [h6, insB_node_congr t6 t5 j (hD_other j h), hU_ins j, ht4,
      insB_setLink t3 (pdT 0) 0 j _, hN_ins j, hinsF j]
    exact insB_node_congr s1 s j (hnodeA j h)
  have hInsNid : insB sF nid = false := hD_ins
  have hDataT : ∀ j, dataD sF j = dataD t2 j := by
    intro j
    have h6 : dataD sF j = dataD t6 j := rfl
    rw [h6, hD_data j, hU_data j, ht4, dataD_setLink t3 (pdT 0) 0 j _, hN_data j]
  have hDataNid : dataD sF nid = d := by
    rw [hDataT nid, dataD_congr t2 s1 nid (hnodeF nid (by omega)),
      dataD_eq_of_nodeAt s1 nid nw hnodeNid, hnw]
  have hDataOld : ∀ j, j ≠ nid → j ≠ 0 → dataD sF j = dataD s j := by
    intro j h h0
    rw [hDataT j, dataD_congr t2 s1 j (hnodeF j h0), dataD_congr s1 s j (hnodeA j h)]
  have hSomeT : ∀ i, (nodeAt sF i).isSome = (nodeAt t2 i).isSome := by
    intro i
    have h6 : (nodeAt sF i).isSome = (nodeAt t6 i).isSome := rfl
    rw [h6, hD_someN i, hU_someN i, ht4, nodeAt_isSome_setLink t3 (pdT 0) 0 i _, hN_someN i]
  have hSomeOld : ∀ i, i ≠ nid → (nodeAt sF i).isSome = (nodeAt s i).isSome := by
    intro i hne
    rw [hSomeT i]
    rcases eq_or_ne i 0 with rfl | h0
    · obtain ⟨mp0h, hmp0h, -⟩ := hHC 0 (by omega)
      obtain ⟨ndt2, hndt2, -⟩ := linkAt_isSome_nodeAt t2 0 0 mp0h hmp0h
      rw [hndt2, hnd0]
      rfl
    · rw [hnodeF i h0, hnodeA i hne]
  have hSomeNid : (nodeAt sF nid).isSome = true := by
    rw [hSomeT nid, hnd2w]
    rfl
  -- scalar summary
  have hHd : sF.head = some 0 := by
    have h6 : sF.head = t6.head := rfl
    rw [h6, hD_hd, hU_hd, ht4, setLink_head t3 (pdT 0) 0 _, hN_hd, hhdF]
    exact hhead1
  have hMx : sF.maxSize = s.maxSize := by
    have h6 : sF.maxSize = t6.maxSize := rfl
    rw [h6, hD_mx, hU_mx, ht4, setLink_maxSize t3 (pdT 0) 0 _, hN_mx, hmxF]
  have hNL : sF.nodes.length = nid + 1 := by
    have h6 : sF.nodes.length = t6.nodes.length := rfl
    rw [h6, hD_nl, hU_nl, ht4, setLink_nodes_length t3 (pdT 0) 0 _, hN_nl, hnlF, hs1len]
  have hSz2 : sF.size = (s.size + 1) % 2 ^ 32 := by
    have h6 : sF.size = (t6.size + 1) % 2 ^ 32 := rfl
    rw [h6, hD_sz, hU_sz, ht4, setLink_size t3 (pdT 0) 0 _, hN_sz, hszF]
  -- cells of search-chain members survive into the final state
  have hCellPres : ∀ ℓa, ℓa < L + 1 → ∀ i ∈ e ℓa, (ℓa < lvl → i ≠ pdT ℓa) →
      ∃ mp ndw mpw, linkAt t2 i ℓa = some mp ∧ nodeAt sF i = some ndw ∧
        ndw.next[ℓa]? = some mpw ∧ mpw.ptr = mp.ptr := by
    intro ℓa hℓa i hi hne
    obtain ⟨mp, hmp⟩ := isChain_mem_link t2 ℓa _ (e ℓa) (hche ℓa hℓa) i hi
    have hiz : i ≠ nid := by
      have := heLt ℓa hℓa i hi
      omega
    have hpres : linkAt sF i ℓa = linkAt t2 i ℓa := hLkeep i ℓa hiz hne
    rw [hmp] at hpres
    obtain ⟨ndw, hndw, hcell⟩ := linkAt_isSome_nodeAt sF i ℓa mp hpres
    exact ⟨mp, ndw, mp, hmp, hndw, hcell, rfl⟩
  have hpdT_nil : ∀ ℓa, AfT ℓa = [] → pdT ℓa = 0 := by
    intro ℓa hA
    show ((AfT ℓa).getLast?).getD 0 = 0
    rw [hA]
    rfl
  have hpdT_mem : ∀ ℓa, AfT ℓa ≠ [] → pdT ℓa ∈ AfT ℓa := by
    intro ℓa hA
    show ((AfT ℓa).getLast?).getD 0 ∈ AfT ℓa
    exact getLastD_mem_of_ne_nil (AfT ℓa) 0 hA
  have hBne_pd : ∀ ℓa, ℓa < L + 1 → ∀ i ∈ BfT ℓa, i ≠ pdT ℓa := by
    intro ℓa hℓa i hi
    cases hAe : AfT ℓa with
    | nil =>
      rw [hpdT_nil ℓa hAe]
      refine (heValid ℓa hℓa i ?_).1
      rw [heAB ℓa hℓa]
      exact List.mem_append_right _ hi
    | cons a0 arest =>
      have hmemA : pdT ℓa ∈ AfT ℓa := hpdT_mem ℓa (by rw [hAe]; simp)
      have hnd2 : (AfT ℓa ++ BfT ℓa).Nodup := by
        rw [← heAB ℓa hℓa]
        exact heNodup ℓa hℓa
      have hdisj := (List.nodup_append.mp hnd2).2.2
      intro hc
      subst hc
      exact hdisj hmemA hi
  have hchainNew : ∀ ℓa, ℓa < lvl →
      IsChain sF ℓa ((AfT ℓa ++ nid :: BfT ℓa).head?) (AfT ℓa ++ nid :: BfT ℓa) := by
    intro ℓa hℓa
    have hℓa2 : ℓa < L + 1 := by omega
    have hnodupA : (AfT ℓa).Nodup := by
      have h1 : (AfT ℓa ++ BfT ℓa).Nodup := by
        rw [← heAB ℓa hℓa2]
        exact heNodup ℓa hℓa2
      exact (List.nodup_append.mp h1).1
    have hch0 : IsChain t2 ℓa ((AfT ℓa ++ BfT ℓa).head?) (AfT ℓa ++ BfT ℓa) := by
      have h1 := hche ℓa hℓa2
      have h2 := isChain_start t2 ℓa _ _ h1
      rw [h2] at h1
      rw [heAB ℓa hℓa2] at h1
      exact h1
    refine isChain_splice sF t2 ℓa nid (BfT ℓa) (hLnid_lt ℓa hℓa) ?_
      (AfT ℓa) hnodupA hch0 ?_ ?_
    · intro i hi
      have hiB : i ∈ e ℓa := by
        rw [heAB ℓa hℓa2]
        exact List.mem_append_right _ hi
      exact hCellPres ℓa hℓa2 i hiB (fun _ => hBne_pd ℓa hℓa2 i hi)
    · intro i hi hine
      have hiA : i ∈ e ℓa := by
        rw [heAB ℓa hℓa2]
        exact List.mem_append_left _ hi
      exact hCellPres ℓa hℓa2 i hiA (fun _ => hine)
    · intro hAne
      exact hLpd ℓa hℓa
  have hstartNew : ∀ ℓa, ℓa < lvl →
      ptrAt sF 0 ℓa = (AfT ℓa ++ nid :: BfT ℓa).head? := by
    intro ℓa hℓa
    have hℓa2 : ℓa < L + 1 := by omega
    cases hAe : AfT ℓa with
    | nil =>
      have hz := hpdT_nil ℓa hAe
      have h1 := hLpd ℓa hℓa
      rw [hz] at h1
      rw [ptrAt_eq_of_linkAt sF 0 ℓa _ h1]
      rfl
    | cons a0 arest =>
      have hnz : pdT ℓa ≠ 0 := by
        have hmemA : pdT ℓa ∈ AfT ℓa := hpdT_mem ℓa (by rw [hAe]; simp)
        have h2 : pdT ℓa ∈ e ℓa := by
          rw [heAB ℓa hℓa2]
          exact List.mem_append_left _ hmemA
        exact (heValid ℓa hℓa2 _ h2).1
      have hkeep : linkAt sF 0 ℓa = linkAt t2 0 ℓa :=
        hLkeep 0 ℓa (by omega) (fun _ hc => hnz hc.symm)
      have h1 : ptrAt sF 0 ℓa = ptrAt t2 0 ℓa := by
        unfold ptrAt
        rw [hkeep]
      rw [h1]
      have h2 := isChain_start t2 ℓa _ _ (hche ℓa hℓa2)
      rw [h2, heAB ℓa hℓa2, hAe]
      rfl
  have hchainKeep : ∀ ℓa, lvl ≤ ℓa → ℓa < L + 1 →
      IsChain sF ℓa (ptrAt sF 0 ℓa) (e ℓa) := by
    intro ℓa h1 h2
    have hstart : ptrAt sF 0 ℓa = ptrAt t2 0 ℓa := by
      unfold ptrAt
      rw [hLkeep 0 ℓa (by omega) (fun hlt => absurd hlt (by omega))]
    rw [hstart]
    refine isChain_congr_ptr sF t2 ℓa (e ℓa) _ ?_ (hche ℓa h2)
    intro i hi
    obtain ⟨mp, ndw, mpw, hmp, hndw, hcell, hptr⟩ :=
      hCellPres ℓa h2 i hi (fun hlt => absurd hlt (by omega))
    exact ⟨ndw, mpw, mp, hndw, hcell, hmp, hptr⟩
  -- the new per-level chains
  set c2 : Nat → List Nat := fun ℓa => if ℓa < lvl then AfT ℓa ++ nid :: BfT ℓa else e ℓa
    with hc2def
  have hc2lt : ∀ ℓa, ℓa < lvl → c2 ℓa = AfT ℓa ++ nid :: BfT ℓa := by
    intro ℓa h
    rw [hc2def]
    dsimp only
    rw [if_pos h]
  have hc2ge : ∀ ℓa, lvl ≤ ℓa → c2 ℓa = e ℓa := by
    intro ℓa h
    rw [hc2def]
    dsimp only
    rw [if_neg (by omega)]
  -- membership helpers on the bottom split
  have hene : ∀ ℓa (h : ℓa < L + 1), ∀ i ∈ e ℓa, i ≠ nid := by
    intro ℓa h i hi
    have := heLt ℓa h i hi
    omega
  have hcne : ∀ i ∈ c 0, i ≠ nid := by
    intro i hi
    have := hmemlt 0 (by omega) i hi
    omega
  have hmemA0 : ∀ i ∈ AfT 0, i ∈ e 0 := by
    intro i hi
    rw [heAB 0 (by omega)]
    exact List.mem_append_left _ hi
  have hmemB0 : ∀ i ∈ BfT 0, i ∈ e 0 := by
    intro i hi
    rw [heAB 0 (by omega)]
    exact List.mem_append_right _ hi
  have hvalC : ∀ i, i ∈ e 0 → i ≠ 0 ∧ (nodeAt sF i).isSome = true := by
    intro i hie
    obtain ⟨h0, hsm⟩ := heValid 0 (by omega) i hie
    refine ⟨h0, ?_⟩
    rw [hSomeOld i (hene 0 (by omega) i hie)]
    exact hsm
  have hMe : ∀ i, i ∈ e 0 → markB sF i 0 = markB s i 0 := by
    intro i hie
    exact hMold i 0 (heValid 0 (by omega) i hie).1 (hene 0 (by omega) i hie)
  -- the level filter over the old ids
  have hFLs : ∀ (l : List Nat) (ℓa : Nat), (∀ i ∈ l, i ≠ nid) →
      FL s1 l ℓa = FL s l ℓa := by
    intro l ℓa hl
    refine FL_congr s1 s l ℓa ?_
    intro i hi
    exact levelOf_node_congr s1 s i (hnodeA i (hl i hi))
  have hmarked_lt : ∀ i ∈ e 0, markB s1 i 0 = true → prioD s1 i < k := by
    obtain ⟨fm0, fu0, hfme, hfm, hfu⟩ := hMF 0 (by omega)
    intro i hi hm
    rw [hfme] at hi
    rcases List.mem_append.mp hi with h | h
    · exact (hfm i h).2
    · rw [hfu i h] at hm
      cases hm
  -- the dropped upper fronts are marked at the bottom too
  have hdmmk0 : ∀ ℓa, 1 ≤ ℓa → ℓa ≤ L → ∀ dmx, c ℓa = dmx ++ e ℓa →
      (∀ i ∈ dmx, markB s1 i ℓa = true) → ∀ i ∈ dmx, markB s i 0 = true := by
    intro ℓa h1 h2 dmx hdeq hdm i hi
    have hicl : i ∈ c ℓa := by rw [hdeq]; exact List.mem_append_left _ hi
    obtain ⟨hic0, hlev⟩ := invc_upper_mem hI ℓa h1 h2 i hicl
    have hm1 : markB s i ℓa = true := by
      rw [← hmarkA i ℓa (hcne i hic0)]
      exact hdm i hi
    rw [← hI.marks_levels i hic0 ℓa hlev]
    exact hm1
  have hkeyU : ∀ ℓa, ℓa < L + 1 → ∃ dmx, c ℓa = dmx ++ e ℓa ∧
      ∀ i ∈ dmx, markB s1 i ℓa = true := by
    intro ℓa h
    rcases hed ℓa h with heeq | ⟨dmℓ, -, hdmeq, hdmmk⟩
    · exact ⟨[], by rw [List.nil_append, heeq], by intro i hi; cases hi⟩
    · exact ⟨dmℓ, hdmeq, hdmmk⟩
  -- the level filter of the cleaned bottom recovers each upper chain
  have hii : ∀ ℓa, 1 ≤ ℓa → ℓa ≤ L → ∃ pre2, FL s1 (e 0) ℓa = pre2 ++ e ℓa ∧
      ∀ i ∈ pre2, markB s1 i 0 = true ∧ prioD s1 i < k := by
    intro ℓa h1 h2
    obtain ⟨pre0, hpre0, hpre0m⟩ := hI.upper_eq ℓa h1 h2
    obtain ⟨dmx, hdeq, hdmm⟩ := hkeyU ℓa (by omega)
    rcases hed 0 (by omega) with he0eq | ⟨dm0, hdm0ne, hdm0eq, hdm0m⟩
    · refine ⟨pre0 ++ dmx, ?_, ?_⟩
      · rw [he0eq, hFLs (c 0) ℓa hcne, hpre0, hdeq, List.append_assoc]
      · intro i hipre
        have hic0 : i ∈ c 0 := by
          rcases List.mem_append.mp hipre with hip | hid2
          · have h3 : i ∈ FL s (c 0) ℓa := by
              rw [hpre0]
              exact List.mem_append_left _ hip
            exact ((FL_mem s (c 0) ℓa i).mp h3).1
          · have hicl : i ∈ c ℓa := by rw [hdeq]; exact List.mem_append_left _ hid2
            exact invc_mem0 hI ℓa h2 i hicl
        have hi0mk : markB s i 0 = true := by
          rcases List.mem_append.mp hipre with hip | hid2
          · exact hpre0m i hip
          · exact hdmmk0 ℓa h1 h2 dmx hdeq hdmm i hid2
        have hm1 : markB s1 i 0 = true := by
          rw [hmarkA i 0 (hcne i hic0)]
          exact hi0mk
        exact ⟨hm1, hmarked_lt i (by rw [he0eq]; exact hic0) hm1⟩
    · have hne0 : e 0 ≠ c 0 := by
        intro hcEq
        have hlen := congrArg List.length hdm0eq
        rw [List.length_append] at hlen
        have h5 : (e 0).length = (c 0).length := by rw [hcEq]
        exact hdm0ne (List.eq_nil_of_length_eq_zero (by omega))
      have hub := hCb (by omega) hne0
      refine ⟨[], ?_, by intro i hi; cases hi⟩
      rw [List.nil_append]
      have hsplit2 : FL s dm0 ℓa ++ FL s (e 0) ℓa = (pre0 ++ dmx) ++ e ℓa := by
        rw [← FL_append, ← hdm0eq, hpre0, hdeq, List.append_assoc]
      have hP1 : ∀ i ∈ FL s dm0 ℓa, markB s i 0 = true := by
        intro i hi
        have h3 : i ∈ dm0 := (FL_sublist s dm0 ℓa).subset hi
        have hic0 : i ∈ c 0 := by rw [hdm0eq]; exact List.mem_append_left _ h3
        rw [← hmarkA i 0 (hcne i hic0)]
        exact hdm0m i h3
      have hU1 : ∀ i ∈ FL s (e 0) ℓa, markB s i 0 = false := by
        intro i hi
        have h3 : i ∈ e 0 := (FL_sublist s (e 0) ℓa).subset hi
        have h4 := hub 0 (by omega) i h3
        rw [hmarkA i 0 (hene 0 (by omega) i h3)] at h4
        exact h4
      have hP2 : ∀ i ∈ pre0 ++ dmx, markB s i 0 = true := by
        intro i hi
        rcases List.mem_append.mp hi with h | h
        · exact hpre0m i h
        · exact hdmmk0 ℓa h1 h2 dmx hdeq hdmm i h
      have hU2 : ∀ i ∈ e ℓa, markB s i 0 = false := by
        intro i hi
        have hicl : i ∈ c ℓa := heMem ℓa (by omega) i hi
        obtain ⟨hic0, hlev⟩ := invc_upper_mem hI ℓa h1 h2 i hicl
        have h4 := hub ℓa (by omega) i hi
        rw [hmarkA i ℓa (hcne i hic0)] at h4
        rw [← hI.marks_levels i hic0 ℓa hlev]
        exact h4
      have hsu := split_unique (fun i => markB s i 0) (FL s dm0 ℓa) (FL s (e 0) ℓa)
        (pre0 ++ dmx) (e ℓa) hsplit2 hP1 hU1 hP2 hU2
      rw [hFLs (e 0) ℓa (hene 0 (by omega))]
      exact hsu.2
  -- splitting the filter along the priority split
  have hsplitAB : ∀ ℓa, 1 ≤ ℓa → ℓa ≤ L → ∃ pre2,
      FL s1 (AfT 0) ℓa = pre2 ++ AfT ℓa ∧ FL s1 (BfT 0) ℓa = BfT ℓa ∧
      ∀ i ∈ pre2, markB s1 i 0 = true ∧ prioD s1 i < k := by
    intro ℓa h1 h2
    obtain ⟨pre2, hFLe, hpre2m⟩ := hii ℓa h1 h2
    have heq2 : FL s1 (AfT 0) ℓa ++ FL s1 (BfT 0) ℓa = (pre2 ++ AfT ℓa) ++ BfT ℓa := by
      rw [← FL_append, ← heAB 0 (by omega), hFLe, heAB ℓa (by omega), List.append_assoc]
    have hP1 : ∀ i ∈ FL s1 (AfT 0) ℓa, decide (prioD s1 i < k) = true := by
      intro i hi
      rw [decide_eq_true_eq]
      exact hAltT 0 (by omega) i ((FL_sublist s1 (AfT 0) ℓa).subset hi)
    have hU1 : ∀ i ∈ FL s1 (BfT 0) ℓa, decide (prioD s1 i < k) = false := by
      intro i hi
      rw [decide_eq_false_iff_not]
      exact hBgeT 0 (by omega) i ((FL_sublist s1 (BfT 0) ℓa).subset hi)
    have hP2 : ∀ i ∈ pre2 ++ AfT ℓa, decide (prioD s1 i < k) = true := by
      intro i hi
      rw [decide_eq_true_eq]
      rcases List.mem_append.mp hi with h | h
      · exact (hpre2m i h).2
      · exact hAltT ℓa (by omega) i h
    have hU2 : ∀ i ∈ BfT ℓa, decide (prioD s1 i < k) = false := by
      intro i hi
      rw [decide_eq_false_iff_not]
      exact hBgeT ℓa (by omega) i hi
    have hsu := split_unique (fun i => decide (prioD s1 i < k)) _ _ _ _ heq2 hP1 hU1 hP2 hU2
    exact ⟨pre2, hsu.1, hsu.2, hpre2m⟩
  -- live id bookkeeping
  have hliveS : liveIds s (c 0) = liveIds s (AfT 0) ++ liveIds s (BfT 0) := by
    have h2 : liveIds s (e 0) = liveIds s (AfT 0) ++ liveIds s (BfT 0) := by
      rw [heAB 0 (by omega), liveIds_append]
    rcases hed 0 (by omega) with heq | ⟨dm0, -, hdeq, hdm⟩
    · rw [← heq]
      exact h2
    · have hmk : ∀ i ∈ dm0, markB s i 0 = true := by
        intro i hi
        have hic0 : i ∈ c 0 := by rw [hdeq]; exact List.mem_append_left _ hi
        rw [← hmarkA i 0 (hcne i hic0)]
        exact hdm i hi
      rw [hdeq, liveIds_append, liveIds_all_marked s dm0 hmk, List.nil_append]
      exact h2
  have hmA0 : ∀ i ∈ AfT 0, markB sF i 0 = markB s i 0 := fun i hi => hMe i (hmemA0 i hi)
  have hmB0 : ∀ i ∈ BfT 0, markB sF i 0 = markB s i 0 := fun i hi => hMe i (hmemB0 i hi)
  have hliveF : liveIds sF (c2 0) = liveIds s (AfT 0) ++ nid :: liveIds s (BfT 0) := by
    rw [hc2lt 0 (by omega)]
    rw [show AfT 0 ++ nid :: BfT 0 = (AfT 0 ++ [nid]) ++ BfT 0 from
      (List.append_assoc (AfT 0) [nid] (BfT 0)).symm]
    rw [liveIds_append, liveIds_append]
    rw [liveIds_all_unmarked sF [nid] (by
      intro i hi
      rw [List.mem_singleton] at hi
      subst hi
      exact hMnid 0)]
    rw [liveIds_congr sF s (AfT 0) hmA0, liveIds_congr sF s (BfT 0) hmB0]
    rw [List.append_assoc]
    rfl
  refine ⟨sF, c2, liveIds s (AfT 0), liveIds s (BfT 0), hcompEq, ?_, hliveS, ?_, ?_,
    hliveF, hPrioNid, hDataNid, hPrioOld, hDataOld, hNL, hMx, hSz2⟩
  · constructor
    case head_some => exact hHd
    case head_node =>
      have hsome0 : (nodeAt sF 0).isSome = true := by
        rw [hSomeOld 0 (by omega), hnd0]
        rfl
      obtain ⟨ndF, hndF⟩ := Option.isSome_iff_exists.mp hsome0
      refine ⟨ndF, hndF, ?_, ?_⟩
      · have h1 : levelOf sF 0 = levelOf s 0 := hLevOld 0 (by omega)
        rw [levelOf_eq_of_nodeAt sF 0 ndF hndF, levelOf_eq_of_nodeAt s 0 nd0 hnd0] at h1
        rw [h1, hnd0lev]
      · have h1 : insB sF 0 = insB s 0 := hInsOld 0 (by omega)
        rw [insB_eq_of_nodeAt sF 0 ndF hndF, insB_eq_of_nodeAt s 0 nd0 hnd0] at h1
        rw [h1, hnd0ins]
    case head_unmarked =>
      intro ℓa hℓa
      by_cases hw : ℓa < lvl ∧ pdT ℓa = 0
      · refine ⟨⟨some nid, false⟩, ?_, rfl⟩
        have h1 := hLpd ℓa hw.1
        rw [hw.2] at h1
        exact h1
      · have hguard : ℓa < lvl → (0:Nat) ≠ pdT ℓa := by
          intro h1 hc
          exact hw ⟨h1, hc.symm⟩
        obtain ⟨mp, hmp, hmk⟩ := hHC ℓa (by omega)
        exact ⟨mp, by rw [hLkeep 0 ℓa (by omega) hguard]; exact hmp, hmk⟩
    case links_len =>
      intro i nd hnd
      rcases eq_or_ne i nid with rfl | hne
      · have h1 : linksLen sF nid = lvl := hLinksNid
        have h2 : levelOf sF nid = lvl := hLevNid
        rw [linksLen_eq_of_nodeAt sF nid nd hnd] at h1
        rw [levelOf_eq_of_nodeAt sF nid nd hnd] at h2
        rw [h1, h2]
      · have hsmF : (nodeAt sF i).isSome = true := by rw [hnd]; rfl
        have hsm : (nodeAt s i).isSome = true := by
          rw [← hSomeOld i hne]
          exact hsmF
        obtain ⟨nds, hnds⟩ := Option.isSome_iff_exists.mp hsm
        have h1 : linksLen sF i = linksLen s i := hLinksOld i hne
        rw [linksLen_eq_of_nodeAt sF i nd hnd, linksLen_eq_of_nodeAt s i nds hnds] at h1
        have h2 : levelOf sF i = levelOf s i := hLevOld i hne
        rw [levelOf_eq_of_nodeAt sF i nd hnd, levelOf_eq_of_nodeAt s i nds hnds] at h2
        rw [h1, h2]
        exact hI.links_len i nds hnds
    case all_wf =>
      intro i nd hnd hi0
      rcases eq_or_ne i nid with rfl | hne
      · have h2 : levelOf sF nid = lvl := hLevNid
        rw [levelOf_eq_of_nodeAt sF nid nd hnd] at h2
        have h3 : insB sF nid = false := hInsNid
        rw [insB_eq_of_nodeAt sF nid nd hnd] at h3
        exact ⟨by omega, by omega, h3⟩
      · have hsmF : (nodeAt sF i).isSome = true := by rw [hnd]; rfl
        have hsm : (nodeAt s i).isSome = true := by
          rw [← hSomeOld i hne]
          exact hsmF
        obtain ⟨nds, hnds⟩ := Option.isSome_iff_exists.mp hsm
        obtain ⟨w1, w2, w3⟩ := hI.all_wf i nds hnds hi0
        have h2 : levelOf sF i = levelOf s i := hLevOld i hne
        rw [levelOf_eq_of_nodeAt sF i nd hnd, levelOf_eq_of_nodeAt s i nds hnds] at h2
        have h3 : insB sF i = insB s i := hInsOld i hne
        rw [insB_eq_of_nodeAt sF i nd hnd, insB_eq_of_nodeAt s i nds hnds] at h3
        exact ⟨by omega, by omega, by rw [h3, w3]⟩
    case chain0 =>
      rw [hc2lt 0 (by omega), hstartNew 0 (by omega)]
      exact hchainNew 0 (by omega)
    case chain_up =>
      intro ℓa h1 h2
      rcases Nat.lt_or_ge ℓa lvl with hlt | hge
      · rw [hc2lt ℓa hlt, hstartNew ℓa hlt]
        exact hchainNew ℓa hlt
      · rw [hc2ge ℓa hge]
        exact hchainKeep ℓa hge (by omega)
    case c0_valid =>
      intro i hi
      rw [hc2lt 0 (by omega)] at hi
      rcases List.mem_append.mp hi with hiA | hiC
      · exact hvalC i (hmemA0 i hiA)
      · rcases List.mem_cons.mp hiC with rfl | hiB
        · exact ⟨by omega, hSomeNid⟩
        · exact hvalC i (hmemB0 i hiB)
    case nodup0 =>
      rw [hc2lt 0 (by omega)]
      have hnd2 : (AfT 0 ++ BfT 0).Nodup := by
        rw [← heAB 0 (by omega)]
        exact heNodup 0 (by omega)
      have hnidmem : nid ∉ AfT 0 ++ BfT 0 := by
        intro hcm
        have h3 : nid ∈ e 0 := by
          rw [heAB 0 (by omega)]
          exact hcm
        have := heLt 0 (by omega) nid h3
        omega
      rw [List.nodup_middle]
      exact List.nodup_cons.mpr ⟨hnidmem, hnd2⟩
    case sorted0 =>
      rw [hc2lt 0 (by omega)]
      have hsorted_e0 : SortedIds s1 (e 0) :=
        sortedIds_sublist s1 (e 0) (c 0) (hesub 0 (by omega)) (hsor1 0 (by omega))
      have hPwE : List.Pairwise (fun i j => prioD s1 i ≤ prioD s1 j) (AfT 0 ++ BfT 0) := by
        have h1 := sortedIds_pairwise s1 (e 0) hsorted_e0
        rw [heAB 0 (by omega)] at h1
        exact h1
      rw [List.pairwise_append] at hPwE
      refine sortedIds_of_pairwise sF _ ?_
      rw [List.pairwise_append]
      refine ⟨?_, ?_, ?_⟩
      · exact hPwE.1.imp (fun {a b} hab => by rw [hPrioT a, hPrioT b]; exact hab)
      · rw [List.pairwise_cons]
        refine ⟨?_, ?_⟩
        · intro b hb
          rw [hPrioNid, hPrioT b]
          exact le_of_not_lt (hBgeT 0 (by omega) b hb)
        · exact hPwE.2.1.imp (fun {a b} hab => by rw [hPrioT a, hPrioT b]; exact hab)
      · intro a ha b hb
        have hak : prioD s1 a < k := hAltT 0 (by omega) a ha
        rcases List.mem_cons.mp hb with rfl | hbB
        · rw [hPrioT a, hPrioNid]
          exact le_of_lt hak
        · rw [hPrioT a, hPrioT b]
          exact le_trans (le_of_lt hak) (le_of_not_lt (hBgeT 0 (by omega) b hbB))
    case marked_front =>
      obtain ⟨fm0, fu0, hfme, hfm, hfu⟩ := hMF 0 (by omega)
      have heq2 : AfT 0 ++ BfT 0 = fm0 ++ fu0 := by
        rw [← heAB 0 (by omega)]
        exact hfme
      have hfmF : ∀ i ∈ fm0, markB sF i 0 = true := by
        intro i hi
        have hie : i ∈ e 0 := by rw [hfme]; exact List.mem_append_left _ hi
        rw [hMe i hie, ← hmarkA i 0 (hene 0 (by omega) i hie)]
        exact (hfm i hi).1
      have hfuF : ∀ i ∈ fu0, markB sF i 0 = false := by
        intro i hi
        have hie : i ∈ e 0 := by rw [hfme]; exact List.mem_append_right _ hi
        rw [hMe i hie, ← hmarkA i 0 (hene 0 (by omega) i hie)]
        exact hfu i hi
      rcases List.append_eq_append_iff.mp heq2 with ⟨a', ha1, ha2⟩ | ⟨c', hc1, hc2'⟩
      · have ha'nil : a' = [] := by
          cases a' with
          | nil => rfl
          | cons x xs =>
            have hx1 : prioD s1 x < k :=
              (hfm x (by rw [ha1]; exact List.mem_append_right _ (by simp))).2
            have hx2 : ¬ prioD s1 x < k := hBgeT 0 (by omega) x (by rw [ha2]; simp)
            exact absurd hx1 hx2
        subst ha'nil
        rw [List.append_nil] at ha1
        rw [List.nil_append] at ha2
        refine ⟨fm0, nid :: fu0, ?_, hfmF, ?_⟩
        · rw [hc2lt 0 (by omega), ha1, ha2]
        · intro i hi
          rcases List.mem_cons.mp hi with rfl | h
          · exact hMnid 0
          · exact hfuF i h
      · refine ⟨fm0, c' ++ nid :: BfT 0, ?_, hfmF, ?_⟩
        · rw [hc2lt 0 (by omega), hc1, List.append_assoc]
        · intro i hi
          rcases List.mem_append.mp hi with h | h
          · exact hfuF i (by rw [hc2']; exact List.mem_append_left _ h)
          · rcases List.mem_cons.mp h with rfl | h2
            · exact hMnid 0
            · exact hfuF i (by rw [hc2']; exact List.mem_append_right _ h2)
    case marks_levels =>
      have hmlOld : ∀ i, i ∈ e 0 → ∀ ℓa, ℓa < levelOf sF i →
          markB sF i ℓa = markB sF i 0 := by
        intro i hie ℓa hℓa
        have h0 := (heValid 0 (by omega) i hie).1
        have hn := hene 0 (by omega) i hie
        rw [hMold i ℓa h0 hn, hMold i 0 h0 hn]
        rw [hLevOld i hn] at hℓa
        exact hI.marks_levels i (heMem 0 (by omega) i hie) ℓa hℓa
      intro i hi ℓa hℓa
      rw [hc2lt 0 (by omega)] at hi
      rcases List.mem_append.mp hi with hiA | hiC
      · exact hmlOld i (hmemA0 i hiA) ℓa hℓa
      · rcases List.mem_cons.mp hiC with rfl | hiB
        · rw [hMnid ℓa, hMnid 0]
        · exact hmlOld i (hmemB0 i hiB) ℓa hℓa
    case upper_eq =>
      intro ℓa h1 h2
      obtain ⟨pre2, hA2, hB2, hpre2m⟩ := hsplitAB ℓa h1 h2
      have hpre2sub : ∀ i ∈ pre2, i ∈ AfT 0 := by
        intro i hi
        have h3 : i ∈ FL s1 (AfT 0) ℓa := by
          rw [hA2]
          exact List.mem_append_left _ hi
        exact (FL_sublist s1 (AfT 0) ℓa).subset h3
      have hpre2mk : ∀ i ∈ pre2, markB sF i 0 = true := by
        intro i hi
        have hie : i ∈ e 0 := hmemA0 i (hpre2sub i hi)
        rw [hMe i hie, ← hmarkA i 0 (hene 0 (by omega) i hie)]
        exact (hpre2m i hi).1
      have hFLF : ∀ (l : List Nat) (ℓb : Nat), FL sF l ℓb = FL s1 l ℓb :=
        fun l ℓb => FL_congr sF s1 l ℓb (fun i _ => hLevT i)
      refine ⟨pre2, ?_, hpre2mk⟩
      rw [hc2lt 0 (by omega)]
      rw [show AfT 0 ++ nid :: BfT 0 = (AfT 0 ++ [nid]) ++ BfT 0 from
        (List.append_assoc (AfT 0) [nid] (BfT 0)).symm]
      rw [FL_append, FL_append, hFLF (AfT 0) ℓa, hFLF [nid] ℓa, hFLF (BfT 0) ℓa, hA2, hB2]
      rcases Nat.lt_or_ge ℓa lvl with hlt | hge
      · have hnidFL : FL s1 [nid] ℓa = [nid] := by
          unfold FL
          simp [hLevS1Nid, hlt]
        rw [hnidFL, hc2lt ℓa hlt]
        simp only [List.append_assoc, List.cons_append, List.nil_append]
      · have hnidFL : FL s1 [nid] ℓa = [] := by
          unfold FL
          simp [hLevS1Nid, Nat.not_lt.mpr hge]
        rw [hnidFL, hc2ge ℓa hge, List.append_nil, heAB ℓa (by omega), List.append_assoc]
    case complete0 =>
      intro i nd hnd hi0 hm
      rcases eq_or_ne i nid with rfl | hne
      · rw [hc2lt 0 (by omega)]
        exact List.mem_append_right _ (List.mem_cons_self nid _)
      · have hm_s : markB s i 0 = false := by
          rw [← hMold i 0 hi0 hne]
          exact hm
        have hsmF : (nodeAt sF i).isSome = true := by rw [hnd]; rfl
        have hsm : (nodeAt s i).isSome = true := by
          rw [← hSomeOld i hne]
          exact hsmF
        obtain ⟨nds, hnds⟩ := Option.isSome_iff_exists.mp hsm
        have hic0 : i ∈ c 0 := hI.complete0 i nds hnds hi0 hm_s
        rw [hc2lt 0 (by omega)]
        have hie0 : i ∈ e 0 := by
          rcases hed 0 (by omega) with heq | ⟨dm0, -, hdeq, hdm⟩
          · rw [heq]
            exact hic0
          · rw [hdeq] at hic0
            rcases List.mem_append.mp hic0 with h | h
            · have h4 := hdm i h
              rw [hmarkA i 0 hne] at h4
              rw [h4] at hm_s
              cases hm_s
            · exact h
        rw [heAB 0 (by omega)] at hie0
        rcases List.mem_append.mp hie0 with h | h
        · exact List.mem_append_left _ h
        · exact List.mem_append_right _ (List.mem_cons_of_mem _ h)
    case size_eq =>
      rw [hSz2, hI.size_eq, Nat.mod_add_mod]
      have hlen : (liveIds sF (c2 0)).length = (liveIds s (c 0)).length + 1 := by
        rw [hliveF, hliveS]
        simp only [List.length_append, List.length_cons]
        omega
      rw [hlen]
  · intro x hx
    have hxA : x ∈ AfT 0 := List.mem_of_mem_filter hx
    have hie : x ∈ e 0 := hmemA0 x hxA
    rw [← hprioA x (hene 0 (by omega) x hie)]
    exact hAltT 0 (by omega) x hxA
  · intro x hx
    have hxB : x ∈ BfT 0 := List.mem_of_mem_filter hx
    have hie : x ∈ e 0 := hmemB0 x hxB
    rw [← hprioA x (hene 0 (by omega) x hie)]
    exact hBgeT 0 (by omega) x hxB

/-! ## The invariant at a fresh queue, and its consequences -/

/-- A freshly constructed queue satisfies the quiescent invariant with all
chains empty. -/
theorem invc_initQ [Inhabited K] [Inhabited V] (L ms : Nat) :
    InvC L (initQ L ms : QState K V) (fun _ => []) := by
  have hnode : ∀ (i : Nat) (nd : Node K V),
      nodeAt (initQ L ms : QState K V) i = some nd →
      i = 0 ∧ nd = ⟨default, default, L+1, List.replicate (L+1) ⟨none, false⟩, false⟩ := by
    intro i nd h
    unfold nodeAt initQ at h
    have hi : i < 1 := (List.getElem?_eq_some.mp h).1
    interval_cases i
    simp at h
    exact ⟨rfl, h.symm⟩
  constructor
  case head_some => rfl
  case head_node =>
    refine ⟨⟨default, default, L+1, List.replicate (L+1) ⟨none, false⟩, false⟩, ?_, rfl, rfl⟩
    rfl
  case head_unmarked =>
    intro ℓ hℓ
    exact ⟨⟨none, false⟩, initQ_links L ms ℓ (by omega), rfl⟩
  case links_len =>
    intro i nd h
    obtain ⟨-, h2⟩ := hnode i nd h
    subst h2
    simp
  case all_wf =>
    intro i nd h hi0
    obtain ⟨h1, -⟩ := hnode i nd h
    exact absurd h1 hi0
  case chain0 =>
    have h1 : ptrAt (initQ L ms : QState K V) 0 0 = none :=
      ptrAt_eq_of_linkAt _ 0 0 ⟨none, false⟩ (initQ_links L ms 0 (by omega))
    rw [h1]
    exact IsChain.nil _ _
  case chain_up =>
    intro ℓ h1 h2
    have h3 : ptrAt (initQ L ms : QState K V) 0 ℓ = none :=
      ptrAt_eq_of_linkAt _ 0 ℓ ⟨none, false⟩ (initQ_links L ms ℓ (by omega))
    rw [h3]
    exact IsChain.nil _ _
  case c0_valid => intro i hi; cases hi
  case nodup0 => exact List.nodup_nil
  case sorted0 => exact List.chain'_nil
  case marked_front =>
    refine ⟨[], [], rfl, ?_, ?_⟩
    · intro i hi
      exact absurd hi (List.not_mem_nil i)
    · intro i hi
      exact absurd hi (List.not_mem_nil i)
  case marks_levels =>
    intro i hi
    exact absurd hi (List.not_mem_nil i)
  case upper_eq =>
    intro ℓ h1 h2
    refine ⟨[], rfl, ?_⟩
    intro i hi
    exact absurd hi (List.not_mem_nil i)
  case complete0 =>
    intro i nd h hi0 hm
    exact absurd (hnode i nd h).1 hi0
  case size_eq => rfl

/-- The quiescent invariant yields the C2 bottom-chain property. -/
theorem inv_bottomLive [Inhabited K] (L : Nat) (s : QState K V) (h : Inv L s) :
    BottomLive s := by
  obtain ⟨c, hI⟩ := h
  refine ⟨0, c 0, hI.head_some, hI.chain0, hI.nodup0, hI.sorted0, ?_, ?_, ?_⟩
  · intro i nd hnd hne hm
    have h1 : i ∈ c 0 := hI.complete0 i nd hnd hne hm
    unfold liveIds
    refine List.mem_filter.mpr ⟨h1, ?_⟩
    rw [hm]
    rfl
  · intro i hi
    have h1 : i ∈ c 0 := List.mem_of_mem_filter hi
    have h2 := List.of_mem_filter hi
    obtain ⟨h3, h4⟩ := hI.c0_valid i h1
    refine ⟨h3, h4, ?_⟩
    simpa using h2
  · exact sortedIds_sublist s (liveIds s (c 0)) (c 0) (List.filter_sublist (c 0)) hI.sorted0

/-- `TryPop` under the bare invariant: the per-level marked/unmarked split
is produced internally.  The returned chain family `cu` is the family of
unmarked suffixes; its bottom level is the live part of the old bottom
chain. -/
theorem tryPop_inv [Inhabited K] [Inhabited V] (L : Nat) (s : QState K V)
    (c : Nat → List Nat) (hI : InvC L s c) (fuel : Nat)
    (hfuel : s.nodes.length + 1 < fuel) (pr0 : K) (d0 : V) :
    ∃ cu : Nat → List Nat, cu 0 = liveIds s (c 0) ∧
      ((cu 0 = [] → ∃ t1, tryPop fuel L s pr0 d0 = some (t1, false, pr0, d0) ∧
          InvC L t1 cu ∧ liveIds t1 (cu 0) = cu 0 ∧ t1.size = s.size ∧
          (∀ j, prioD t1 j = prioD s j)) ∧
       (∀ f frest, cu 0 = f :: frest →
          ∃ s2, tryPop fuel L s pr0 d0 = some (s2, true, prioD s f, dataD s f) ∧
            InvC L s2 cu ∧ liveIds s2 (cu 0) = frest ∧
            (∀ j, prioD s2 j = prioD s j) ∧ (∀ j, j ≠ 0 → dataD s2 j = dataD s j) ∧
            s2.size = (s.size + (2^32 - 1)) % 2^32 ∧
            s2.nodes.length = s.nodes.length ∧ s2.maxSize = s.maxSize)) := by
  have hspl : ∀ ℓ, ℓ ≤ L → ∃ dm du, c ℓ = dm ++ du ∧
      (∀ i ∈ dm, markB s i ℓ = true) ∧ ∀ i ∈ du, markB s i ℓ = false :=
    fun ℓ h => invc_split hI ℓ h
  choose cmf cuf hcspl hcm hcu using hspl
  set cmT : Nat → List Nat := fun ℓ => if h : ℓ ≤ L then cmf ℓ h else [] with hcmT
  set cuT : Nat → List Nat := fun ℓ => if h : ℓ ≤ L then cuf ℓ h else [] with hcuT
  have hcmTe : ∀ ℓ (h : ℓ ≤ L), cmT ℓ = cmf ℓ h := by
    intro ℓ h
    rw [hcmT]
    exact dif_pos h
  have hcuTe : ∀ ℓ (h : ℓ ≤ L), cuT ℓ = cuf ℓ h := by
    intro ℓ h
    rw [hcuT]
    exact dif_pos h
  have hsplit2 : ∀ ℓ, ℓ ≤ L → c ℓ = cmT ℓ ++ cuT ℓ := by
    intro ℓ h
    rw [hcmTe ℓ h, hcuTe ℓ h]
    exact hcspl ℓ h
  have hm2 : ∀ ℓ, ℓ ≤ L → ∀ i ∈ cmT ℓ, markB s i ℓ = true := by
    intro ℓ h i hi
    rw [hcmTe ℓ h] at hi
    exact hcm ℓ h i hi
  have hu2 : ∀ ℓ, ℓ ≤ L → ∀ i ∈ cuT ℓ, markB s i ℓ = false := by
    intro ℓ h i hi
    rw [hcuTe ℓ h] at hi
    exact hcu ℓ h i hi
  have hlive : cuT 0 = liveIds s (c 0) := by
    rw [hsplit2 0 (by omega), liveIds_append,
      liveIds_all_marked s (cmT 0) (hm2 0 (by omega)),
      liveIds_all_unmarked s (cuT 0) (hu2 0 (by omega)), List.nil_append]
  exact ⟨cuT, hlive,
    tryPop_main L s c cmT cuT hI hsplit2 hm2 hu2 fuel hfuel pr0 d0⟩

/-- Draining pops: starting from an invariant state whose live bottom ids
are `M`, `M.length` many `TryPop` calls all return `true` and deliver the
priorities of `M` in chain order; the final state is invariant with no live
node. -/
theorem popN_drain [Inhabited K] [Inhabited V] :
    ∀ (M : List Nat) (L : Nat) (s : QState K V) (c : Nat → List Nat),
      InvC L s c → liveIds s (c 0) = M →
      ∀ fuel, s.nodes.length + 1 < fuel → ∀ pr0 d0,
      ∃ s2 out c2, popN fuel L s M.length pr0 d0 = some (s2, out) ∧
        InvC L s2 c2 ∧ liveIds s2 (c2 0) = [] ∧
        s2.nodes.length = s.nodes.length ∧
        out.map Prod.fst = List.replicate M.length true ∧
        out.map Prod.snd = M.map (prioD s) := by
  intro M
  induction M with
  | nil =>
    intro L s c hI hlive fuel hfuel pr0 d0
    exact ⟨s, [], c, rfl, hI, hlive, rfl, rfl, rfl⟩
  | cons f frest ih =>
    intro L s c hI hlive fuel hfuel pr0 d0
    obtain ⟨cu, hcu0, -, hpop⟩ := tryPop_inv L s c hI fuel hfuel pr0 d0
    obtain ⟨s2, hcomp, hI2, hlive2, hprio2, hdata2, hsz2, hnl2, hmx2⟩ :=
      hpop f frest (by rw [hcu0, hlive])
    obtain ⟨s3, out, c3, hcomp3, hI3, hlive3, hnl3, hfst3, hsnd3⟩ :=
      ih L s2 cu hI2 hlive2 fuel (by omega) (prioD s f) (dataD s f)
    refine ⟨s3, (true, prioD s f) :: out, c3, ?_, hI3, hlive3, by omega, ?_, ?_⟩
    · show (tryPop fuel L s pr0 d0).bind _ = _
      rw [hcomp]
      simp only [Option.some_bind]
      rw [hcomp3]
      rfl
    · simp only [List.map_cons, List.length_cons, List.replicate_succ, hfst3]
    · simp only [List.map_cons, hsnd3]
      congr 1
      refine List.map_congr_left ?_
      intro x hx
      exact hprio2 x

/-- Pushing a list of keys: each push succeeds, the invariant is preserved
and the live priorities gain exactly the pushed keys (as a multiset). -/
theorem pushSeq_main [Inhabited K] [Inhabited V] :
    ∀ (ks : List (K × Nat)) (L : Nat) (s : QState K V) (c : Nat → List Nat),
      InvC L s c → s.maxSize = 0 →
      (∀ p ∈ ks, 1 ≤ p.2 ∧ p.2 ≤ L + 1) →
      ∀ fuel, s.nodes.length + ks.length + 2 < fuel →
      ∃ s1 c1, pushSeq fuel L s ks = some s1 ∧ InvC L s1 c1 ∧
        s1.nodes.length = s.nodes.length + ks.length ∧ s1.maxSize = 0 ∧
        (livePrios s1 (c1 0)).Perm (ks.map Prod.fst ++ livePrios s (c 0)) := by
  intro ks
  induction ks with
  | nil =>
    intro L s c hI hms hlv fuel hfuel
    exact ⟨s, c, rfl, hI, rfl, hms, by simp⟩
  | cons p rest ih =>
    intro L s c hI hms hlv fuel hfuel
    obtain ⟨k, lvl⟩ := p
    obtain ⟨hl1, hl2⟩ := hlv (k, lvl) (by simp)
    obtain ⟨s', c2, A0, B0, hcomp, hI', hAB, hAlt, hBge, hlive', hpk, hdk, hpold, hdold,
      hnl', hmx', hsz'⟩ :=
      push_main L s c hI k default lvl hl1 hl2 (Or.inl hms) fuel (by omega)
    have hmemlt2 : ∀ x ∈ c 0, x < s.nodes.length := by
      intro x hx
      obtain ⟨-, hsome⟩ := hI.c0_valid x hx
      obtain ⟨ndx, hndx⟩ := Option.isSome_iff_exists.mp hsome
      have h1 : s.nodes[x]? = some ndx := hndx
      exact (List.getElem?_eq_some.mp h1).1
    have hmemAB : ∀ x, x ∈ A0 ∨ x ∈ B0 → x ≠ s.nodes.length := by
      intro x hx
      have hxlive : x ∈ liveIds s (c 0) := by
        rw [hAB]
        rcases hx with h | h
        · exact List.mem_append_left B0 h
        · exact List.mem_append_right A0 h
      have hxc : x ∈ c 0 := List.mem_of_mem_filter hxlive
      have := hmemlt2 x hxc
      omega
    have hApr : A0.map (prioD s') = A0.map (prioD s) := by
      refine List.map_congr_left ?_
      intro x hx
      exact hpold x (hmemAB x (Or.inl hx))
    have hBpr : B0.map (prioD s') = B0.map (prioD s) := by
      refine List.map_congr_left ?_
      intro x hx
      exact hpold x (hmemAB x (Or.inr hx))
    obtain ⟨s1, c1, hcomp1, hI1, hnl1, hmx1, hperm1⟩ :=
      ih L s' c2 hI' (by rw [hmx', hms]) (fun q hq => hlv q (List.mem_cons_of_mem _ hq)) fuel (by
        rw [hnl']
        simp only [List.length_cons] at hfuel
        omega)
    refine ⟨s1, c1, ?_, hI1, ?_, hmx1, ?_⟩
    · show (push fuel L s k default lvl).bind _ = _
      rw [hcomp]
      simp only [Option.some_bind]
      exact hcomp1
    · rw [hnl1, hnl']
      simp
      omega
    · -- permutation bookkeeping
      have hl' : livePrios s' (c2 0) = A0.map (prioD s) ++ prioD s' s.nodes.length ::
          B0.map (prioD s) := by
        unfold livePrios
        rw [hlive', List.map_append, List.map_cons, hApr, hBpr]
      have hls : livePrios s (c 0) = A0.map (prioD s) ++ B0.map (prioD s) := by
        unfold livePrios
        rw [hAB, List.map_append]
      refine hperm1.trans ?_
      rw [hl', hpk, hls]
      exact (List.Perm.append_left (rest.map Prod.fst) List.perm_middle).trans
        List.perm_middle

/-! ## Claim C2: the bottom-level sortedness invariant -/

/-- C2: a fresh queue satisfies the quiescent invariant; `Push` (for every
key, every level draw and every invariant state whose capacity gate passes)
and `TryPop` preserve it; and the invariant says exactly that the bottom
chain from `head.next[0]` lists every live (unmarked) node exactly once in
non-decreasing priority order. -/
theorem bottom_sorted_invariant [Inhabited K] [Inhabited V] :
    (∀ L ms : Nat, Inv L (initQ L ms : QState K V)) ∧
    (∀ (L : Nat) (s : QState K V) (k : K) (d : V) (lvl fuel : Nat), Inv L s →
      1 ≤ lvl → lvl ≤ L + 1 → (s.maxSize = 0 ∨ s.size < s.maxSize) →
      s.nodes.length + 2 < fuel →
      ∃ s', push fuel L s k d lvl = some s' ∧ Inv L s') ∧
    (∀ (L : Nat) (s : QState K V) (fuel : Nat) (pr0 : K) (d0 : V), Inv L s →
      s.nodes.length + 1 < fuel →
      ∃ s' b pr dd, tryPop fuel L s pr0 d0 = some (s', b, pr, dd) ∧ Inv L s') ∧
    (∀ (L : Nat) (s : QState K V), Inv L s → BottomLive s) := by
  refine ⟨?_, ?_, ?_, ?_⟩
  · intro L ms
    exact ⟨fun _ => [], invc_initQ L ms⟩
  · intro L s k d lvl fuel hInv h1 h2 hg hf
    obtain ⟨c, hI⟩ := hInv
    obtain ⟨s', c2, A0, B0, hcomp, hI', -, -, -, -, -, -, -, -, -, -, -⟩ :=
      push_main L s c hI k d lvl h1 h2 hg fuel hf
    exact ⟨s', hcomp, c2, hI'⟩
  · intro L s fuel pr0 d0 hInv hf
    obtain ⟨c, hI⟩ := hInv
    obtain ⟨cu, hcu0, hemp, hpop⟩ := tryPop_inv L s c hI fuel hf pr0 d0
    cases hc : cu 0 with
    | nil =>
      obtain ⟨t1, hcomp, hI1, -, -, -⟩ := hemp hc
      exact ⟨t1, false, pr0, d0, hcomp, cu, hI1⟩
    | cons f frest =>
      obtain ⟨s2, hcomp, hI2, -, -, -, -, -, -⟩ := hpop f frest hc
      exact ⟨s2, true, prioD s f, dataD s f, hcomp, cu, hI2⟩
  · exact inv_bottomLive

theorem bottom_sorted_invariant_witness :
    (Inv 0 (initQ 0 0 : QState Nat Unit)) ∧
    (∃ s', push 4 0 (initQ 0 0 : QState Nat Unit) 5 () 1 = some s' ∧ Inv 0 s') ∧
    (∃ s' b pr dd, tryPop 3 0 (initQ 0 0 : QState Nat Unit) 0 () = some (s', b, pr, dd) ∧
      Inv 0 s') ∧
    BottomLive (initQ 0 0 : QState Nat Unit) := by
  have h := @bottom_sorted_invariant Nat Unit _ _ _
  exact ⟨h.1 0 0,
    h.2.1 0 (initQ 0 0) 5 () 1 4 (h.1 0 0) (by decide) (by decide) (Or.inl rfl) (by decide),
    h.2.2.1 0 (initQ 0 0) 3 0 () (h.1 0 0) (by decide),
    h.2.2.2 0 (initQ 0 0) (h.1 0 0)⟩

/-! ## Claim C1: the single-threaded push-then-pop law -/

/-- C1: pushing the keys of `ks` (with their random level draws) on a fresh
unbounded queue and then popping `ks.length` times yields every key exactly
once (a permutation), in non-decreasing order, each `TryPop` returning
`true`; afterwards `GetSize() = 0` and one further `TryPop` returns `false`
with untouched out-parameters. -/
theorem push_then_pop_law [Inhabited K] [Inhabited V] (L : Nat) (ks : List (K × Nat))
    (hlv : ∀ p ∈ ks, 1 ≤ p.2 ∧ p.2 ≤ L + 1) (pr0 : K) (d0 : V) :
    ∃ s1 s2 out s3,
      pushSeq (ks.length + 4) L (initQ L 0) ks = some s1 ∧
      popN (ks.length + 4) L s1 ks.length pr0 d0 = some (s2, out) ∧
      out.map Prod.fst = List.replicate ks.length true ∧
      (out.map Prod.snd).Perm (ks.map Prod.fst) ∧
      List.Chain' (fun a b => a ≤ b) (out.map Prod.snd) ∧
      getSize s2 = 0 ∧
      tryPop (ks.length + 4) L s2 pr0 d0 = some (s3, false, pr0, d0) := by
  have hIinit := invc_initQ (K := K) (V := V) L 0
  have hinitlen : (initQ L 0 : QState K V).nodes.length = 1 := rfl
  obtain ⟨s1, c1, hcomp1, hI1, hnl1, hmx1, hperm1⟩ :=
    pushSeq_main ks L (initQ L 0) (fun _ => []) hIinit rfl hlv (ks.length + 4) (by omega)
  have hperm2 : ((liveIds s1 (c1 0)).map (prioD s1)).Perm (ks.map Prod.fst) := by
    have h2 : (livePrios s1 (c1 0)).Perm (ks.map Prod.fst ++ ([] : List K)) := hperm1
    rw [List.append_nil] at h2
    exact h2
  have hlenM : (liveIds s1 (c1 0)).length = ks.length := by
    have h3 := hperm2.length_eq
    simpa using h3
  obtain ⟨s2, out, c3, hcomp2, hI3, hlive3, hnl3, hfst, hsnd⟩ :=
    popN_drain (liveIds s1 (c1 0)) L s1 c1 hI1 rfl (ks.length + 4) (by omega) pr0 d0
  rw [hlenM] at hcomp2 hfst
  have hsz0 : s2.size = 0 := by
    have h4 := hI3.size_eq
    rw [hlive3] at h4
    simpa using h4
  obtain ⟨cu, hcu0, hemp, -⟩ := tryPop_inv L s2 c3 hI3 (ks.length + 4)
    (by omega) pr0 d0
  obtain ⟨s3, hcomp3, -, -, -, -⟩ := hemp (by rw [hcu0, hlive3])
  refine ⟨s1, s2, out, s3, hcomp1, hcomp2, hfst, ?_, ?_, hsz0, hcomp3⟩
  · rw [hsnd]
    exact hperm2
  · rw [hsnd]
    have hsort : SortedIds s1 (liveIds s1 (c1 0)) :=
      sortedIds_sublist s1 _ (c1 0) (List.filter_sublist _) hI1.sorted0
    exact (List.chain'_map (prioD s1)).mpr hsort

theorem push_then_pop_law_witness :
    (∀ p ∈ [((5 : Nat), 1), (1, 1), (3, 1)], 1 ≤ p.2 ∧ p.2 ≤ 0 + 1) ∧
    (∃ s1 s2 out s3,
      pushSeq ([((5 : Nat), 1), (1, 1), (3, 1)].length + 4) 0
        (initQ 0 0 : QState Nat Unit) [((5 : Nat), 1), (1, 1), (3, 1)] = some s1 ∧
      popN ([((5 : Nat), 1), (1, 1), (3, 1)].length + 4) 0 s1
        [((5 : Nat), 1), (1, 1), (3, 1)].length 0 () = some (s2, out) ∧
      out.map Prod.fst = List.replicate [((5 : Nat), 1), (1, 1), (3, 1)].length true ∧
      (out.map Prod.snd).Perm ([((5 : Nat), 1), (1, 1), (3, 1)].map Prod.fst) ∧
      List.Chain' (fun a b => a ≤ b) (out.map Prod.snd) ∧
      getSize s2 = 0 ∧
      tryPop ([((5 : Nat), 1), (1, 1), (3, 1)].length + 4) 0 s2 0 ()
        = some (s3, false, 0, ())) :=
  ⟨by decide, push_then_pop_law 0 [((5 : Nat), 1), (1, 1), (3, 1)] (by decide) 0 ()⟩

/-! ## Claim C3: insert-position tie-breaking -/

/-- C3 (counterexample to "insertions append at the end of an equal-key
run"): pushing key `7` twice on a fresh queue produces the bottom chain
`[2, 1]` — the second node of priority `7` (id `2`) is linked *before* the
first (id `1`), because the search's successor is the first node with
priority `≥ 7`, which includes the equal-key node itself.  Appending at the
end of the run would have produced `[1, 2]`. -/
theorem equal_key_insert_front_cex :
    (do
      let s1 ← push 5 0 (initQ 0 0 : QState Nat Unit) 7 () 1
      let s2 ← push 5 0 s1 7 () 1
      let ch ← bottomChain s2
      pure (ch, prioD s2 1, prioD s2 2)) = some ([2, 1], 7, 7) := by
  decide

/-- C3 (amended): the search does return, per level, the last node of
priority strictly `< k` as predecessor and the first node of priority
`≥ k` (or null) as successor — but therefore a new node with an
already-present key is inserted at the *beginning* of the run of equal-key
nodes, not at its end: the live bottom chain splits as `A0 ++ B0` with
`A0` strictly below `k` and `B0` at or above `k` (the equal-key run is a
prefix of `B0`), and the new node lands between them. -/
theorem insert_position_spec [Inhabited K] [Inhabited V] (L : Nat) (s : QState K V)
    (c : Nat → List Nat) (hI : InvC L s c) (k : K) (d : V) (lvl : Nat)
    (h1 : 1 ≤ lvl) (h2 : lvl ≤ L + 1) (hg : s.maxSize = 0 ∨ s.size < s.maxSize)
    (fuel : Nat) (hf : s.nodes.length + 2 < fuel) :
    ∃ (s' : QState K V) (c2 : Nat → List Nat) (A0 B0 : List Nat),
      push fuel L s k d lvl = some s' ∧
      liveIds s (c 0) = A0 ++ B0 ∧
      (∀ x ∈ A0, prioD s x < k) ∧ (∀ x ∈ B0, k ≤ prioD s x) ∧
      liveIds s' (c2 0) = A0 ++ s.nodes.length :: B0 ∧
      prioD s' s.nodes.length = k := by
  obtain ⟨s', c2, A0, B0, hcomp, hI', hAB, hAlt, hBge, hlive', hpk, -, -, -, -, -, -⟩ :=
    push_main L s c hI k d lvl h1 h2 hg fuel hf
  exact ⟨s', c2, A0, B0, hcomp, hAB, hAlt, fun x hx => le_of_not_lt (hBge x hx),
    hlive', hpk⟩

theorem insert_position_spec_witness :
    ∃ (s' : QState Nat Unit) (c2 : Nat → List Nat) (A0 B0 : List Nat),
      push 4 0 (initQ 0 0 : QState Nat Unit) 7 () 1 = some s' ∧
      liveIds (initQ 0 0 : QState Nat Unit) ((fun _ => ([] : List Nat)) 0) = A0 ++ B0 ∧
      (∀ x ∈ A0, prioD (initQ 0 0 : QState Nat Unit) x < 7) ∧
      (∀ x ∈ B0, 7 ≤ prioD (initQ 0 0 : QState Nat Unit) x) ∧
      liveIds s' (c2 0) = A0 ++ (initQ 0 0 : QState Nat Unit).nodes.length :: B0 ∧
      prioD s' (initQ 0 0 : QState Nat Unit).nodes.length = 7 :=
  insert_position_spec 0 (initQ 0 0) (fun _ => []) (invc_initQ 0 0) 7 () 1
    (by decide) (by decide) (Or.inl rfl) 4 (by decide)

/-! ## Claim C4: the size counter never underflows -/

/-- C4: under the quiescent invariant (with a heap below `2^32` nodes, so
the `u32` counter is exact), `TryPop` leaves `size` unchanged on every
`false` return, and decrements it by exactly one only on a `true` return —
which requires `size ≥ 1`.  In particular when `size = 0` the call returns
`false` and `size` stays `0`: the counter is never decremented at zero and
never underflows. -/
theorem tryPop_size_safety [Inhabited K] [Inhabited V] (L : Nat) (s : QState K V)
    (c : Nat → List Nat) (hI : InvC L s c) (hlen : s.nodes.length < 2 ^ 32)
    (fuel : Nat) (hfuel : s.nodes.length + 1 < fuel) (pr0 : K) (d0 : V) :
    (s.size = 0 → ∃ t1, tryPop fuel L s pr0 d0 = some (t1, false, pr0, d0) ∧
      t1.size = 0) ∧
    (∀ t1 b pr dd, tryPop fuel L s pr0 d0 = some (t1, b, pr, dd) →
      (b = false → t1.size = s.size) ∧
      (b = true → 1 ≤ s.size ∧ t1.size = s.size - 1)) := by
  obtain ⟨cu, hcu0, hemp, hpop⟩ := tryPop_inv L s c hI fuel hfuel pr0 d0
  have hlive_lt : (liveIds s (c 0)).length < 2 ^ 32 := by
    have h1 : (liveIds s (c 0)).Sublist (c 0) := List.filter_sublist _
    have h2 := h1.length_le
    have h3 : (c 0).length ≤ s.nodes.length :=
      nodup_valid_length_le s (c 0) hI.nodup0 (fun i hi => (hI.c0_valid i hi).2)
    omega
  have hsz : s.size = (liveIds s (c 0)).length := by
    rw [hI.size_eq, Nat.mod_eq_of_lt hlive_lt]
  constructor
  · intro h0
    have hM : liveIds s (c 0) = [] := by
      refine List.eq_nil_of_length_eq_zero ?_
      omega
    obtain ⟨t1, hcomp, -, -, hts, -⟩ := hemp (by rw [hcu0, hM])
    exact ⟨t1, hcomp, by rw [hts, h0]⟩
  · intro t1 b pr dd hres
    cases hM : liveIds s (c 0) with
    | nil =>
      obtain ⟨t1', hcomp, -, -, hts, -⟩ := hemp (by rw [hcu0, hM])
      rw [hcomp] at hres
      simp only [Option.some_inj, Prod.mk.injEq] at hres
      obtain ⟨h1, h2, -, -⟩ := hres
      constructor
      · intro hb
        rw [← h1, hts]
      · intro hb
        rw [← h2] at hb
        cases hb
    | cons f frest =>
      obtain ⟨s2, hcomp, -, -, -, -, hsz2, -, -⟩ := hpop f frest (by rw [hcu0, hM])
      rw [hcomp] at hres
      simp only [Option.some_inj, Prod.mk.injEq] at hres
      obtain ⟨h1, h2, -, -⟩ := hres
      have hge1 : 1 ≤ s.size := by
        rw [hsz, hM]
        simp
      constructor
      · intro hb
        rw [← h2] at hb
        cases hb
      · intro hb
        refine ⟨hge1, ?_⟩
        rw [← h1, hsz2]
        have hlt : s.size < 2 ^ 32 := by
          rw [hsz]
          exact hlive_lt
        rw [show (2:Nat) ^ 32 = 4294967296 from by norm_num] at hlt ⊢
        omega

theorem tryPop_size_safety_witness :
    ∃ t1, tryPop 3 0 (initQ 0 0 : QState Nat Unit) 0 () = some (t1, false, 0, ()) ∧
      t1.size = 0 :=
  (tryPop_size_safety 0 (initQ 0 0) (fun _ => []) (invc_initQ 0 0)
    (by decide) 3 (by decide) 0 ()).1 rfl

/-! ## Claim C10: the one-argument KV push carries a default value -/

/-- C10: `KVQueue::Push(priority)` inserts a node whose value is
default-constructed; on a fresh queue a subsequent `TryPop` claims exactly
that node and returns `true` with that key, writing the default value into
the data out-parameter. -/
theorem kv_one_arg_push_default [Inhabited K] [Inhabited V] (L : Nat) (k : K)
    (lvl : Nat) (h1 : 1 ≤ lvl) (h2 : lvl ≤ L + 1) (fuel : Nat) (hf : 3 < fuel)
    (pr0 : K) (d0 : V) :
    ∃ s' s2, kvPushOne fuel L (initQ L 0 : QState K V) k lvl = some s' ∧
      tryPop fuel L s' pr0 d0 = some (s2, true, k, (default : V)) := by
  have hI := invc_initQ (K := K) (V := V) L 0
  have hinitlen : (initQ L 0 : QState K V).nodes.length = 1 := rfl
  obtain ⟨s', c2, A0, B0, hcomp, hI', hAB, -, -, hlive', hpk, hdk, -, -, hnl, -, -⟩ :=
    push_main L (initQ L 0) (fun _ => []) hI k default lvl h1 h2 (Or.inl rfl) fuel
      (by omega)
  have hliveinit : liveIds (initQ L 0 : QState K V) ((fun _ => ([] : List Nat)) 0)
      = [] := rfl
  rw [hliveinit] at hAB
  obtain ⟨hA, hB⟩ := List.append_eq_nil.mp hAB.symm
  subst hA
  subst hB
  rw [List.nil_append] at hlive'
  obtain ⟨cu, hcu0, -, hpop⟩ := tryPop_inv L s' c2 hI' fuel (by omega) pr0 d0
  obtain ⟨s2, hcomp2, -, -, -, -, -, -, -⟩ :=
    hpop ((initQ L 0 : QState K V).nodes.length) [] (by rw [hcu0, hlive'])
  refine ⟨s', s2, hcomp, ?_⟩
  rw [hcomp2, hpk, hdk]

theorem kv_one_arg_push_default_witness :
    ∃ s' s2, kvPushOne 4 0 (initQ 0 0 : QState Nat Nat) 7 1 = some s' ∧
      tryPop 4 0 s' 0 5 = some (s2, true, 7, (default : Nat)) :=
  kv_one_arg_push_default 0 7 1 (by decide) (by decide) 4 (by decide) 0 5

end CSLPQ
